import Mathlib

/-!
# LibTrace: signature generator, archive walker and object analyzer

A shallow embedding of `CDisassembler::AnalyzeFuncGenerateSignature`
(`LibTrace/CDisassembler/CDisassembler.hpp`) and of `CLibFileParser::ParseFile`
(`LibTrace/CFileParser/CLibFileParser.hpp`): its member loop, the task it enqueues for
every object, and the merge of the results, followed by theorems about them.

Conventions of the embedding:

* memory is a `List Nat` of cells; a read of a `char` / `std::uint8_t` cell
  is `readByte`, which reduces the cell modulo `2 ^ 8`;
* pointers into the archive buffer are offsets (`Nat`) from `memStart`; the build is
  a 64-bit one, where `std::size_t` holds every value of a 10-digit size field and
  the offsets of the walker do not wrap;
* the fields of a decoded instruction are `ZyanU8` values, kept as `Nat`: the source
  compares and adds them in `int`, where they cannot overflow;
* the instruction decoder (Zydis) is an external library: it is a parameter
  `decode` of the signature generator;
* `while` loops carry a fuel argument; a loop that runs out of fuel returns
  `none`;
* what the C++ standard leaves open, the order of equal elements after
  `std::ranges::sort` and the iteration order of a `std::unordered_map`, is a parameter
  of the task (`Toolchain`), with the guarantees of the standard as contracts;
* the tasks read the buffer only, so the worker pool is the list of their results in
  submission order;
* a read outside the buffer, which the source does not exclude everywhere, yields `0`.
-/

namespace LibTrace

/-! ## Memory -/

/-- One `std::uint8_t` read at index `k` of the memory `mem`. -/
def readByte (mem : List Nat) (k : Nat) : Nat :=
  mem.getD k 0 % 256

/-! ## The decoder interface (Zydis) -/

/-- The two machine modes `AnalyzeFuncGenerateSignature` selects from. -/
inductive ZydisMachineMode where
  | LONG_64
  | LEGACY_32
deriving DecidableEq, Repr

/-- The two stack widths `AnalyzeFuncGenerateSignature` selects from. -/
inductive ZydisStackWidth where
  | WIDTH_64
  | WIDTH_32
deriving DecidableEq, Repr

/-- The state `ZydisDecoderInit` leaves in a `ZydisDecoder`. -/
structure ZydisDecoder where
  machine_mode : ZydisMachineMode
  stack_width : ZydisStackWidth
deriving DecidableEq, Repr

/-- The fields of `instruction.raw.imm[0]` the generator reads
(`size` is in bits, `offset` is relative to the start of the instruction). -/
structure ZydisRawImm where
  is_relative : Bool
  size : Nat
  offset : Nat
deriving DecidableEq, Repr

/-- The fields of `instruction.raw.disp` the generator reads. -/
structure ZydisRawDisp where
  size : Nat
  offset : Nat
deriving DecidableEq, Repr

/-- The fields of `ZydisDecodedInstruction` the generator reads;
`attr_is_relative` is `instruction.attributes & ZYDIS_ATTRIB_IS_RELATIVE`. -/
structure ZydisDecodedInstruction where
  length : Nat
  attr_is_relative : Bool
  imm0 : ZydisRawImm
  disp : ZydisRawDisp
deriving DecidableEq, Repr

/-- The call `ZydisDecoderDecodeInstruction(&decoder, nullptr, buffer, length, &instruction)`:
the decoder state and the `length` bytes at `buffer` go in, `some instruction` comes out on
`ZYAN_SUCCESS`, `none` otherwise. -/
abbrev DecodeFn := ZydisDecoder → List Nat → Option ZydisDecodedInstruction

/-- The call `ZydisDecoderInit(&decoder, machineMode, addressWidth)` with the two
values chosen from `bIsX64`. -/
def ZydisDecoderInit (bIsX64 : Bool) : ZydisDecoder :=
  { machine_mode := if bIsX64 then ZydisMachineMode.LONG_64 else ZydisMachineMode.LEGACY_32
    stack_width := if bIsX64 then ZydisStackWidth.WIDTH_64 else ZydisStackWidth.WIDTH_32 }

/-! ## `CDisassembler::AnalyzeFuncGenerateSignature` -/

/-- The stream insertion
`std::uppercase << std::hex << std::setw(2) << std::setfill('0') << static_cast<int>(v)`:
the digits of `v` in base 16, upper case, padded on the left with `'0'` to width 2. -/
def streamHex (v : Nat) : String :=
  let ds := (Nat.toDigits 16 v).map Char.toUpper
  String.mk (List.replicate (2 - ds.length) '0' ++ ds)

/-- The pair `(relativeOperandOffset, relativeOperandSize)` after the
`if (isRelative)` block; both start as `{}`, that is `0`. -/
def relativeOperand (ins : ZydisDecodedInstruction) : Nat × Nat :=
  if ins.attr_is_relative then
    if ins.imm0.is_relative then
      (ins.imm0.offset, ins.imm0.size / 8)
    else if ins.disp.size > 0 then
      (ins.disp.offset, ins.disp.size / 8)
    else
      (0, 0)
  else
    (0, 0)

/-- The flag `isWildcardByte` for byte `i` of the instruction. -/
def isWildcardByte (ins : ZydisDecodedInstruction) (i : Nat) : Bool :=
  ins.attr_is_relative && decide ((relativeOperand ins).2 > 0)
    && decide (i ≥ (relativeOperand ins).1)
    && decide (i < (relativeOperand ins).1 + (relativeOperand ins).2)

/-- One iteration of the inner `for` loop: byte `i` of the instruction at `offset`
is written to the stream, followed by a space unless `i` is the last index
(`i < instruction.length - 1` is evaluated in `int`). -/
def emitByte (pCode : List Nat) (offset : Nat) (ins : ZydisDecodedInstruction)
    (stream : String) (i : Nat) : String :=
  let s :=
    if isWildcardByte ins i then stream ++ "??"
    else stream ++ streamHex (readByte pCode (offset + i))
  if (i : Int) < (ins.length : Int) - 1 then s ++ " " else s

/-- The inner loop `for (ZyanU8 i = 0; i < instruction.length; ++i)`. -/
def emitInstruction (pCode : List Nat) (offset : Nat) (ins : ZydisDecodedInstruction)
    (stream : String) : String :=
  (List.range ins.length).foldl (emitByte pCode offset ins) stream

/-- The `while` loop of `AnalyzeFuncGenerateSignature`, from the state
`(offset, signatureStream)`; the result is the state at loop exit. The decoder is
handed the `codeSize - offset` bytes at `pCode + offset`. -/
def signatureLoop (decode : DecodeFn) (decoder : ZydisDecoder) (pCode : List Nat)
    (codeSize : Nat) : Nat → Nat → String → Option (Nat × String)
  | 0, _, _ => none
  | fuel + 1, offset, stream =>
    if offset < codeSize then
      match decode decoder ((pCode.drop offset).take (codeSize - offset)) with
      | none => some (offset, stream)
      | some ins =>
        let stream1 := if offset > 0 then stream ++ " " else stream
        signatureLoop decode decoder pCode codeSize fuel (offset + ins.length)
          (emitInstruction pCode offset ins stream1)
    else
      some (offset, stream)

/-- The state at exit of the `while` loop, started from `offset = 0` and an empty stream.
Every iteration adds `instruction.length` to `offset`, so `codeSize + 1` units of
fuel serve a decoder whose instructions have positive length. -/
def runSignatureLoop (decode : DecodeFn) (pCode : List Nat) (codeSize : Nat)
    (bIsX64 : Bool) : Option (Nat × String) :=
  signatureLoop decode (ZydisDecoderInit bIsX64) pCode codeSize (codeSize + 1) 0 ""

/-- The function `AnalyzeFuncGenerateSignature`: the value left in `pattern`. -/
def AnalyzeFuncGenerateSignature (decode : DecodeFn) (pCode : List Nat) (codeSize : Nat)
    (bIsX64 : Bool) : Option String :=
  (runSignatureLoop decode pCode codeSize bIsX64).map Prod.snd

/-- The function `CDisassembler::GetSignature`. -/
def GetSignature (decode : DecodeFn) (pCode : List Nat) (codeSize : Nat)
    (bIsX64 : Bool) : Option String :=
  AnalyzeFuncGenerateSignature decode pCode codeSize bIsX64

/-- The instructions the `while` loop decodes, each with the offset it was decoded at,
in order: the same control flow as `signatureLoop`, keeping the decoder results. -/
def decodedInstructions (decode : DecodeFn) (decoder : ZydisDecoder) (pCode : List Nat)
    (codeSize : Nat) : Nat → Nat → List (Nat × ZydisDecodedInstruction)
  | 0, _ => []
  | fuel + 1, offset =>
    if offset < codeSize then
      match decode decoder ((pCode.drop offset).take (codeSize - offset)) with
      | none => []
      | some ins =>
        (offset, ins) :: decodedInstructions decode decoder pCode codeSize fuel
          (offset + ins.length)
    else
      []

/-- The instructions decoded by one call of `GetSignature`. -/
def decodedBy (decode : DecodeFn) (pCode : List Nat) (codeSize : Nat)
    (bIsX64 : Bool) : List (Nat × ZydisDecodedInstruction) :=
  decodedInstructions decode (ZydisDecoderInit bIsX64) pCode codeSize (codeSize + 1) 0

/-- What the generator relies on from a successful decode: the instruction has at
least one byte and no more bytes than the buffer handed to the decoder. -/
def DecoderLengthOk (decode : DecodeFn) : Prop :=
  ∀ d buf ins, decode d buf = some ins → 1 ≤ ins.length ∧ ins.length ≤ buf.length

/-- A one-byte instruction without a relative operand (`90`). -/
def sampleNop : ZydisDecodedInstruction :=
  { length := 1, attr_is_relative := false,
    imm0 := { is_relative := false, size := 0, offset := 0 },
    disp := { size := 0, offset := 0 } }

/-- A five-byte instruction with a 32-bit relative immediate at offset 1
(`E8 rel32`, `E9 rel32`). -/
def sampleRel32 : ZydisDecodedInstruction :=
  { length := 5, attr_is_relative := true,
    imm0 := { is_relative := true, size := 32, offset := 1 },
    disp := { size := 0, offset := 0 } }

/-- A seven-byte instruction with the relative attribute and a 32-bit displacement at
offset 3 (`48 8B 05 disp32`). -/
def sampleRipMov : ZydisDecodedInstruction :=
  { length := 7, attr_is_relative := true,
    imm0 := { is_relative := false, size := 0, offset := 0 },
    disp := { size := 32, offset := 3 } }

/-- A small decoder used to run the generator on concrete bytes: `90` (one byte),
`E8`/`E9` with a 32-bit relative immediate at offset 1 (five bytes), and
`48 8B 05` with a 32-bit displacement at offset 3 (seven bytes, relative attribute set);
everything else fails to decode. -/
def sampleDecode : DecodeFn := fun _ buf =>
  match buf with
  | 0x90 :: _ => some sampleNop
  | 0xE8 :: _ :: _ :: _ :: _ :: _ => some sampleRel32
  | 0xE9 :: _ :: _ :: _ :: _ :: _ => some sampleRel32
  | 0x48 :: 0x8B :: 0x05 :: _ :: _ :: _ :: _ :: _ => some sampleRipMov
  | _ => none

/-! ## `CLibFileParser::ParseFile`: the member loop -/

/-- The `n` cells at index `k`, read as bytes: a `std::string_view` of `n` chars at `k`. -/
def readBytes (mem : List Nat) (k n : Nat) : List Nat :=
  (List.range n).map fun i => readByte mem (k + i)

/-- A little-endian 16-bit field at index `k` (`WORD`). -/
def readU16 (mem : List Nat) (k : Nat) : Nat :=
  readByte mem k + 256 * readByte mem (k + 1)

/-- A little-endian 32-bit field at index `k` (`DWORD`). -/
def readU32 (mem : List Nat) (k : Nat) : Nat :=
  readByte mem k + 256 * readByte mem (k + 1) + 65536 * readByte mem (k + 2)
    + 16777216 * readByte mem (k + 3)

/-- The bytes of a string literal. -/
def charCodes (s : String) : List Nat :=
  s.data.map Char.toNat

/-- Modelled from the spec: the constant `IMAGE_ARCHIVE_START_SIZE` of `<Windows.h>`,
which is not in the repository: the archive starts with a fixed 8-byte magic. -/
def IMAGE_ARCHIVE_START_SIZE : Nat := 8

/-- Modelled from the spec: the constant `IMAGE_ARCHIVE_START` of `<Windows.h>`,
which is not in the repository: the magic of the archive. -/
def IMAGE_ARCHIVE_START : List Nat := charCodes "!<arch>\n"

/-- Modelled from the spec: the constant `IMAGE_ARCHIVE_LINKER_MEMBER` of `<Windows.h>`,
which is not in the repository: the reserved `/` name as it is encoded on disk, the
full 16-byte field with its trailing spaces. -/
def IMAGE_ARCHIVE_LINKER_MEMBER : List Nat := charCodes "/               "

/-- Modelled from the spec: the constant `IMAGE_ARCHIVE_LONGNAMES_MEMBER` of `<Windows.h>`,
which is not in the repository: the reserved `//` name as it is encoded on disk, the
full 16-byte field with its trailing spaces. -/
def IMAGE_ARCHIVE_LONGNAMES_MEMBER : List Nat := charCodes "//              "

/-- Modelled from the spec: `sizeof(IMAGE_FILE_HEADER)`, a type of `<Windows.h>`, which
is not in the repository: the file header has 20 bytes. -/
def SIZEOF_IMAGE_FILE_HEADER : Nat := 20

/-- Modelled from the spec: the constant `IMAGE_FILE_MACHINE_I386` of `<Windows.h>`,
which is not in the repository: the machine type i386, with its value in the
object-file format. -/
def IMAGE_FILE_MACHINE_I386 : Nat := 0x014c

/-- Modelled from the spec: the constant `IMAGE_FILE_MACHINE_AMD64` of `<Windows.h>`,
which is not in the repository: the machine type amd64, with its value in the
object-file format. -/
def IMAGE_FILE_MACHINE_AMD64 : Nat := 0x8664

/-- The value of `ARCHIVE_MEMBER_HEADER_SIZE`, which the source asserts to be 60. -/
def ARCHIVE_MEMBER_HEADER_SIZE : Nat := 60

/-- The field `ArchiveMemberHeader::Name` (16 chars at offset 0) of the header at `cur`. -/
def headerName (buffer : List Nat) (cur : Nat) : List Nat :=
  readBytes buffer cur 16

/-- The field `ArchiveMemberHeader::Size` (10 chars at offset 48, after `Name[16]`,
`Date[12]`, `UID[6]`, `GID[6]` and `Mode[8]`) of the header at `cur`. -/
def headerSize (buffer : List Nat) (cur : Nat) : List Nat :=
  readBytes buffer (cur + 48) 10

/-- Modelled from the spec: the field `IMAGE_FILE_HEADER::Machine` of `<Windows.h>`, which
is not in the repository: a 16-bit machine type, the first field of the file header. -/
def fileHeaderMachine (buffer : List Nat) (pFileHeader : Nat) : Nat :=
  readU16 buffer pFileHeader

/-- Modelled from the spec: the field `IMAGE_FILE_HEADER::PointerToSymbolTable` of
`<Windows.h>`, which is not in the repository: a 32-bit field, at offset 8 after
the machine type, the number of sections (16 bits each) and the time stamp (32 bits). -/
def fileHeaderPointerToSymbolTable (buffer : List Nat) (pFileHeader : Nat) : Nat :=
  readU32 buffer (pFileHeader + 8)

/-- Modelled from the spec: the field `IMAGE_FILE_HEADER::NumberOfSymbols` of `<Windows.h>`,
which is not in the repository: a 32-bit field, at offset 12. -/
def fileHeaderNumberOfSymbols (buffer : List Nat) (pFileHeader : Nat) : Nat :=
  readU32 buffer (pFileHeader + 12)

/-- The predicate `std::isspace` on an `unsigned char` in the "C" locale: space, and the
controls `\t`, `\n`, `\v`, `\f`, `\r`. -/
def isspace (ch : Nat) : Bool :=
  ch == 32 || (decide (9 ≤ ch) && decide (ch ≤ 13))

/-- The lambda `RemoveSpaces`: the view without its longest suffix of `isspace` chars
(`find_if` on the reversed view stops at the last char that is not a space). -/
def RemoveSpaces (s : List Nat) : List Nat :=
  (s.reverse.dropWhile isspace).reverse

/-- A decimal digit `'0'..'9'`. -/
def isdigit (ch : Nat) : Bool :=
  decide (48 ≤ ch) && decide (ch ≤ 57)

/-- The largest `std::size_t` (a 64-bit build). -/
def SIZE_MAX : Nat := 2 ^ 64 - 1

/-- The value of a run of decimal digits. -/
def decimalValue (ds : List Nat) : Nat :=
  ds.foldl (fun acc d => 10 * acc + (d - 48)) 0

/-- The call `std::from_chars(first, last, size)` on a `std::size_t`, base 10, as the C++
standard library defines it: the longest run of digits at the start of the range is
converted, no sign and no leading space is accepted, and what follows the digits is left
unread. `none` stands for `ec != std::errc{}`: no digit at the start
(`invalid_argument`) or a value above `SIZE_MAX` (`result_out_of_range`). The source
tests `ec` only. -/
def from_chars (s : List Nat) : Option Nat :=
  let ds := s.takeWhile isdigit
  if ds = [] then none
  else if decimalValue ds > SIZE_MAX then none
  else some (decimalValue ds)

/-- What one iteration of the member loop does with the header at `cur`. -/
inductive MemberStep where
  /-- The `break` after "Invalid member size. Stopping parse." -/
  | invalidSize
  /-- The `break` after "Member size is invalid, leads out of file bounds. Stopping." -/
  | outOfBounds
  /-- One of the four `continue` branches: the cursor moves to `pNextHeader`. -/
  | skip (pNextHeader : Nat)
  /-- The task for the payload at `pMemberData` is enqueued, the cursor moves to
  `pNextHeader`. -/
  | submit (pMemberData : Nat) (pNextHeader : Nat)
deriving DecidableEq, Repr

/-- The body of the member loop for the header at offset `cur`; `memEnd` is
`buffer.length`. -/
def memberStep (buffer : List Nat) (cur : Nat) : MemberStep :=
  let sizeSV := RemoveSpaces (headerSize buffer cur)
  match from_chars sizeSV with
  | none => MemberStep.invalidSize
  | some size =>
    let pNextHeader := cur + ARCHIVE_MEMBER_HEADER_SIZE + size + size % 2
    if pNextHeader > buffer.length then MemberStep.outOfBounds
    else
      let headerNameView := headerName buffer cur
      if headerNameView = IMAGE_ARCHIVE_LINKER_MEMBER
          ∨ headerNameView = IMAGE_ARCHIVE_LONGNAMES_MEMBER then
        MemberStep.skip pNextHeader
      else if size < SIZEOF_IMAGE_FILE_HEADER then MemberStep.skip pNextHeader
      else
        let pMemberData := cur + ARCHIVE_MEMBER_HEADER_SIZE
        if fileHeaderMachine buffer pMemberData ≠ IMAGE_FILE_MACHINE_I386
            ∧ fileHeaderMachine buffer pMemberData ≠ IMAGE_FILE_MACHINE_AMD64 then
          MemberStep.skip pNextHeader
        else if fileHeaderPointerToSymbolTable buffer pMemberData = 0
            ∨ fileHeaderNumberOfSymbols buffer pMemberData = 0 then
          MemberStep.skip pNextHeader
        else MemberStep.submit pMemberData pNextHeader

/-- The member loop `while (pCurrentMemberHeader + 60 <= memEnd)` from the state
`(pCurrentMemberHeader, results)`; `results` holds, in submission order, the
`pMemberData` of every enqueued task. -/
def memberLoop (buffer : List Nat) : Nat → Nat → List Nat → Option (List Nat)
  | 0, _, _ => none
  | fuel + 1, cur, results =>
    if cur + ARCHIVE_MEMBER_HEADER_SIZE ≤ buffer.length then
      match memberStep buffer cur with
      | MemberStep.invalidSize => some results
      | MemberStep.outOfBounds => some results
      | MemberStep.skip pNextHeader => memberLoop buffer fuel pNextHeader results
      | MemberStep.submit pMemberData pNextHeader =>
        memberLoop buffer fuel pNextHeader (results ++ [pMemberData])
    else
      some results

/-- The member loop of `ParseFile` on a whole buffer: the cursor starts after the magic
and `results` starts empty. Every iteration that continues moves the cursor by at
least 60, so `buffer.length + 1` units of fuel are enough. -/
def walkArchive (buffer : List Nat) : Option (List Nat) :=
  memberLoop buffer (buffer.length + 1) IMAGE_ARCHIVE_START_SIZE []

/-! ### Sample archives -/

/-- A string padded on the right with spaces to `n` bytes. -/
def padRight (s : String) (n : Nat) : List Nat :=
  charCodes s ++ List.replicate (n - s.length) 32

/-- A 60-byte member header with the given name and size fields. -/
def sampleHeader (name size : String) : List Nat :=
  padRight name 16 ++ padRight "0" 12 ++ padRight "" 6 ++ padRight "" 6
    ++ padRight "0" 8 ++ padRight size 10 ++ [96, 10]

/-- A 20-byte file header: the machine type, one section, a time stamp of zero, the
symbol table at offset 60 with one symbol, no optional header, no flags. -/
def sampleFileHeader (machine : Nat) : List Nat :=
  [machine % 256, machine / 256, 1, 0, 0, 0, 0, 0, 60, 0, 0, 0, 1, 0, 0, 0, 0, 0, 0, 0]

/-- An archive that holds only the linker member and the long-names member, both empty. -/
def metadataOnlyArchive : List Nat :=
  IMAGE_ARCHIVE_START ++ sampleHeader "/" "0" ++ sampleHeader "//" "0"

/-- An archive that holds one 20-byte object for the ARM machine type (`0x01c0`). -/
def armArchive : List Nat :=
  IMAGE_ARCHIVE_START ++ sampleHeader "arm.obj/" "20" ++ sampleFileHeader 0x01c0

/-- An archive whose only member has the odd size 21 and ends with the last byte of its
payload: 8 + 60 + 21 = 89 bytes, no pad byte. -/
def oddTailArchive : List Nat :=
  IMAGE_ARCHIVE_START ++ sampleHeader "a.obj/" "21" ++ sampleFileHeader 0x014c ++ [0]

/-- An archive whose only member is a 20-byte i386 object and whose size field reads
`20abc`. -/
def junkSizeArchive : List Nat :=
  IMAGE_ARCHIVE_START ++ sampleHeader "a.obj/" "20abc" ++ sampleFileHeader 0x014c

/-- An archive with a 21-byte i386 object, its pad byte, and then a member whose size
field does not start with a digit. -/
def badSecondArchive : List Nat :=
  IMAGE_ARCHIVE_START ++ sampleHeader "a.obj/" "21" ++ sampleFileHeader 0x014c ++ [0, 10]
    ++ sampleHeader "b.obj/" "x1" ++ sampleFileHeader 0x014c

/-! ## Vocabulary of the properties -/

/-- The token the inner loop writes for byte `i` of the instruction at `offset`. -/
def byteToken (pCode : List Nat) (offset : Nat) (ins : ZydisDecodedInstruction)
    (i : Nat) : String :=
  if isWildcardByte ins i then "??" else streamHex (readByte pCode (offset + i))

/-- The tokens the inner loop writes for one instruction, in order. -/
def instrTokens (pCode : List Nat) (offset : Nat) (ins : ZydisDecodedInstruction) :
    List String :=
  (List.range ins.length).map (byteToken pCode offset ins)

/-- The tokens of all instructions decoded by one call of `GetSignature`, in order. -/
def patternTokens (decode : DecodeFn) (pCode : List Nat) (codeSize : Nat)
    (bIsX64 : Bool) : List String :=
  (decodedBy decode pCode codeSize bIsX64).flatMap fun e => instrTokens pCode e.1 e.2

/-- The number of bytes covered by the instructions decoded by one call of
`GetSignature`. -/
def coveredBytes (decode : DecodeFn) (pCode : List Nat) (codeSize : Nat)
    (bIsX64 : Bool) : Nat :=
  ((decodedBy decode pCode codeSize bIsX64).map fun e => e.2.length).sum

/-- The upper-case hexadecimal digit of `n`, for `n < 16`. -/
def hexDigit (n : Nat) : Char :=
  "0123456789ABCDEF".data.getD n '0'

/-- The two-digit upper-case hexadecimal rendering of a byte. -/
def hexPair (b : Nat) : String :=
  String.mk [hexDigit (b / 16), hexDigit (b % 16)]

/-- The wildcarded span `[lo, hi)` in the words of the specification: the first
immediate when its `is_relative` is set, otherwise the displacement when its size is
positive, otherwise empty. -/
def wildcardSpan (ins : ZydisDecodedInstruction) : Nat × Nat :=
  if ins.imm0.is_relative then (ins.imm0.offset, ins.imm0.offset + ins.imm0.size / 8)
  else if 0 < ins.disp.size then (ins.disp.offset, ins.disp.offset + ins.disp.size / 8)
  else (0, 0)

/-- The wildcard rule in the words of the specification: the instruction's
`is_relative` attribute is set and `i` lies in the selected span. -/
def specWildcard (ins : ZydisDecodedInstruction) (i : Nat) : Prop :=
  ins.attr_is_relative = true ∧ (wildcardSpan ins).1 ≤ i ∧ i < (wildcardSpan ins).2

instance (ins : ZydisDecodedInstruction) (i : Nat) : Decidable (specWildcard ins i) := by
  unfold specWildcard
  exact inferInstance

/-- The token of byte `i` in the words of the specification. -/
def specToken (pCode : List Nat) (offset : Nat) (ins : ZydisDecodedInstruction)
    (i : Nat) : String :=
  if specWildcard ins i then "??" else hexPair (readByte pCode (offset + i))

/-- The declared size in bytes of the relative operand the generator selects: the first
immediate, or the displacement as the fallback; `0` when none is selected. -/
def declaredOperandBytes (ins : ZydisDecodedInstruction) : Nat :=
  if ins.attr_is_relative then
    if ins.imm0.is_relative then ins.imm0.size / 8
    else if 0 < ins.disp.size then ins.disp.size / 8
    else 0
  else 0

/-- An upper-case hexadecimal digit. -/
def isHexUpper (c : Char) : Bool :=
  "0123456789ABCDEF".data.contains c

/-- A token of a pattern: `??` or two upper-case hexadecimal digits. -/
def IsToken (t : String) : Prop :=
  t = "??" ∨ ∃ a b, isHexUpper a = true ∧ isHexUpper b = true ∧ t = String.mk [a, b]

/-- Two chars that make a token. -/
def tokenChars (a b : Char) : Bool :=
  (a == '?' && b == '?') || (isHexUpper a && isHexUpper b)

/-- A non-empty run of tokens with exactly one space between consecutive tokens and
nothing before the first or after the last. -/
def isTokenSeq : List Char → Bool
  | [a, b] => tokenChars a b
  | a :: b :: c :: rest => tokenChars a b && c == ' ' && isTokenSeq rest
  | _ => false

/-- The format of a pattern: empty, or a run of tokens separated by single spaces. -/
def isPattern (p : String) : Bool :=
  p.data.isEmpty || isTokenSeq p.data

/-- The pieces of a char list between its spaces. -/
def splitAtSpaces : List Char → List (List Char)
  | [] => [[]]
  | c :: cs =>
    if c = ' ' then [] :: splitAtSpaces cs
    else
      match splitAtSpaces cs with
      | [] => [[c]]
      | t :: ts => (c :: t) :: ts

/-- The space-separated tokens of a pattern; the empty pattern has none. -/
def tokens (p : String) : List String :=
  if p.data.isEmpty then [] else (splitAtSpaces p.data).map String.mk

/-- The tokens of a list, each preceded by one space. -/
def spaced : List String → String
  | [] => ""
  | t :: ts => " " ++ t ++ spaced ts

/-- The tokens of a list, each followed by one space. -/
def spacedAfter : List String → String
  | [] => ""
  | t :: ts => t ++ " " ++ spacedAfter ts

/-- The string appended to the stream by the loop started at `offset`, whose
instructions write the tokens `toks`. -/
def appended (offset : Nat) (toks : List String) : String :=
  if offset > 0 then spaced toks else String.intercalate " " toks

/-- The filter of the walker in the words of the specification, for the member at `cur`
with parsed size `size`: the 16-byte name field is neither reserved name, the size is at
least 20, the machine type is i386 or amd64, and `pointer_to_symbol_table` and
`number_of_symbols` are both non-zero. -/
def memberQualifies (buffer : List Nat) (cur size : Nat) : Prop :=
  headerName buffer cur ≠ IMAGE_ARCHIVE_LINKER_MEMBER
    ∧ headerName buffer cur ≠ IMAGE_ARCHIVE_LONGNAMES_MEMBER
    ∧ 20 ≤ size
    ∧ (fileHeaderMachine buffer (cur + 60) = IMAGE_FILE_MACHINE_I386
        ∨ fileHeaderMachine buffer (cur + 60) = IMAGE_FILE_MACHINE_AMD64)
    ∧ fileHeaderPointerToSymbolTable buffer (cur + 60) ≠ 0
    ∧ fileHeaderNumberOfSymbols buffer (cur + 60) ≠ 0

instance (buffer : List Nat) (cur size : Nat) : Decidable (memberQualifies buffer cur size) := by
  unfold memberQualifies
  exact inferInstance

/-- An archive whose only member is a 20-byte amd64 object. -/
def oneObjectArchive : List Nat :=
  IMAGE_ARCHIVE_START ++ sampleHeader "a.obj/" "20" ++ sampleFileHeader 0x8664

/-! ## `CLibFileParser::ParseFile`: the per-object task -/

/-- Modelled from the spec: the field `IMAGE_FILE_HEADER::NumberOfSections` of `<Windows.h>`,
which is not in the repository: a 16-bit field, at offset 2 after the machine type. -/
def fileHeaderNumberOfSections (buffer : List Nat) (pFileHeader : Nat) : Nat :=
  readU16 buffer (pFileHeader + 2)

/-- Modelled from the spec: the field `IMAGE_FILE_HEADER::SizeOfOptionalHeader` of
`<Windows.h>`, which is not in the repository: a 16-bit field, at offset 16 after the
number of symbols. -/
def fileHeaderSizeOfOptionalHeader (buffer : List Nat) (pFileHeader : Nat) : Nat :=
  readU16 buffer (pFileHeader + 16)

/-- Modelled from the spec: `sizeof(IMAGE_SYMBOL)`, a type of `<Windows.h>`, which is not
in the repository: a symbol is an 18-byte record. -/
def SIZEOF_IMAGE_SYMBOL : Nat := 18

/-- Modelled from the spec: `sizeof(IMAGE_SECTION_HEADER)`, a type of `<Windows.h>`, which
is not in the repository: a section header is a 40-byte record. -/
def SIZEOF_IMAGE_SECTION_HEADER : Nat := 40

/-- Modelled from the spec: the constant `IMAGE_SIZEOF_SHORT_NAME` of `<Windows.h>`, which
is not in the repository: the short form of a name has 8 bytes. -/
def IMAGE_SIZEOF_SHORT_NAME : Nat := 8

/-- Modelled from the spec: the constant `IMAGE_SYM_CLASS_EXTERNAL` of `<Windows.h>`, which
is not in the repository: the storage class external, with its value in the object-file
format. -/
def IMAGE_SYM_CLASS_EXTERNAL : Nat := 2

/-- Modelled from the spec: the constant `IMAGE_SYM_CLASS_STATIC` of `<Windows.h>`, which
is not in the repository: the storage class static, with its value in the object-file
format. -/
def IMAGE_SYM_CLASS_STATIC : Nat := 3

/-- Modelled from the spec: the constant `IMAGE_SYM_UNDEFINED` of `<Windows.h>`, which is
not in the repository: the section number 0, "no section". -/
def IMAGE_SYM_UNDEFINED : Int := 0

/-- Modelled from the spec: the constant `IMAGE_SCN_CNT_CODE` of `<Windows.h>`, which is
not in the repository: the "contains code" bit of the section characteristics, with its
value in the object-file format. -/
def IMAGE_SCN_CNT_CODE : Nat := 0x20

/-- Modelled from the spec: the macro `ISFCN` of `<Windows.h>`, which is not in the
repository: the is-function predicate on the type field, with the mask and the function
value of the object-file format (`(x & 0x30) == 0x20`). -/
def ISFCN (x : Nat) : Bool :=
  (x &&& 0x30) == 0x20

/-- Modelled from the spec: the field `IMAGE_SYMBOL::N.Name.Short` of `<Windows.h>`, which
is not in the repository: the first 32 bits of the 8-byte name field, the sentinel of
the long form. -/
def symbolShort (buffer : List Nat) (pSymbol : Nat) : Nat :=
  readU32 buffer pSymbol

/-- Modelled from the spec: the field `IMAGE_SYMBOL::N.Name.Long` of `<Windows.h>`, which
is not in the repository: the 32-bit offset into the string table that follows the
sentinel. -/
def symbolLong (buffer : List Nat) (pSymbol : Nat) : Nat :=
  readU32 buffer (pSymbol + 4)

/-- Modelled from the spec: the field `IMAGE_SYMBOL::N.ShortName` of `<Windows.h>`, which
is not in the repository: the 8 bytes of the name field. -/
def symbolShortName (buffer : List Nat) (pSymbol : Nat) : List Nat :=
  readBytes buffer pSymbol IMAGE_SIZEOF_SHORT_NAME

/-- Modelled from the spec: the field `IMAGE_SYMBOL::Value` of `<Windows.h>`, which is not
in the repository: a 32-bit field after the 8-byte name. -/
def symbolValue (buffer : List Nat) (pSymbol : Nat) : Nat :=
  readU32 buffer (pSymbol + 8)

/-- Modelled from the spec: the field `IMAGE_SYMBOL::SectionNumber` of `<Windows.h>`, which
is not in the repository: a signed 16-bit field at offset 12. -/
def symbolSectionNumber (buffer : List Nat) (pSymbol : Nat) : Int :=
  if readU16 buffer (pSymbol + 12) < 32768 then (readU16 buffer (pSymbol + 12) : Int)
  else (readU16 buffer (pSymbol + 12) : Int) - 65536

/-- Modelled from the spec: the field `IMAGE_SYMBOL::Type` of `<Windows.h>`, which is not
in the repository: a 16-bit field at offset 14. -/
def symbolType (buffer : List Nat) (pSymbol : Nat) : Nat :=
  readU16 buffer (pSymbol + 14)

/-- Modelled from the spec: the field `IMAGE_SYMBOL::StorageClass` of `<Windows.h>`, which
is not in the repository: one byte at offset 16. -/
def symbolStorageClass (buffer : List Nat) (pSymbol : Nat) : Nat :=
  readByte buffer (pSymbol + 16)

/-- Modelled from the spec: the field `IMAGE_SYMBOL::NumberOfAuxSymbols` of `<Windows.h>`,
which is not in the repository: one byte at offset 17, the last of the 18. -/
def symbolNumberOfAuxSymbols (buffer : List Nat) (pSymbol : Nat) : Nat :=
  readByte buffer (pSymbol + 17)

/-- Modelled from the spec: the field `IMAGE_SECTION_HEADER::SizeOfRawData` of
`<Windows.h>`, which is not in the repository: a 32-bit field at offset 16, after the
8-byte name, the virtual size and the virtual address. -/
def sectionSizeOfRawData (buffer : List Nat) (pSection : Nat) : Nat :=
  readU32 buffer (pSection + 16)

/-- Modelled from the spec: the field `IMAGE_SECTION_HEADER::PointerToRawData` of
`<Windows.h>`, which is not in the repository: a 32-bit field at offset 20. -/
def sectionPointerToRawData (buffer : List Nat) (pSection : Nat) : Nat :=
  readU32 buffer (pSection + 20)

/-- Modelled from the spec: the field `IMAGE_SECTION_HEADER::Characteristics` of
`<Windows.h>`, which is not in the repository: a 32-bit field at offset 36, the last of
the 40 bytes. -/
def sectionCharacteristics (buffer : List Nat) (pSection : Nat) : Nat :=
  readU32 buffer (pSection + 36)

/-- The address of `pSymbolTable[i]`. -/
def symbolAt (pSymbolTable i : Nat) : Nat :=
  pSymbolTable + SIZEOF_IMAGE_SYMBOL * i

/-- The address of `pSectionHeaders[n - 1]` for a section number `n`. -/
def sectionAt (pSectionHeaders n : Nat) : Nat :=
  pSectionHeaders + SIZEOF_IMAGE_SECTION_HEADER * (n - 1)

/-- The map `functionsBySection`: its buckets `(section number, symbol pointers)`, kept
in the order in which their keys were first used. -/
abbrev SectionMap := List (Nat × List Nat)

/-- The statement `functionsBySection[key].push_back(pSymbol)`. -/
def pushFunction : SectionMap → Nat → Nat → SectionMap
  | [], key, pSymbol => [(key, [pSymbol])]
  | b :: bs, key, pSymbol =>
    if b.1 = key then (b.1, b.2 ++ [pSymbol]) :: bs
    else b :: pushFunction bs key pSymbol

/-- The two nested conditions of the first loop on the symbol at `pSymbol`: storage
class external or static, section number above `IMAGE_SYM_UNDEFINED`, `ISFCN` on the type,
section number at most `NumberOfSections` (`std::cmp_less_equal` compares the values),
and the code bit in the characteristics of the section named by the symbol. -/
def isFunctionSymbol (buffer : List Nat) (pFileHeader pSectionHeaders pSymbol : Nat) : Bool :=
  if (symbolStorageClass buffer pSymbol = IMAGE_SYM_CLASS_EXTERNAL
        ∨ symbolStorageClass buffer pSymbol = IMAGE_SYM_CLASS_STATIC)
      ∧ symbolSectionNumber buffer pSymbol > IMAGE_SYM_UNDEFINED
      ∧ ISFCN (symbolType buffer pSymbol) = true
      ∧ symbolSectionNumber buffer pSymbol ≤ (fileHeaderNumberOfSections buffer pFileHeader : Int)
  then
    sectionCharacteristics buffer
        (sectionAt pSectionHeaders (symbolSectionNumber buffer pSymbol).toNat)
      &&& IMAGE_SCN_CNT_CODE != 0
  else false

/-- The index after the body and the increment of the first loop: `i += NumberOfAuxSymbols`
and `++i`, both on a `std::uint32_t`. -/
def nextSymbolIndex (buffer : List Nat) (pSymbolTable i : Nat) : Nat :=
  (i + symbolNumberOfAuxSymbols buffer (symbolAt pSymbolTable i) + 1) % 4294967296

/-- The first loop of the task, `for (std::uint32_t i = 0; i < NumberOfSymbols; ++i)`, from
the state `(i, functionsBySection)`. -/
def scanSymbols (buffer : List Nat) (pFileHeader pSymbolTable pSectionHeaders : Nat) :
    Nat → Nat → SectionMap → Option SectionMap
  | 0, _, _ => none
  | fuel + 1, i, functionsBySection =>
    if i < fileHeaderNumberOfSymbols buffer pFileHeader then
      scanSymbols buffer pFileHeader pSymbolTable pSectionHeaders fuel
        (nextSymbolIndex buffer pSymbolTable i)
        (if isFunctionSymbol buffer pFileHeader pSectionHeaders (symbolAt pSymbolTable i) then
          pushFunction functionsBySection
            (symbolSectionNumber buffer (symbolAt pSymbolTable i)).toNat
            (symbolAt pSymbolTable i)
        else functionsBySection)
    else
      some functionsBySection

/-- The indices `i` at which the first loop reads `pSymbolTable[i]`, in order: the same
control flow as `scanSymbols`, keeping the indices. -/
def examinedSymbols (buffer : List Nat) (pFileHeader pSymbolTable : Nat) :
    Nat → Nat → List Nat
  | 0, _ => []
  | fuel + 1, i =>
    if i < fileHeaderNumberOfSymbols buffer pFileHeader then
      i :: examinedSymbols buffer pFileHeader pSymbolTable fuel
        (nextSymbolIndex buffer pSymbolTable i)
    else
      []

/-- The value of `funcSize` for position `i` of the sorted vector `funcSymbols`: a
difference of two `DWORD`s, taken modulo `2 ^ 32`, then widened to `std::size_t`. -/
def funcSizeAt (buffer : List Nat) (pSection : Nat) (funcSymbols : List Nat) (i : Nat) : Nat :=
  if i < funcSymbols.length - 1 then
    (symbolValue buffer (funcSymbols.getD (i + 1) 0) + 4294967296
      - symbolValue buffer (funcSymbols.getD i 0)) % 4294967296
  else
    (sectionSizeOfRawData buffer pSection + 4294967296
      - symbolValue buffer (funcSymbols.getD i 0)) % 4294967296

/-- A `std::string` built from the `const char*` at `p`: the chars from `p` up to the
first NUL. The read does not stop at `memEnd`: the memory that follows the buffer holds
the bytes `beyond` and then a NUL, and a string with no NUL inside the buffer runs on
into them. -/
def cString (buffer beyond : List Nat) (p : Nat) : List Nat :=
  ((buffer.drop p ++ beyond ++ [0]).map fun c => c % 256).takeWhile fun c => c != 0

/-- The value of `symbolName` for the symbol at `pSymbol`; `memEnd` is `buffer.length`.
A name is a `std::string`, kept as the list of its chars. Only the first byte of a long
name is compared with `memEnd`; `beyond` holds the bytes that follow the buffer, which
the read of a long name reaches when no NUL ends it inside the buffer. -/
def symbolNameAt (buffer beyond : List Nat) (pStringTable pSymbol : Nat) : List Nat :=
  if symbolShort buffer pSymbol = 0 then
    if pStringTable + symbolLong buffer pSymbol < buffer.length then
      cString buffer beyond (pStringTable + symbolLong buffer pSymbol)
    else charCodes "[ERROR]"
  else
    RemoveSpaces (symbolShortName buffer pSymbol)

/-- The value of `pFuncCode` for the symbol at `pSymbol` of the section at `pSection`. -/
def funcCodeAt (buffer : List Nat) (pMemberData pSection pSymbol : Nat) : Nat :=
  pMemberData + sectionPointerToRawData buffer pSection + symbolValue buffer pSymbol

/-- A JSON object with string values: its entries `(key, value)`, one per key. -/
abbrev JsonObject := List (List Nat × String)

/-- Modelled from the spec: the assignment `localJson[symbolName] = pattern` of the JSON
library, which is not under `src/`: the name is recorded with the pattern, and the last
writer of a name wins. -/
def jsonAssign : JsonObject → List Nat → String → JsonObject
  | [], key, value => [(key, value)]
  | e :: es, key, value =>
    if e.1 = key then (key, value) :: es else e :: jsonAssign es key value

/-- The value stored under `key`, if any. -/
def jsonLookup : JsonObject → List Nat → Option String
  | [], _ => none
  | e :: es, key => if e.1 = key then some e.2 else jsonLookup es key

/-- Modelled from the spec: the call `signaturesJson.update(other)` of the JSON library,
which is not under `src/`: the map `other` is merged into the result, and its entries
overwrite earlier ones with the same key. -/
def jsonUpdate (json other : JsonObject) : JsonObject :=
  other.foldl (fun acc e => jsonAssign acc e.1 e.2) json

/-- The body of the inner loop of the second phase for position `i` of the sorted vector
`funcSymbols`: the new value of `localJson` (`none` when `GetSignature` runs out of
fuel). -/
def symbolStep (decode : DecodeFn) (buffer beyond : List Nat)
    (pMemberData pStringTable pSection : Nat) (funcSymbols : List Nat) (localJson : JsonObject) (i : Nat) : Option JsonObject :=
  if symbolNameAt buffer beyond pStringTable (funcSymbols.getD i 0) = [] then some localJson
  else if funcCodeAt buffer pMemberData pSection (funcSymbols.getD i 0)
      + funcSizeAt buffer pSection funcSymbols i ≤ buffer.length then
    match GetSignature decode
        (buffer.drop (funcCodeAt buffer pMemberData pSection (funcSymbols.getD i 0)))
        (funcSizeAt buffer pSection funcSymbols i)
        (fileHeaderMachine buffer pMemberData == IMAGE_FILE_MACHINE_AMD64) with
    | none => none
    | some pattern =>
      some (jsonAssign localJson
        (symbolNameAt buffer beyond pStringTable (funcSymbols.getD i 0)) pattern)
  else some localJson

/-- The inner loop `for (size_t i = 0; i < funcSymbols.size(); ++i)` over the positions
still to visit. -/
def sectionLoop (decode : DecodeFn) (buffer beyond : List Nat)
    (pMemberData pStringTable pSection : Nat) (funcSymbols : List Nat) : List Nat → JsonObject → Option JsonObject
  | [], localJson => some localJson
  | i :: rest, localJson =>
    match symbolStep decode buffer beyond pMemberData pStringTable pSection funcSymbols
        localJson i with
    | none => none
    | some json1 =>
      sectionLoop decode buffer beyond pMemberData pStringTable pSection funcSymbols rest json1

/-- What the task takes from its toolchain: the instruction decoder, the call
`std::ranges::sort(funcSymbols, cmp)` with `cmp(a, b)` being `key a < key b`, and the
order in which a range-`for` visits the buckets of the `std::unordered_map`. The C++
standard fixes neither the relative order of equal elements after `sort` nor the
iteration order of an unordered map. -/
structure Toolchain where
  decode : DecodeFn
  sort : (Nat → Nat) → List Nat → List Nat
  iterate : SectionMap → SectionMap

/-- What `std::ranges::sort` guarantees: the result holds the same elements, in
non-descending order of the key. -/
def SortOk (sort : (Nat → Nat) → List Nat → List Nat) : Prop :=
  ∀ key l, (sort key l).Perm l ∧ (sort key l).Pairwise fun a b => key a ≤ key b

/-- What the iteration of a map guarantees: every bucket is visited once. -/
def IterateOk (iterate : SectionMap → SectionMap) : Prop :=
  ∀ m, (iterate m).Perm m

/-- The outer loop `for (auto& [sectionIdx, funcSymbols] : functionsBySection)` over the
buckets still to visit. -/
def bucketsLoop (T : Toolchain) (buffer beyond : List Nat)
    (pMemberData pStringTable pSectionHeaders : Nat) :
    SectionMap → JsonObject → Option JsonObject
  | [], localJson => some localJson
  | b :: rest, localJson =>
    match sectionLoop T.decode buffer beyond pMemberData pStringTable
        (sectionAt pSectionHeaders b.1) (T.sort (symbolValue buffer) b.2)
        (List.range (T.sort (symbolValue buffer) b.2).length) localJson with
    | none => none
    | some json1 => bucketsLoop T buffer beyond pMemberData pStringTable pSectionHeaders rest json1

/-- The value of `pSymbolTable` in the task for the object at `pMemberData`. -/
def symbolTableOf (buffer : List Nat) (pMemberData : Nat) : Nat :=
  pMemberData + fileHeaderPointerToSymbolTable buffer pMemberData

/-- The value of `pStringTable` in the task for the object at `pMemberData`. -/
def stringTableOf (buffer : List Nat) (pMemberData : Nat) : Nat :=
  symbolTableOf buffer pMemberData
    + SIZEOF_IMAGE_SYMBOL * fileHeaderNumberOfSymbols buffer pMemberData

/-- The value of `pSectionHeaders` in the task for the object at `pMemberData`. -/
def sectionHeadersOf (buffer : List Nat) (pMemberData : Nat) : Nat :=
  pMemberData + SIZEOF_IMAGE_FILE_HEADER + fileHeaderSizeOfOptionalHeader buffer pMemberData

/-- The value of `functionsBySection` after the first loop of the task. The index grows
by at least one per iteration as long as it does not wrap, so `NumberOfSymbols + 1`
units of fuel are enough then. -/
def functionsBySectionOf (buffer : List Nat) (pMemberData : Nat) : Option SectionMap :=
  scanSymbols buffer pMemberData (symbolTableOf buffer pMemberData)
    (sectionHeadersOf buffer pMemberData)
    (fileHeaderNumberOfSymbols buffer pMemberData + 1) 0 []

/-- The task enqueued for the object at `pMemberData`: the value of `localJson` it
returns. `pFileHeader` is `pMemberData`, and `memEnd` is `buffer.length`, the end of the
whole archive buffer. -/
def analyzeObject (T : Toolchain) (buffer beyond : List Nat) (pMemberData : Nat) :
    Option JsonObject :=
  match functionsBySectionOf buffer pMemberData with
  | none => none
  | some functionsBySection =>
    bucketsLoop T buffer beyond pMemberData (stringTableOf buffer pMemberData)
      (sectionHeadersOf buffer pMemberData) (T.iterate functionsBySection) []

/-- The values `future.get()` of the enqueued tasks, in submission order. -/
def collectResults (T : Toolchain) (buffer beyond : List Nat) :
    List Nat → Option (List JsonObject)
  | [] => some []
  | pMemberData :: rest =>
    match analyzeObject T buffer beyond pMemberData with
    | none => none
    | some localJson =>
      match collectResults T buffer beyond rest with
      | none => none
      | some jsons => some (localJson :: jsons)

/-- The loop `for (auto& future : results) signaturesJson.update(future.get())`. -/
def mergeResults (jsons : List JsonObject) : JsonObject :=
  jsons.foldl jsonUpdate []

/-- The value of `signaturesJson` that `ParseFile` writes out, for a buffer that passed
the file-type and size checks. -/
def signaturesJson (T : Toolchain) (buffer beyond : List Nat) : Option JsonObject :=
  match walkArchive buffer with
  | none => none
  | some results =>
    match collectResults T buffer beyond results with
    | none => none
    | some jsons => some (mergeResults jsons)

/-! ### Sample toolchain and sample objects -/

/-- The insertion of `a` into a list sorted by `key`, before the first element whose key
is not smaller. -/
def insertByKey (key : Nat → Nat) (a : Nat) : List Nat → List Nat
  | [] => [a]
  | b :: bs => if key a ≤ key b then a :: b :: bs else b :: insertByKey key a bs

/-- An insertion sort by `key`. -/
def sampleSort (key : Nat → Nat) : List Nat → List Nat
  | [] => []
  | a :: rest => insertByKey key a (sampleSort key rest)

/-- A toolchain used to run the task on concrete archives: the sample decoder, an
insertion sort, and buckets visited in the order of their first use. -/
def sampleToolchain : Toolchain :=
  { decode := sampleDecode, sort := sampleSort, iterate := fun m => m }

/-- The two bytes of a 16-bit value, little-endian. -/
def le16 (v : Nat) : List Nat :=
  [v % 256, v / 256 % 256]

/-- The four bytes of a 32-bit value, little-endian. -/
def le32 (v : Nat) : List Nat :=
  [v % 256, v / 256 % 256, v / 65536 % 256, v / 16777216 % 256]

/-- A 20-byte i386 file header with one section and `numberOfSymbols` symbols at offset
60, right after the section header. -/
def sampleObjectHeader (numberOfSymbols : Nat) : List Nat :=
  le16 0x014c ++ le16 1 ++ le32 0 ++ le32 60 ++ le32 numberOfSymbols ++ le16 0 ++ le16 0

/-- A 40-byte header of a code section (`.text`, characteristics `0x60000020`) with the
given size and file offset of its raw data. -/
def sampleSection (sizeOfRawData pointerToRawData : Nat) : List Nat :=
  charCodes ".text" ++ [0, 0, 0] ++ le32 0 ++ le32 0 ++ le32 sizeOfRawData
    ++ le32 pointerToRawData ++ le32 0 ++ le32 0 ++ le16 0 ++ le16 0 ++ le32 0x60000020

/-- An 18-byte external function symbol of section 1 (type `0x20`, class 2) with the
given 8-byte name field, value and number of auxiliary records. -/
def sampleSymbol (nameField : List Nat) (value numberOfAux : Nat) : List Nat :=
  nameField ++ le32 value ++ le16 1 ++ le16 0x20 ++ [2, numberOfAux]

/-- The name field of a short name: the chars, padded with NUL to 8 bytes. -/
def shortNameField (name : String) : List Nat :=
  charCodes name ++ List.replicate (8 - name.length) 0

/-- The name field of a long name: the sentinel 0 and the offset into the string table. -/
def longNameField (offset : Nat) : List Nat :=
  le32 0 ++ le32 offset

/-- An 85-byte object: one external function symbol with the short name `abc` whose code
is `90 90 90` (header, section header, symbol at 60, empty string table at 78, code at
82). -/
def abcObject : List Nat :=
  sampleObjectHeader 1 ++ sampleSection 3 82 ++ sampleSymbol (shortNameField "abc") 0 0
    ++ le32 4 ++ [0x90, 0x90, 0x90]

/-- An archive with `abcObject` as its only member, and the pad byte. -/
def abcArchive : List Nat :=
  IMAGE_ARCHIVE_START ++ sampleHeader "abc.obj/" "85" ++ abcObject ++ [10]

/-- A 104-byte object whose code section declares 1 byte of raw data at offset 100 and
whose two function symbols have the values 0 and 3; four bytes `90` follow the string
table. -/
def wideObject : List Nat :=
  sampleObjectHeader 2 ++ sampleSection 1 100 ++ sampleSymbol (charCodes "func_one") 0 0
    ++ sampleSymbol (charCodes "func_two") 3 0 ++ le32 4 ++ [0x90, 0x90, 0x90, 0x90]

/-- An archive with `wideObject` as its only member. -/
def wideArchive : List Nat :=
  IMAGE_ARCHIVE_START ++ sampleHeader "wide.obj/" "104" ++ wideObject

/-- An 83-byte object whose code section declares 2 bytes of raw data at offset 82, of
which the member holds one; its function symbol has the value 0. -/
def shortObject : List Nat :=
  sampleObjectHeader 1 ++ sampleSection 2 82 ++ sampleSymbol (charCodes "function") 0 0
    ++ le32 4 ++ [0x90]

/-- An archive with `shortObject` as its only member, followed by one byte `90` in the
place of the pad byte: the member is `[68, 151)`, the buffer has 152 bytes. -/
def overrunArchive : List Nat :=
  IMAGE_ARCHIVE_START ++ sampleHeader "short.obj/" "83" ++ shortObject ++ [0x90]

/-- An 86-byte object whose function symbol has a long name at offset 4 of the string
table, which reads `f` and a space. -/
def spaceNameObject : List Nat :=
  sampleObjectHeader 1 ++ sampleSection 1 85 ++ sampleSymbol (longNameField 4) 0 0
    ++ le32 7 ++ charCodes "f " ++ [0] ++ [0x90]

/-- An archive with `spaceNameObject` as its only member. -/
def spaceNameArchive : List Nat :=
  IMAGE_ARCHIVE_START ++ sampleHeader "space.obj/" "86" ++ spaceNameObject

/-- An 84-byte object whose function symbol has a long name at offset 66 of the string
table, which starts at offset 78 of the object: the name lies 144 bytes after the start
of the object, past its end. -/
def farNameObject : List Nat :=
  sampleObjectHeader 1 ++ sampleSection 2 82 ++ sampleSymbol (longNameField 66) 0 0
    ++ le32 4 ++ [0x90, 0x90]

/-- An archive with `farNameObject` at `[68, 152)` and a second member at `[212, 216)`
whose four bytes read `xyz` and NUL. -/
def farNameArchive : List Nat :=
  IMAGE_ARCHIVE_START ++ sampleHeader "far.obj/" "84" ++ farNameObject
    ++ sampleHeader "tail/" "4" ++ charCodes "xyz" ++ [0]

/-- An 84-byte object whose function symbol has a long name at offset 5 of the string
table, which starts at offset 78 of the object: the name starts at the last byte of the
object, a code byte `90`, and no NUL follows it in the object. -/
def openNameObject : List Nat :=
  sampleObjectHeader 1 ++ sampleSection 2 82 ++ sampleSymbol (longNameField 5) 0 0
    ++ le32 4 ++ [0x90, 0x90]

/-- An archive with `openNameObject` as its only and last member: the buffer has 152
bytes and the long name starts at its last byte, at address 151. -/
def openNameArchive : List Nat :=
  IMAGE_ARCHIVE_START ++ sampleHeader "open.obj/" "84" ++ openNameObject

/-- An object with one function symbol of the long name `dup` and the given code
bytes (header, section header, symbol at 60, string table at 78, code at 86). -/
def dupObject (code : List Nat) : List Nat :=
  sampleObjectHeader 1 ++ sampleSection code.length 86 ++ sampleSymbol (longNameField 4) 0 0
    ++ le32 8 ++ charCodes "dup" ++ [0] ++ code

/-- An archive with two objects that both define `dup`: the first with the code `90`
(87 bytes and a pad byte), the second with the code `90 90` (88 bytes). -/
def dupArchive : List Nat :=
  IMAGE_ARCHIVE_START ++ sampleHeader "one.obj/" "87" ++ dupObject [0x90] ++ [10]
    ++ sampleHeader "two.obj/" "88" ++ dupObject [0x90, 0x90]

/-- A 106-byte object with two function symbols of the same name in one section: the
first of the symbol table has the value 1 (a five-byte `E8` call up to the end of the
section), the second has the value 0 (the byte `90`). -/
def sameNameObject : List Nat :=
  sampleObjectHeader 2 ++ sampleSection 6 100 ++ sampleSymbol (charCodes "samename") 1 0
    ++ sampleSymbol (charCodes "samename") 0 0 ++ le32 4
    ++ [0x90, 0xE8, 0x10, 0x20, 0x30, 0x40]

/-- An archive with `sameNameObject` as its only member. -/
def sameNameArchive : List Nat :=
  IMAGE_ARCHIVE_START ++ sampleHeader "same.obj/" "106" ++ sameNameObject

/-- A 120-byte object with three symbol-table slots: slot 0 is a function symbol with one
auxiliary record, slot 1 is that record, filled with the bytes of a function symbol
named `aux_slot`, and slot 2 is a function symbol. -/
def auxObject : List Nat :=
  sampleObjectHeader 3 ++ sampleSection 2 118 ++ sampleSymbol (charCodes "primary0") 0 1
    ++ sampleSymbol (charCodes "aux_slot") 0 0 ++ sampleSymbol (charCodes "primary2") 1 0
    ++ le32 4 ++ [0x90, 0x90]

/-- An archive with `auxObject` as its only member. -/
def auxArchive : List Nat :=
  IMAGE_ARCHIVE_START ++ sampleHeader "aux.obj/" "120" ++ auxObject

/-- Whether position `i` of the sorted vector `funcSymbols` yields a function record, that
is a call of `GetSignature` and an entry of `localJson`: the name is not empty and the
check `pFuncCode + funcSize <= memEnd` passes. -/
def recordsFunction (buffer beyond : List Nat) (pMemberData pStringTable pSection : Nat)
    (funcSymbols : List Nat) (i : Nat) : Bool :=
  decide (symbolNameAt buffer beyond pStringTable (funcSymbols.getD i 0) ≠ [])
    && decide (funcCodeAt buffer pMemberData pSection (funcSymbols.getD i 0)
        + funcSizeAt buffer pSection funcSymbols i ≤ buffer.length)

/-- The lengths of the function records of one section, in the order of the loop. -/
def sectionRecordLengths (buffer beyond : List Nat) (pMemberData pStringTable pSection : Nat)
    (funcSymbols : List Nat) : List Nat :=
  ((List.range funcSymbols.length).filter
      (recordsFunction buffer beyond pMemberData pStringTable pSection funcSymbols)).map
    (funcSizeAt buffer pSection funcSymbols)

/-- The name recorded for position `i` of the sorted vector `funcSymbols`. -/
def recordName (buffer beyond : List Nat) (pStringTable : Nat) (funcSymbols : List Nat)
    (i : Nat) : List Nat :=
  symbolNameAt buffer beyond pStringTable (funcSymbols.getD i 0)

/-- The result of the call of `GetSignature` for position `i` of the sorted vector
`funcSymbols`. -/
def recordPattern (decode : DecodeFn) (buffer : List Nat) (pMemberData pSection : Nat)
    (funcSymbols : List Nat) (i : Nat) : Option String :=
  GetSignature decode
    (buffer.drop (funcCodeAt buffer pMemberData pSection (funcSymbols.getD i 0)))
    (funcSizeAt buffer pSection funcSymbols i)
    (fileHeaderMachine buffer pMemberData == IMAGE_FILE_MACHINE_AMD64)

/-- The primary slots of the symbol table in the words of the specification: index 0, and
the slot right after the auxiliary slots of the previous primary symbol, as long as it
lies in the table. -/
inductive IsPrimarySlot (buffer : List Nat) (pFileHeader pSymbolTable : Nat) : Nat → Prop where
  | first : 0 < fileHeaderNumberOfSymbols buffer pFileHeader →
      IsPrimarySlot buffer pFileHeader pSymbolTable 0
  | next (i : Nat) : IsPrimarySlot buffer pFileHeader pSymbolTable i →
      i + symbolNumberOfAuxSymbols buffer (symbolAt pSymbolTable i) + 1
        < fileHeaderNumberOfSymbols buffer pFileHeader →
      IsPrimarySlot buffer pFileHeader pSymbolTable
        (i + symbolNumberOfAuxSymbols buffer (symbolAt pSymbolTable i) + 1)

/-- The offsets of the member headers the member loop examines, in order: the same
control flow as `memberLoop`, keeping the cursors. -/
def examinedHeaders (buffer : List Nat) : Nat → Nat → List Nat
  | 0, _ => []
  | fuel + 1, cur =>
    if cur + ARCHIVE_MEMBER_HEADER_SIZE ≤ buffer.length then
      match memberStep buffer cur with
      | MemberStep.invalidSize => [cur]
      | MemberStep.outOfBounds => [cur]
      | MemberStep.skip pNextHeader => cur :: examinedHeaders buffer fuel pNextHeader
      | MemberStep.submit _ pNextHeader => cur :: examinedHeaders buffer fuel pNextHeader
    else
      []

/-- The member headers examined by the member loop of `ParseFile` on a whole buffer. -/
def walkedHeaders (buffer : List Nat) : List Nat :=
  examinedHeaders buffer (buffer.length + 1) IMAGE_ARCHIVE_START_SIZE

/-! # Theorems -/

set_option maxRecDepth 100000

/-! ## Strings -/

theorem intercalate_go_eq (l : List String) (acc : String) :
    String.intercalate.go acc " " l = acc ++ spaced l := by
  induction l generalizing acc with
  | nil => simp [String.intercalate.go, spaced]
  | cons t ts ih =>
    simp only [String.intercalate.go, spaced, ih, String.append_assoc]

theorem intercalate_cons (t : String) (ts : List String) :
    String.intercalate " " (t :: ts) = t ++ spaced ts := by
  simp [String.intercalate, intercalate_go_eq]

theorem spaced_append (l₁ l₂ : List String) :
    spaced (l₁ ++ l₂) = spaced l₁ ++ spaced l₂ := by
  induction l₁ with
  | nil => simp [spaced]
  | cons t ts ih => simp [spaced, ih, String.append_assoc]

theorem spacedAfter_snoc (l : List String) (a : String) :
    spacedAfter (l ++ [a]) = spacedAfter l ++ a ++ " " := by
  induction l with
  | nil => simp [spacedAfter]
  | cons t ts ih => simp [spacedAfter, ih, String.append_assoc]

theorem spaced_snoc (l : List String) (a : String) :
    spaced (l ++ [a]) = " " ++ spacedAfter l ++ a := by
  induction l with
  | nil => simp [spaced, spacedAfter]
  | cons t ts ih => simp [spaced, spacedAfter, ih, String.append_assoc]

theorem intercalate_snoc (l : List String) (a : String) :
    String.intercalate " " (l ++ [a]) = spacedAfter l ++ a := by
  cases l with
  | nil => simp [String.intercalate, String.intercalate.go, spacedAfter]
  | cons t ts =>
    rw [List.cons_append, intercalate_cons, spaced_snoc]
    simp [spacedAfter, String.append_assoc]

/-! ## The inner loop -/

theorem emitByte_eq (pCode : List Nat) (offset : Nat) (ins : ZydisDecodedInstruction)
    (stream : String) (i : Nat) :
    emitByte pCode offset ins stream i
      = stream ++ byteToken pCode offset ins i ++ (if i + 1 < ins.length then " " else "") := by
  have hc : ((i : Int) < (ins.length : Int) - 1) ↔ i + 1 < ins.length := by omega
  unfold emitByte byteToken
  by_cases hw : isWildcardByte ins i = true <;> by_cases hl : i + 1 < ins.length <;>
    simp [hw, hl, hc]

theorem emit_foldl (pCode : List Nat) (offset : Nat) (ins : ZydisDecodedInstruction)
    (stream : String) (n : Nat) (hn : n ≤ ins.length) :
    (List.range n).foldl (emitByte pCode offset ins) stream
      = stream ++ (if n < ins.length
          then spacedAfter ((List.range n).map (byteToken pCode offset ins))
          else String.intercalate " " ((List.range n).map (byteToken pCode offset ins))) := by
  induction n with
  | zero =>
    by_cases h : 0 < ins.length <;> simp [h, spacedAfter, String.intercalate]
  | succ n ih =>
    have hlt : n < ins.length := by omega
    rw [List.range_succ, List.foldl_append, ih (by omega)]
    simp only [hlt, if_true, List.foldl_cons, List.foldl_nil, List.map_append, List.map_cons,
      List.map_nil]
    rw [emitByte_eq]
    by_cases h : n + 1 < ins.length
    · simp [h, spacedAfter_snoc, String.append_assoc]
    · simp [h, intercalate_snoc, String.append_assoc]

theorem emitInstruction_eq (pCode : List Nat) (offset : Nat) (ins : ZydisDecodedInstruction)
    (stream : String) :
    emitInstruction pCode offset ins stream
      = stream ++ String.intercalate " " (instrTokens pCode offset ins) := by
  unfold emitInstruction instrTokens
  rw [emit_foldl pCode offset ins stream ins.length (le_refl _)]
  simp

/-! ## Tokens -/

set_option maxRecDepth 1000000 in
theorem streamHex_byte : ∀ v, v < 256 → streamHex v = hexPair v := by
  decide

theorem streamHex_readByte (mem : List Nat) (k : Nat) :
    streamHex (readByte mem k) = hexPair (readByte mem k) :=
  streamHex_byte _ (Nat.mod_lt _ (by norm_num))

theorem isWildcardByte_iff (ins : ZydisDecodedInstruction) (i : Nat) :
    isWildcardByte ins i = true ↔ specWildcard ins i := by
  unfold isWildcardByte relativeOperand specWildcard wildcardSpan
  by_cases ha : ins.attr_is_relative = true <;> by_cases hi : ins.imm0.is_relative = true <;>
    by_cases hd : 0 < ins.disp.size <;> simp [ha, hi, hd] <;> omega

theorem byteToken_eq_specToken (pCode : List Nat) (offset : Nat) (ins : ZydisDecodedInstruction)
    (i : Nat) : byteToken pCode offset ins i = specToken pCode offset ins i := by
  unfold byteToken specToken
  by_cases h : isWildcardByte ins i = true
  · have h2 := (isWildcardByte_iff ins i).1 h
    simp [h, h2]
  · have h2 : ¬ specWildcard ins i := fun hs => h ((isWildcardByte_iff ins i).2 hs)
    simp [h, h2, streamHex_readByte]

/-! ## The outer loop -/

theorem instrTokens_length (pCode : List Nat) (offset : Nat) (ins : ZydisDecodedInstruction) :
    (instrTokens pCode offset ins).length = ins.length := by
  simp [instrTokens]

theorem instrTokens_cons (pCode : List Nat) (offset : Nat) (ins : ZydisDecodedInstruction)
    (h : 1 ≤ ins.length) : ∃ t ts, instrTokens pCode offset ins = t :: ts := by
  cases hl : instrTokens pCode offset ins with
  | nil =>
    have := instrTokens_length pCode offset ins
    rw [hl] at this
    simp at this
    omega
  | cons t ts => exact ⟨t, ts, rfl⟩

theorem signatureLoop_eq (decode : DecodeFn) (hok : DecoderLengthOk decode)
    (decoder : ZydisDecoder) (pCode : List Nat) (codeSize : Nat) :
    ∀ (fuel offset : Nat) (stream : String), codeSize - offset < fuel →
      signatureLoop decode decoder pCode codeSize fuel offset stream
        = some (offset
              + ((decodedInstructions decode decoder pCode codeSize fuel offset).map
                  fun e => e.2.length).sum,
            stream ++ appended offset
              ((decodedInstructions decode decoder pCode codeSize fuel offset).flatMap
                fun e => instrTokens pCode e.1 e.2)) := by
  intro fuel
  induction fuel with
  | zero => intro offset stream h; omega
  | succ fuel ih =>
    intro offset stream hf
    unfold signatureLoop decodedInstructions
    by_cases hlt : offset < codeSize
    · simp only [hlt, if_true]
      cases hd : decode decoder ((pCode.drop offset).take (codeSize - offset)) with
      | none =>
        by_cases h0 : offset > 0 <;> simp [appended, h0, spaced, String.intercalate]
      | some ins =>
        have hlen := (hok _ _ _ hd).1
        have hpos : offset + ins.length > 0 := by omega
        simp only [List.map_cons, List.sum_cons, List.flatMap_cons]
        rw [ih (offset + ins.length) _ (by omega), emitInstruction_eq]
        obtain ⟨t, ts, hts⟩ := instrTokens_cons pCode offset ins hlen
        simp only [hts, appended, hpos, if_true, List.cons_append]
        by_cases h0 : offset > 0
        · simp [h0, spaced, intercalate_cons, spaced_append, String.append_assoc, Nat.add_assoc]
        · simp [h0, intercalate_cons, spaced_append, String.append_assoc, Nat.add_assoc]
    · by_cases h0 : offset > 0 <;> simp [hlt, appended, h0, spaced, String.intercalate]

theorem decoded_end_le (decode : DecodeFn) (hok : DecoderLengthOk decode)
    (decoder : ZydisDecoder) (pCode : List Nat) (codeSize : Nat) :
    ∀ (fuel offset : Nat), offset ≤ codeSize →
      offset + ((decodedInstructions decode decoder pCode codeSize fuel offset).map
          fun e => e.2.length).sum ≤ codeSize := by
  intro fuel
  induction fuel with
  | zero => intro offset h; simp [decodedInstructions, h]
  | succ fuel ih =>
    intro offset hle
    unfold decodedInstructions
    by_cases hlt : offset < codeSize
    · simp only [hlt, if_true]
      cases hd : decode decoder ((pCode.drop offset).take (codeSize - offset)) with
      | none => simp [hle]
      | some ins =>
        have hlen := (hok _ _ _ hd).2
        simp only [List.length_take, List.length_drop] at hlen
        have := ih (offset + ins.length) (by omega)
        simp only [List.map_cons, List.sum_cons]
        omega
    · simp [hlt, hle]

theorem decoded_end_halts (decode : DecodeFn) (hok : DecoderLengthOk decode)
    (decoder : ZydisDecoder) (pCode : List Nat) (codeSize : Nat) :
    ∀ (fuel offset : Nat), codeSize - offset < fuel →
      let stop := offset + ((decodedInstructions decode decoder pCode codeSize fuel offset).map
          fun e => e.2.length).sum
      stop < codeSize → decode decoder ((pCode.drop stop).take (codeSize - stop)) = none := by
  intro fuel
  induction fuel with
  | zero => intro offset h; omega
  | succ fuel ih =>
    intro offset hf
    unfold decodedInstructions
    by_cases hlt : offset < codeSize
    · simp only [hlt, if_true]
      cases hd : decode decoder ((pCode.drop offset).take (codeSize - offset)) with
      | none => simp [hd]
      | some ins =>
        have hlen := (hok _ _ _ hd).1
        have := ih (offset + ins.length) (by omega)
        simp only [List.map_cons, List.sum_cons]
        simpa [Nat.add_assoc] using this
    · simp [hlt]

theorem runSignatureLoop_eq (decode : DecodeFn) (hok : DecoderLengthOk decode)
    (pCode : List Nat) (codeSize : Nat) (bIsX64 : Bool) :
    runSignatureLoop decode pCode codeSize bIsX64
      = some (coveredBytes decode pCode codeSize bIsX64,
          String.intercalate " " (patternTokens decode pCode codeSize bIsX64)) := by
  unfold runSignatureLoop
  rw [signatureLoop_eq decode hok _ pCode codeSize (codeSize + 1) 0 "" (by omega)]
  simp [appended, coveredBytes, patternTokens, decodedBy]

theorem GetSignature_eq (decode : DecodeFn) (hok : DecoderLengthOk decode)
    (pCode : List Nat) (codeSize : Nat) (bIsX64 : Bool) :
    GetSignature decode pCode codeSize bIsX64
      = some (String.intercalate " " (patternTokens decode pCode codeSize bIsX64)) := by
  simp [GetSignature, AnalyzeFuncGenerateSignature, runSignatureLoop_eq decode hok]

theorem patternTokens_length (decode : DecodeFn) (pCode : List Nat) (codeSize : Nat)
    (bIsX64 : Bool) :
    (patternTokens decode pCode codeSize bIsX64).length
      = coveredBytes decode pCode codeSize bIsX64 := by
  unfold patternTokens coveredBytes
  induction decodedBy decode pCode codeSize bIsX64 with
  | nil => simp
  | cons e es ih => simp [List.flatMap_cons, instrTokens_length, ih]

/-! ## The format of a pattern -/

theorem hexDigit_isHexUpper (n : Nat) : isHexUpper (hexDigit n) = true := by
  by_cases h : n < 16
  · interval_cases n <;> decide
  · have : hexDigit n = '0' := by
      unfold hexDigit
      exact List.getD_eq_default _ _ (by simpa using h)
    rw [this]
    decide

theorem hexPair_isToken (b : Nat) : IsToken (hexPair b) :=
  Or.inr ⟨_, _, hexDigit_isHexUpper _, hexDigit_isHexUpper _, rfl⟩

theorem byteToken_isToken (pCode : List Nat) (offset : Nat) (ins : ZydisDecodedInstruction)
    (i : Nat) : IsToken (byteToken pCode offset ins i) := by
  unfold byteToken
  by_cases h : isWildcardByte ins i = true
  · simp [h, IsToken]
  · simp only [h]
    rw [streamHex_readByte]
    exact hexPair_isToken _

theorem patternTokens_isToken (decode : DecodeFn) (pCode : List Nat) (codeSize : Nat)
    (bIsX64 : Bool) : ∀ t ∈ patternTokens decode pCode codeSize bIsX64, IsToken t := by
  intro t ht
  simp only [patternTokens, List.mem_flatMap, instrTokens, List.mem_map] at ht
  obtain ⟨e, _, i, _, rfl⟩ := ht
  exact byteToken_isToken _ _ _ _

theorem isHexUpper_ne_space (c : Char) (h : isHexUpper c = true) : c ≠ ' ' := by
  intro hc
  subst hc
  revert h
  decide

theorem IsToken.chars {t : String} (h : IsToken t) :
    ∃ a b, t = String.mk [a, b] ∧ a ≠ ' ' ∧ b ≠ ' ' ∧ tokenChars a b = true := by
  rcases h with h | ⟨a, b, ha, hb, h⟩
  · exact ⟨'?', '?', h, by decide, by decide, by decide⟩
  · exact ⟨a, b, h, isHexUpper_ne_space a ha, isHexUpper_ne_space b hb, by simp [tokenChars, ha, hb]⟩

theorem splitAtSpaces_spaced (ts : List String) (h : ∀ t ∈ ts, IsToken t) :
    splitAtSpaces (spaced ts).data = [] :: ts.map String.data := by
  induction ts with
  | nil => simp [spaced, splitAtSpaces]
  | cons t ts ih =>
    obtain ⟨a, b, rfl, ha, hb, _⟩ := (h t (by simp)).chars
    have ih2 := ih (fun t ht => h t (by simp [ht]))
    simp [spaced, String.data_append, splitAtSpaces, ih2, ha, hb]

theorem tokens_intercalate (ts : List String) (h : ∀ t ∈ ts, IsToken t) :
    tokens (String.intercalate " " ts) = ts := by
  cases ts with
  | nil => simp [String.intercalate, tokens]
  | cons t ts =>
    obtain ⟨a, b, rfl, ha, hb, _⟩ := (h t (by simp)).chars
    have h2 := splitAtSpaces_spaced ts (fun t ht => h t (by simp [ht]))
    rw [intercalate_cons]
    simp [tokens, String.data_append, splitAtSpaces, h2, ha, hb, Function.comp_def]

theorem isTokenSeq_cons (a b : Char) (hab : tokenChars a b = true) (ts : List String)
    (h : ∀ t ∈ ts, IsToken t) : isTokenSeq (a :: b :: (spaced ts).data) = true := by
  induction ts generalizing a b with
  | nil => simp [spaced, isTokenSeq, hab]
  | cons t ts ih =>
    obtain ⟨c, d, rfl, _, _, hcd⟩ := (h t (by simp)).chars
    have := ih c d hcd (fun t ht => h t (by simp [ht]))
    simp [spaced, String.data_append, isTokenSeq, hab, this]

theorem isPattern_intercalate (ts : List String) (h : ∀ t ∈ ts, IsToken t) :
    isPattern (String.intercalate " " ts) = true := by
  cases ts with
  | nil => simp [String.intercalate, isPattern]
  | cons t ts =>
    obtain ⟨a, b, rfl, _, _, hab⟩ := (h t (by simp)).chars
    have := isTokenSeq_cons a b hab ts (fun t ht => h t (by simp [ht]))
    rw [intercalate_cons]
    simp [isPattern, String.data_append, this]

theorem sampleDecode_ok : DecoderLengthOk sampleDecode := by
  intro d buf ins h
  unfold sampleDecode at h
  split at h <;> simp at h <;> subst h <;> simp [sampleNop, sampleRel32, sampleRipMov]

theorem isHexUpper_question : isHexUpper '?' = false := by decide

theorem hexPair_ne_wildcard (b : Nat) : hexPair b ≠ "??" := by
  intro h
  have h1 : (hexPair b).data = ("??" : String).data := by rw [h]
  have h2 : hexDigit (b / 16) = '?' := by
    simp [hexPair] at h1
    exact h1.1
  have := hexDigit_isHexUpper (b / 16)
  rw [h2, isHexUpper_question] at this
  exact Bool.noConfusion this

theorem byteToken_wildcard_iff (pCode : List Nat) (offset : Nat) (ins : ZydisDecodedInstruction)
    (i : Nat) : byteToken pCode offset ins i = "??" ↔ isWildcardByte ins i = true := by
  unfold byteToken
  by_cases h : isWildcardByte ins i = true
  · simp [h]
  · simp only [h, Bool.false_eq_true, if_false, iff_false]
    rw [streamHex_readByte]
    exact hexPair_ne_wildcard _

theorem relativeOperand_snd (ins : ZydisDecodedInstruction) :
    (relativeOperand ins).2 = declaredOperandBytes ins := by
  unfold relativeOperand declaredOperandBytes
  by_cases ha : ins.attr_is_relative = true <;> by_cases hi : ins.imm0.is_relative = true <;>
    by_cases hd : 0 < ins.disp.size <;> simp [ha, hi, hd]

theorem isWildcardByte_interval (ins : ZydisDecodedInstruction) (i : Nat) :
    isWildcardByte ins i = true
      ↔ (relativeOperand ins).1 ≤ i ∧ i < (relativeOperand ins).1 + declaredOperandBytes ins := by
  rw [← relativeOperand_snd]
  unfold isWildcardByte
  by_cases ha : ins.attr_is_relative = true
  · simp [ha]
    omega
  · have h0 : (relativeOperand ins).2 = 0 := by simp [relativeOperand, ha]
    simp [ha, h0]

theorem countP_range_interval (p : Nat → Bool) (a s : Nat)
    (hp : ∀ i, p i = true ↔ a ≤ i ∧ i < a + s) :
    ∀ n, (List.range n).countP p = min (a + s) n - min a n := by
  intro n
  induction n with
  | zero => simp
  | succ n ih =>
    rw [List.range_succ, List.countP_append, ih]
    by_cases h : p n = true
    · have := (hp n).1 h
      simp [List.countP_cons, h]
      omega
    · have : ¬ (a ≤ n ∧ n < a + s) := fun hc => h ((hp n).2 hc)
      simp [List.countP_cons, h]
      omega

theorem instrTokens_count (pCode : List Nat) (offset : Nat) (ins : ZydisDecodedInstruction) :
    (instrTokens pCode offset ins).count "??"
      = min ((relativeOperand ins).1 + declaredOperandBytes ins) ins.length
        - min (relativeOperand ins).1 ins.length := by
  rw [← countP_range_interval (isWildcardByte ins) _ _ (isWildcardByte_interval ins) ins.length]
  unfold instrTokens
  rw [List.count, List.countP_map]
  apply List.countP_congr
  intro i _
  simp [byteToken_wildcard_iff]

theorem instrTokens_getD (pCode : List Nat) (offset : Nat) (ins : ZydisDecodedInstruction)
    (i : Nat) (hi : i < ins.length) :
    (instrTokens pCode offset ins).getD i "" = byteToken pCode offset ins i := by
  simp [instrTokens, List.getD_eq_getElem?_getD, hi]

theorem instrTokens_literal (pCode : List Nat) (offset : Nat) (ins : ZydisDecodedInstruction)
    (h : ins.attr_is_relative = false) :
    instrTokens pCode offset ins
      = (List.range' offset ins.length).map fun k => hexPair (readByte pCode k) := by
  rw [List.range'_eq_map_range, List.map_map]
  unfold instrTokens
  apply List.map_congr_left
  intro i _
  simp [byteToken, isWildcardByte, h, streamHex_readByte]

theorem decoded_literal (decode : DecodeFn) (decoder : ZydisDecoder) (pCode : List Nat)
    (codeSize : Nat) :
    ∀ (fuel offset : Nat),
      (∀ e ∈ decodedInstructions decode decoder pCode codeSize fuel offset,
        e.2.attr_is_relative = false) →
      ((decodedInstructions decode decoder pCode codeSize fuel offset).flatMap
          fun e => instrTokens pCode e.1 e.2)
        = (List.range' offset
            ((decodedInstructions decode decoder pCode codeSize fuel offset).map
              fun e => e.2.length).sum).map fun k => hexPair (readByte pCode k) := by
  intro fuel
  induction fuel with
  | zero => intro offset _; simp [decodedInstructions]
  | succ fuel ih =>
    intro offset
    unfold decodedInstructions
    by_cases hlt : offset < codeSize
    · simp only [hlt, if_true]
      cases hd : decode decoder ((pCode.drop offset).take (codeSize - offset)) with
      | none => simp
      | some ins =>
        intro hrel
        have h1 : ins.attr_is_relative = false := hrel (offset, ins) (by simp)
        have h2 := ih (offset + ins.length) (fun e he => hrel e (by simp [he]))
        simp only [List.flatMap_cons, List.map_cons, List.sum_cons]
        rw [h2, instrTokens_literal _ _ _ h1, ← List.map_append, List.range'_append_1]
        rw [Nat.add_comm ins.length]
    · simp [hlt]

/-! ## Claims about the signature generator -/

/-- C1 (wildcard rule). For every byte range and every decoder result: the iteration of
the `while` loop that decodes `ins` at `offset` continues from `offset + ins.length` with
the separator and one token per byte of `ins` appended to the stream, joined by single
spaces; the token of byte `i` is `??` if and only if the `is_relative` attribute is set
and `i` lies in the span selected in the words of the specification, and is otherwise the
two-digit upper-case hex of the input byte at `offset + i`. A relative `E8` call gives
`E8 ?? ?? ?? ??`; a 7-byte relative instruction with a 4-byte displacement at offset 3
keeps bytes 0..2 and wildcards bytes 3..6. -/
theorem wildcard_rule (decode : DecodeFn) (decoder : ZydisDecoder) (pCode : List Nat)
    (codeSize fuel offset : Nat) (stream : String) (ins : ZydisDecodedInstruction)
    (hlt : offset < codeSize)
    (hdec : decode decoder ((pCode.drop offset).take (codeSize - offset)) = some ins) :
    signatureLoop decode decoder pCode codeSize (fuel + 1) offset stream
        = signatureLoop decode decoder pCode codeSize fuel (offset + ins.length)
            ((if offset > 0 then stream ++ " " else stream)
              ++ String.intercalate " "
                  ((List.range ins.length).map (specToken pCode offset ins)))
      ∧ (∀ i, specToken pCode offset ins i = "??" ↔ specWildcard ins i)
      ∧ (∀ i, ¬ specWildcard ins i →
          specToken pCode offset ins i = hexPair (readByte pCode (offset + i)))
      ∧ GetSignature sampleDecode [0xE8, 0x10, 0x20, 0x30, 0x40] 5 false
          = some "E8 ?? ?? ?? ??"
      ∧ GetSignature sampleDecode [0x48, 0x8B, 0x05, 0x10, 0x20, 0x30, 0x40] 7 true
          = some "48 8B 05 ?? ?? ?? ??" := by
  refine ⟨?_, ?_, ?_, by decide, by decide⟩
  · have hmap : (List.range ins.length).map (specToken pCode offset ins)
        = instrTokens pCode offset ins := by
      unfold instrTokens
      exact List.map_congr_left fun i _ => (byteToken_eq_specToken pCode offset ins i).symm
    rw [hmap, ← emitInstruction_eq]
    simp [signatureLoop, hlt, hdec]
  · intro i
    unfold specToken
    by_cases h : specWildcard ins i
    · simp [h]
    · simp [h, hexPair_ne_wildcard]
  · intro i h
    simp [specToken, h]

/-- C1, at a concrete input: the `E8` call decoded at offset 0 of a 5-byte function. -/
theorem wildcard_rule_witness :
    (0 < 5
      ∧ sampleDecode (ZydisDecoderInit false)
          ((List.drop 0 [0xE8, 0x10, 0x20, 0x30, 0x40]).take (5 - 0)) = some sampleRel32)
      ∧ signatureLoop sampleDecode (ZydisDecoderInit false) [0xE8, 0x10, 0x20, 0x30, 0x40] 5
            (5 + 1) 0 ""
          = signatureLoop sampleDecode (ZydisDecoderInit false) [0xE8, 0x10, 0x20, 0x30, 0x40] 5
              5 (0 + sampleRel32.length)
              ((if 0 > 0 then "" ++ " " else "")
                ++ String.intercalate " "
                    ((List.range sampleRel32.length).map
                      (specToken [0xE8, 0x10, 0x20, 0x30, 0x40] 0 sampleRel32))) :=
  ⟨⟨by decide, by decide⟩,
    (wildcard_rule sampleDecode (ZydisDecoderInit false) [0xE8, 0x10, 0x20, 0x30, 0x40]
      5 5 0 "" sampleRel32 (by decide) (by decide)).1⟩

/-- C2 (token count). With a decoder whose instructions have at least one byte and fit
the buffer they were decoded from, `GetSignature` returns a pattern whose number of
space-separated tokens is the number of bytes covered by the decoded instructions; that
number is at most the function length `codeSize`, and when it is smaller the decoder
failed at that offset, so without a decode failure the pattern has `codeSize` tokens. -/
theorem token_count (decode : DecodeFn) (hok : DecoderLengthOk decode)
    (pCode : List Nat) (codeSize : Nat) (bIsX64 : Bool) :
    ∃ pattern,
      GetSignature decode pCode codeSize bIsX64 = some pattern
        ∧ runSignatureLoop decode pCode codeSize bIsX64
            = some (coveredBytes decode pCode codeSize bIsX64, pattern)
        ∧ (tokens pattern).length = coveredBytes decode pCode codeSize bIsX64
        ∧ coveredBytes decode pCode codeSize bIsX64 ≤ codeSize
        ∧ (coveredBytes decode pCode codeSize bIsX64 < codeSize →
            decode (ZydisDecoderInit bIsX64)
              ((pCode.drop (coveredBytes decode pCode codeSize bIsX64)).take
                (codeSize - coveredBytes decode pCode codeSize bIsX64)) = none)
        ∧ ((∀ offset, offset < codeSize →
              decode (ZydisDecoderInit bIsX64)
                ((pCode.drop offset).take (codeSize - offset)) ≠ none) →
            (tokens pattern).length = codeSize) := by
  have hlen : (tokens (String.intercalate " " (patternTokens decode pCode codeSize bIsX64))).length
      = coveredBytes decode pCode codeSize bIsX64 := by
    rw [tokens_intercalate _ (patternTokens_isToken decode pCode codeSize bIsX64),
      patternTokens_length]
  have hle : coveredBytes decode pCode codeSize bIsX64 ≤ codeSize := by
    have := decoded_end_le decode hok (ZydisDecoderInit bIsX64) pCode codeSize (codeSize + 1) 0
      (Nat.zero_le _)
    simpa [coveredBytes, decodedBy] using this
  have hhalt : coveredBytes decode pCode codeSize bIsX64 < codeSize →
      decode (ZydisDecoderInit bIsX64)
        ((pCode.drop (coveredBytes decode pCode codeSize bIsX64)).take
          (codeSize - coveredBytes decode pCode codeSize bIsX64)) = none := by
    have := decoded_end_halts decode hok (ZydisDecoderInit bIsX64) pCode codeSize (codeSize + 1) 0
      (by omega)
    simpa [coveredBytes, decodedBy] using this
  refine ⟨_, GetSignature_eq decode hok pCode codeSize bIsX64,
    runSignatureLoop_eq decode hok pCode codeSize bIsX64, hlen, hle, hhalt, ?_⟩
  intro hall
  rw [hlen]
  by_contra hne
  have hlt : coveredBytes decode pCode codeSize bIsX64 < codeSize := by omega
  exact hall _ hlt (hhalt hlt)

/-- C2, at a concrete input: two instructions decode, the third byte does not. -/
theorem token_count_witness :
    DecoderLengthOk sampleDecode
      ∧ ∃ pattern,
        GetSignature sampleDecode [0x90, 0x90, 0x0F, 0x90] 4 false = some pattern
          ∧ runSignatureLoop sampleDecode [0x90, 0x90, 0x0F, 0x90] 4 false
              = some (coveredBytes sampleDecode [0x90, 0x90, 0x0F, 0x90] 4 false, pattern)
          ∧ (tokens pattern).length = coveredBytes sampleDecode [0x90, 0x90, 0x0F, 0x90] 4 false
          ∧ coveredBytes sampleDecode [0x90, 0x90, 0x0F, 0x90] 4 false ≤ 4
          ∧ (coveredBytes sampleDecode [0x90, 0x90, 0x0F, 0x90] 4 false < 4 →
              sampleDecode (ZydisDecoderInit false)
                ((List.drop (coveredBytes sampleDecode [0x90, 0x90, 0x0F, 0x90] 4 false)
                  [0x90, 0x90, 0x0F, 0x90]).take
                  (4 - coveredBytes sampleDecode [0x90, 0x90, 0x0F, 0x90] 4 false)) = none)
          ∧ ((∀ offset, offset < 4 →
                sampleDecode (ZydisDecoderInit false)
                  ((List.drop offset [0x90, 0x90, 0x0F, 0x90]).take (4 - offset)) ≠ none) →
              (tokens pattern).length = 4) :=
  ⟨sampleDecode_ok, token_count sampleDecode sampleDecode_ok [0x90, 0x90, 0x0F, 0x90] 4 false⟩

/-- C3 (pattern format). With a decoder whose instructions have at least one byte and fit
the buffer they were decoded from, `GetSignature` returns a pattern that is empty or a
run of tokens, each exactly `??` or exactly two upper-case hexadecimal digits, with
exactly one space between consecutive tokens, inside an instruction and between
instructions alike, and no space before the first or after the last. -/
theorem pattern_format (decode : DecodeFn) (hok : DecoderLengthOk decode)
    (pCode : List Nat) (codeSize : Nat) (bIsX64 : Bool) :
    ∃ pattern toks,
      GetSignature decode pCode codeSize bIsX64 = some pattern
        ∧ isPattern pattern = true
        ∧ pattern = String.intercalate " " toks
        ∧ tokens pattern = toks
        ∧ ∀ t ∈ toks, IsToken t :=
  ⟨_, patternTokens decode pCode codeSize bIsX64,
    GetSignature_eq decode hok pCode codeSize bIsX64,
    isPattern_intercalate _ (patternTokens_isToken decode pCode codeSize bIsX64),
    rfl,
    tokens_intercalate _ (patternTokens_isToken decode pCode codeSize bIsX64),
    patternTokens_isToken decode pCode codeSize bIsX64⟩

/-- C3, at a concrete input: a displacement instruction followed by a one-byte one. -/
theorem pattern_format_witness :
    DecoderLengthOk sampleDecode
      ∧ ∃ pattern toks,
        GetSignature sampleDecode [0x48, 0x8B, 0x05, 1, 2, 3, 4, 0x90] 8 true = some pattern
          ∧ isPattern pattern = true
          ∧ pattern = String.intercalate " " toks
          ∧ tokens pattern = toks
          ∧ ∀ t ∈ toks, IsToken t :=
  ⟨sampleDecode_ok,
    pattern_format sampleDecode sampleDecode_ok [0x48, 0x8B, 0x05, 1, 2, 3, 4, 0x90] 8 true⟩

/-- C4 (wildcard run shape). For every decoded instruction, the `??` tokens it writes are
the positions of one interval, `[relativeOperandOffset, relativeOperandOffset + size)`
cut at the instruction length, so they form at most one contiguous run; when the operand
lies inside the instruction, as a decoder reports it, the number of `??` tokens is the
declared operand size in bytes (`imm.size / 8`, or `disp.size / 8` for the displacement
fallback, and none when no operand is selected). -/
theorem wildcard_run (pCode : List Nat) (offset : Nat) (ins : ZydisDecodedInstruction) :
    (∀ stream, emitInstruction pCode offset ins stream
        = stream ++ String.intercalate " " (instrTokens pCode offset ins))
      ∧ (instrTokens pCode offset ins).length = ins.length
      ∧ (∀ i, i < ins.length →
          ((instrTokens pCode offset ins).getD i "" = "??"
            ↔ (relativeOperand ins).1 ≤ i
              ∧ i < (relativeOperand ins).1 + declaredOperandBytes ins))
      ∧ ((relativeOperand ins).1 + declaredOperandBytes ins ≤ ins.length →
          (instrTokens pCode offset ins).count "??" = declaredOperandBytes ins) := by
  refine ⟨fun stream => emitInstruction_eq pCode offset ins stream,
    instrTokens_length pCode offset ins, ?_, ?_⟩
  · intro i hi
    rw [instrTokens_getD pCode offset ins i hi, byteToken_wildcard_iff]
    exact isWildcardByte_interval ins i
  · intro hfit
    rw [instrTokens_count]
    omega

/-- C4, at a concrete input: the 32-bit displacement at offset 3 of a 7-byte instruction
gives four `??` tokens. -/
theorem wildcard_run_witness :
    (relativeOperand sampleRipMov).1 + declaredOperandBytes sampleRipMov ≤ sampleRipMov.length
      ∧ (instrTokens [0x48, 0x8B, 0x05, 1, 2, 3, 4] 0 sampleRipMov).count "??"
          = declaredOperandBytes sampleRipMov
      ∧ declaredOperandBytes sampleRipMov = 4 :=
  ⟨by decide, (wildcard_run [0x48, 0x8B, 0x05, 1, 2, 3, 4] 0 sampleRipMov).2.2.2 (by decide),
    by decide⟩

/-- C5 (literal code is hex-dumped unchanged). With a decoder whose instructions have at
least one byte and fit the buffer they were decoded from: when the decoded instructions
cover all `codeSize` bytes (every instruction decodes) and none has the `is_relative`
attribute, the pattern is the two-digit upper-case hex of the `codeSize` input bytes
joined by single spaces; the bytes `90 90 90` give exactly `90 90 90`. -/
theorem literal_hex_dump (decode : DecodeFn) (hok : DecoderLengthOk decode)
    (pCode : List Nat) (codeSize : Nat) (bIsX64 : Bool)
    (hall : coveredBytes decode pCode codeSize bIsX64 = codeSize)
    (hrel : ∀ e ∈ decodedBy decode pCode codeSize bIsX64, e.2.attr_is_relative = false) :
    GetSignature decode pCode codeSize bIsX64
        = some (String.intercalate " "
            ((List.range codeSize).map fun k => hexPair (readByte pCode k)))
      ∧ GetSignature sampleDecode [0x90, 0x90, 0x90] 3 false = some "90 90 90" := by
  refine ⟨?_, by decide⟩
  rw [GetSignature_eq decode hok]
  have h := decoded_literal decode (ZydisDecoderInit bIsX64) pCode codeSize (codeSize + 1) 0 hrel
  unfold coveredBytes decodedBy at hall
  rw [hall] at h
  unfold patternTokens decodedBy
  rw [h, List.range_eq_range']

/-- C5, at a concrete input: three one-byte instructions. -/
theorem literal_hex_dump_witness :
    (DecoderLengthOk sampleDecode
      ∧ coveredBytes sampleDecode [0x90, 0x90, 0x90] 3 false = 3
      ∧ ∀ e ∈ decodedBy sampleDecode [0x90, 0x90, 0x90] 3 false, e.2.attr_is_relative = false)
      ∧ GetSignature sampleDecode [0x90, 0x90, 0x90] 3 false
          = some (String.intercalate " "
              ((List.range 3).map fun k => hexPair (readByte [0x90, 0x90, 0x90] k))) :=
  ⟨⟨sampleDecode_ok, by decide, by decide⟩,
    (literal_hex_dump sampleDecode sampleDecode_ok [0x90, 0x90, 0x90] 3 false
      (by decide) (by decide)).1⟩

/-- C6 (empty pattern cases). `GetSignature` returns the empty string when the function
length is zero, whatever the decoder would answer, and whenever the decode attempt at
offset 0 (on the first `codeSize` bytes at `pCode`) fails, whatever the bytes, the length
and the `bIsX64` flag. -/
theorem empty_pattern (decode : DecodeFn) (pCode : List Nat) (codeSize : Nat) (bIsX64 : Bool)
    (hfail : decode (ZydisDecoderInit bIsX64) (pCode.take codeSize) = none) :
    GetSignature decode pCode codeSize bIsX64 = some ""
      ∧ ∀ (anyDecode : DecodeFn) (anyCode : List Nat) (anyFlag : Bool),
          GetSignature anyDecode anyCode 0 anyFlag = some "" := by
  constructor
  · by_cases h : 0 < codeSize
    · simp [GetSignature, AnalyzeFuncGenerateSignature, runSignatureLoop, signatureLoop, h, hfail]
    · simp [GetSignature, AnalyzeFuncGenerateSignature, runSignatureLoop, signatureLoop, h]
  · intro anyDecode anyCode anyFlag
    simp [GetSignature, AnalyzeFuncGenerateSignature, runSignatureLoop, signatureLoop]

/-- C6, at a concrete input: the first byte `0F` does not decode. -/
theorem empty_pattern_witness :
    sampleDecode (ZydisDecoderInit true) (List.take 3 [0x0F, 0x90, 0x90]) = none
      ∧ GetSignature sampleDecode [0x0F, 0x90, 0x90] 3 true = some "" :=
  ⟨by decide, (empty_pattern sampleDecode [0x0F, 0x90, 0x90] 3 true (by decide)).1⟩

/-! ## The member loop -/

theorem memberStep_of_parse (buffer : List Nat) (cur size : Nat)
    (hparse : from_chars (RemoveSpaces (headerSize buffer cur)) = some size) :
    memberStep buffer cur
      = if cur + 60 + size + size % 2 > buffer.length then MemberStep.outOfBounds
        else if memberQualifies buffer cur size then
          MemberStep.submit (cur + 60) (cur + 60 + size + size % 2)
        else MemberStep.skip (cur + 60 + size + size % 2) := by
  unfold memberStep
  simp only [hparse, ARCHIVE_MEMBER_HEADER_SIZE, SIZEOF_IMAGE_FILE_HEADER]
  by_cases h1 : cur + 60 + size + size % 2 > buffer.length
  · simp [h1]
  · simp only [h1, if_false]
    unfold memberQualifies
    by_cases h2 : headerName buffer cur = IMAGE_ARCHIVE_LINKER_MEMBER
    · simp [h2]
    · by_cases h3 : headerName buffer cur = IMAGE_ARCHIVE_LONGNAMES_MEMBER
      · simp [h3]
      · by_cases h4 : size < 20
        · have : ¬ 20 ≤ size := by omega
          simp [h2, h3, h4, this]
        · have h4b : 20 ≤ size := by omega
          by_cases h5 : fileHeaderMachine buffer (cur + 60) = IMAGE_FILE_MACHINE_I386
          · by_cases h7 : fileHeaderPointerToSymbolTable buffer (cur + 60) = 0
            · simp [h2, h3, h4, h5, h7]
            · by_cases h8 : fileHeaderNumberOfSymbols buffer (cur + 60) = 0
              · simp [h2, h3, h4, h5, h7, h8]
              · simp [h2, h3, h4, h4b, h5, h7, h8]
          · by_cases h6 : fileHeaderMachine buffer (cur + 60) = IMAGE_FILE_MACHINE_AMD64
            · by_cases h7 : fileHeaderPointerToSymbolTable buffer (cur + 60) = 0
              · simp [h2, h3, h4, h5, h6, h7]
              · by_cases h8 : fileHeaderNumberOfSymbols buffer (cur + 60) = 0
                · simp [h2, h3, h4, h5, h6, h7, h8]
                · simp [h2, h3, h4, h4b, h5, h6, h7, h8]
            · simp [h2, h3, h4, h5, h6]

theorem memberStep_invalid_iff (buffer : List Nat) (cur : Nat) :
    memberStep buffer cur = MemberStep.invalidSize
      ↔ from_chars (RemoveSpaces (headerSize buffer cur)) = none := by
  constructor
  · intro h
    cases hp : from_chars (RemoveSpaces (headerSize buffer cur)) with
    | none => rfl
    | some size =>
      rw [memberStep_of_parse buffer cur size hp] at h
      split at h
      · exact MemberStep.noConfusion h
      · split at h <;> exact MemberStep.noConfusion h
  · intro h
    simp [memberStep, h]

theorem memberLoop_halt (buffer : List Nat) (fuel cur : Nat) (results : List Nat)
    (h : memberStep buffer cur = MemberStep.invalidSize
      ∨ memberStep buffer cur = MemberStep.outOfBounds) :
    memberLoop buffer (fuel + 1) cur results = some results := by
  unfold memberLoop
  by_cases hc : cur + ARCHIVE_MEMBER_HEADER_SIZE ≤ buffer.length
  · rcases h with h | h <;> simp [hc, h]
  · simp [hc]

theorem decimalValue_foldl_lt (ds : List Nat) (hd : ∀ d ∈ ds, isdigit d = true) :
    ∀ acc, ds.foldl (fun acc d => 10 * acc + (d - 48)) acc < (acc + 1) * 10 ^ ds.length := by
  induction ds with
  | nil => intro acc; simp
  | cons d ds ih =>
    intro acc
    have h1 : isdigit d = true := hd d (by simp)
    have h2 : d - 48 ≤ 9 := by
      simp [isdigit] at h1
      omega
    have h3 := ih (fun e he => hd e (by simp [he])) (10 * acc + (d - 48))
    simp only [List.foldl_cons, List.length_cons]
    calc List.foldl (fun acc d => 10 * acc + (d - 48)) (10 * acc + (d - 48)) ds
        < (10 * acc + (d - 48) + 1) * 10 ^ ds.length := h3
      _ ≤ ((acc + 1) * 10) * 10 ^ ds.length := by
          apply Nat.mul_le_mul_right
          omega
      _ = (acc + 1) * 10 ^ (ds.length + 1) := by ring

theorem RemoveSpaces_length_le (s : List Nat) : (RemoveSpaces s).length ≤ s.length := by
  unfold RemoveSpaces
  rw [List.length_reverse]
  calc (s.reverse.dropWhile isspace).length ≤ s.reverse.length :=
        (List.dropWhile_sublist _).length_le
    _ = s.length := List.length_reverse s

theorem headerSize_length (buffer : List Nat) (cur : Nat) :
    (headerSize buffer cur).length = 10 := by
  simp [headerSize, readBytes]

theorem from_chars_none_iff (s : List Nat) (hs : s.length ≤ 10) :
    from_chars s = none ↔ ∀ c ∈ s.head?, isdigit c = false := by
  have hval : decimalValue (s.takeWhile isdigit) ≤ SIZE_MAX := by
    have h1 := decimalValue_foldl_lt (s.takeWhile isdigit)
      (fun d hd => (List.mem_takeWhile_imp hd)) 0
    have h2 : (s.takeWhile isdigit).length ≤ 10 :=
      le_trans (List.takeWhile_sublist _).length_le hs
    have h3 : 10 ^ (s.takeWhile isdigit).length ≤ 10 ^ 10 :=
      Nat.pow_le_pow_right (by norm_num) h2
    unfold decimalValue SIZE_MAX
    norm_num at h1 h3 ⊢
    omega
  unfold from_chars
  cases s with
  | nil => simp
  | cons c cs =>
    by_cases hc : isdigit c = true
    · have hne : ¬ decimalValue (List.takeWhile isdigit (c :: cs)) > SIZE_MAX := by omega
      simp [List.takeWhile_cons, hc] at hne ⊢
      omega
    · simp [List.takeWhile_cons, hc]

theorem from_chars_some (s : List Nat) (v : Nat) (h : from_chars s = some v) :
    v = decimalValue (s.takeWhile isdigit) := by
  unfold from_chars at h
  by_cases h1 : s.takeWhile isdigit = []
  · simp [h1] at h
  · by_cases h2 : decimalValue (s.takeWhile isdigit) > SIZE_MAX
    · simp [h1, h2] at h
    · simp only [h1, h2, if_false] at h
      exact (Option.some.inj h).symm

theorem memberStep_outOfBounds_iff (buffer : List Nat) (cur size : Nat)
    (hparse : from_chars (RemoveSpaces (headerSize buffer cur)) = some size) :
    memberStep buffer cur = MemberStep.outOfBounds
      ↔ cur + 60 + size + size % 2 > buffer.length := by
  rw [memberStep_of_parse buffer cur size hparse]
  by_cases h : cur + 60 + size + size % 2 > buffer.length
  · simp [h]
  · by_cases hq : memberQualifies buffer cur size <;> simp [h, hq]

theorem memberStep_of_fit (buffer : List Nat) (cur size : Nat)
    (hparse : from_chars (RemoveSpaces (headerSize buffer cur)) = some size)
    (hfit : cur + 60 + size + size % 2 ≤ buffer.length) :
    memberStep buffer cur
      = if memberQualifies buffer cur size then
          MemberStep.submit (cur + 60) (cur + 60 + size + size % 2)
        else MemberStep.skip (cur + 60 + size + size % 2) := by
  have hnot : ¬ cur + 60 + size + size % 2 > buffer.length := by omega
  rw [memberStep_of_parse buffer cur size hparse]
  simp only [hnot, if_false]

theorem memberLoop_step (buffer : List Nat) (cur size : Nat)
    (hparse : from_chars (RemoveSpaces (headerSize buffer cur)) = some size)
    (hfit : cur + 60 + size + size % 2 ≤ buffer.length) (fuel : Nat) (results : List Nat) :
    memberLoop buffer (fuel + 1) cur results
      = memberLoop buffer fuel (cur + 60 + size + size % 2)
          (if memberQualifies buffer cur size then results ++ [cur + 60] else results) := by
  have hstep := memberStep_of_fit buffer cur size hparse hfit
  have hc : cur + ARCHIVE_MEMBER_HEADER_SIZE ≤ buffer.length := by
    unfold ARCHIVE_MEMBER_HEADER_SIZE
    omega
  by_cases hq : memberQualifies buffer cur size
  · rw [memberLoop]
    simp [hc, hstep, hq]
  · rw [memberLoop]
    simp [hc, hstep, hq]

/-! ## Claims about the archive walker -/

/-- C7 (walker filter). For every member the walker reaches, with its size parsed as
`size` and its next-header offset inside the buffer: the payload at `cur + 60` is
submitted if and only if the 16-byte name field is neither reserved name, the size is at
least 20, the machine type is i386 or amd64, and `pointer_to_symbol_table` and
`number_of_symbols` are both non-zero; otherwise the member is skipped; either way the
loop goes on from the next member. An archive with only the linker and long-names
members, and an archive with one ARM object, submit nothing. -/
theorem walker_filter (buffer : List Nat) (cur size : Nat)
    (hparse : from_chars (RemoveSpaces (headerSize buffer cur)) = some size)
    (hfit : cur + 60 + size + size % 2 ≤ buffer.length) :
    (memberStep buffer cur = MemberStep.submit (cur + 60) (cur + 60 + size + size % 2)
        ↔ memberQualifies buffer cur size)
      ∧ (¬ memberQualifies buffer cur size →
          memberStep buffer cur = MemberStep.skip (cur + 60 + size + size % 2))
      ∧ (∀ fuel results, memberLoop buffer (fuel + 1) cur results
          = memberLoop buffer fuel (cur + 60 + size + size % 2)
              (if memberQualifies buffer cur size then results ++ [cur + 60] else results))
      ∧ walkArchive metadataOnlyArchive = some []
      ∧ walkArchive armArchive = some [] := by
  have hstep := memberStep_of_fit buffer cur size hparse hfit
  refine ⟨?_, ?_, memberLoop_step buffer cur size hparse hfit, by rfl, by rfl⟩
  · by_cases hq : memberQualifies buffer cur size
    · simp [hstep, hq]
    · simp [hstep, hq]
  · intro hq
    simp [hstep, hq]

/-- C7, at a concrete input: the 20-byte amd64 object of `oneObjectArchive` is submitted. -/
theorem walker_filter_witness :
    (from_chars (RemoveSpaces (headerSize oneObjectArchive 8)) = some 20
      ∧ 8 + 60 + 20 + 20 % 2 ≤ oneObjectArchive.length)
      ∧ memberQualifies oneObjectArchive 8 20
      ∧ memberStep oneObjectArchive 8 = MemberStep.submit (8 + 60) (8 + 60 + 20 + 20 % 2) :=
  ⟨⟨by rfl, by decide⟩, by decide,
    (walker_filter oneObjectArchive 8 20 (by rfl) (by decide)).1.2 (by decide)⟩

/-- C8 (truncated-member rule, as the code has it). For a member at `cur` with parsed size
`size` in a buffer of `N` bytes, the walker halts with the out-of-bounds message exactly
when `next > N`, where `next = cur + 60 + size + size % 2`; that is, when
`payload_end > N`, or when the size is odd and `payload_end = N`, where
`payload_end = cur + 60 + size`. The loop then ends with the results collected so far. -/
theorem truncated_rule (buffer : List Nat) (cur size : Nat)
    (hparse : from_chars (RemoveSpaces (headerSize buffer cur)) = some size) :
    (memberStep buffer cur = MemberStep.outOfBounds
        ↔ cur + 60 + size + size % 2 > buffer.length)
      ∧ (memberStep buffer cur = MemberStep.outOfBounds
        ↔ (cur + 60 + size > buffer.length
            ∨ (size % 2 = 1 ∧ cur + 60 + size = buffer.length)))
      ∧ (memberStep buffer cur = MemberStep.outOfBounds →
          ∀ fuel results, memberLoop buffer (fuel + 1) cur results = some results) := by
  have h1 := memberStep_outOfBounds_iff buffer cur size hparse
  refine ⟨h1, ?_, ?_⟩
  · rw [h1]
    omega
  · intro h fuel results
    exact memberLoop_halt buffer fuel cur results (Or.inr h)

/-- C8, at a concrete input: the odd-sized last member of `oddTailArchive` lacks its pad
byte, and the walker halts. -/
theorem truncated_rule_witness :
    from_chars (RemoveSpaces (headerSize oddTailArchive 8)) = some 21
      ∧ (memberStep oddTailArchive 8 = MemberStep.outOfBounds
          ↔ (8 + 60 + 21 > oddTailArchive.length
              ∨ (21 % 2 = 1 ∧ 8 + 60 + 21 = oddTailArchive.length))) :=
  ⟨by rfl, (truncated_rule oddTailArchive 8 21 (by rfl)).2.1⟩

/-- C8, the claim as stated fails: in `oddTailArchive` (89 bytes) the only member has the
odd size 21 and its payload ends exactly at byte 89, so neither `payload_end > N` nor
`next > N + 1` holds, and the member passes the filter; still the walker halts with the
out-of-bounds message and submits nothing. -/
theorem truncated_rule_counterexample :
    oddTailArchive.length = 89
      ∧ from_chars (RemoveSpaces (headerSize oddTailArchive 8)) = some 21
      ∧ ¬ (8 + 60 + 21 > oddTailArchive.length
            ∨ 8 + 60 + 21 + 21 % 2 > oddTailArchive.length + 1)
      ∧ memberQualifies oddTailArchive 8 21
      ∧ memberStep oddTailArchive 8 = MemberStep.outOfBounds
      ∧ walkArchive oddTailArchive = some [] :=
  ⟨by decide, by rfl, by decide, by decide, by rfl, by rfl⟩

/-- C9 (malformed-size rule, as the code has it). The walker halts with the invalid-size
message exactly when the 10-byte size field, after trailing whitespace is trimmed, does
not start with a decimal digit (it is empty or its first char is not a digit). The loop
then ends with the results collected so far: neither that member nor a later one is
submitted, and every member submitted before it stays in the results. A field that
starts with digits is read as the value of its leading digits. In `badSecondArchive` the
first object stays submitted when the second header is malformed. -/
theorem malformed_size_rule (buffer : List Nat) (cur : Nat) :
    (memberStep buffer cur = MemberStep.invalidSize
        ↔ ∀ c ∈ (RemoveSpaces (headerSize buffer cur)).head?, isdigit c = false)
      ∧ (memberStep buffer cur = MemberStep.invalidSize →
          ∀ fuel results, memberLoop buffer (fuel + 1) cur results = some results)
      ∧ (∀ size, from_chars (RemoveSpaces (headerSize buffer cur)) = some size →
          size = decimalValue ((RemoveSpaces (headerSize buffer cur)).takeWhile isdigit))
      ∧ memberStep badSecondArchive 90 = MemberStep.invalidSize
      ∧ walkArchive badSecondArchive = some [68] := by
  refine ⟨?_, ?_, fun size h => from_chars_some _ size h, by rfl, by rfl⟩
  · rw [memberStep_invalid_iff]
    exact from_chars_none_iff _
      (le_trans (RemoveSpaces_length_le _) (le_of_eq (headerSize_length buffer cur)))
  · intro h fuel results
    exact memberLoop_halt buffer fuel cur results (Or.inl h)

/-- C9, at a concrete input: the second header of `badSecondArchive`, whose size field
reads `x1`. -/
theorem malformed_size_rule_witness :
    memberStep badSecondArchive 90 = MemberStep.invalidSize
      ∧ ∀ fuel results, memberLoop badSecondArchive (fuel + 1) 90 results = some results :=
  ⟨by rfl, (malformed_size_rule badSecondArchive 90).2.1 (by rfl)⟩

/-- C9, the claim as stated fails: in `junkSizeArchive` the trimmed size field reads
`20abc`, which holds chars that are not digits, and the walker does not halt: the field
is read as 20 and the member is submitted. -/
theorem malformed_size_rule_counterexample :
    RemoveSpaces (headerSize junkSizeArchive 8) = charCodes "20abc"
      ∧ (∃ c ∈ charCodes "20abc", isdigit c = false)
      ∧ from_chars (charCodes "20abc") = some 20
      ∧ memberStep junkSizeArchive 8 = MemberStep.submit 68 88
      ∧ walkArchive junkSizeArchive = some [68] :=
  ⟨by rfl, ⟨97, by decide, by decide⟩, by rfl, by rfl, by rfl⟩

/-- C10 (member stepping). For every member at `cur` with parsed size `size` that does not
halt the walker, the step ends, submitted or skipped, with the cursor at
`cur + 60 + size + size % 2`, and the loop goes on from there; so an odd-sized member is
followed by exactly one pad byte and a zero-sized member moves the cursor by exactly
60. -/
theorem member_stepping (buffer : List Nat) (cur size : Nat)
    (hparse : from_chars (RemoveSpaces (headerSize buffer cur)) = some size)
    (hgo : memberStep buffer cur ≠ MemberStep.outOfBounds) :
    (memberStep buffer cur = MemberStep.skip (cur + 60 + size + size % 2)
        ∨ memberStep buffer cur = MemberStep.submit (cur + 60) (cur + 60 + size + size % 2))
      ∧ (∀ fuel results, ∃ results2,
          memberLoop buffer (fuel + 1) cur results
            = memberLoop buffer fuel (cur + 60 + size + size % 2) results2
          ∧ (results2 = results ∨ results2 = results ++ [cur + 60]))
      ∧ (size % 2 = 1 → cur + 60 + size + size % 2 = (cur + 60 + size) + 1)
      ∧ (size % 2 = 0 → cur + 60 + size + size % 2 = cur + 60 + size)
      ∧ (size = 0 → cur + 60 + size + size % 2 = cur + 60) := by
  have hfit : cur + 60 + size + size % 2 ≤ buffer.length := by
    by_contra h
    exact hgo ((memberStep_outOfBounds_iff buffer cur size hparse).2 (by omega))
  have hstep := memberStep_of_fit buffer cur size hparse hfit
  refine ⟨?_, ?_, by omega, by omega, by intro h; subst h; rfl⟩
  · by_cases hq : memberQualifies buffer cur size
    · exact Or.inr (by simp [hstep, hq])
    · exact Or.inl (by simp [hstep, hq])
  · intro fuel results
    refine ⟨_, memberLoop_step buffer cur size hparse hfit fuel results, ?_⟩
    by_cases hq : memberQualifies buffer cur size <;> simp [hq]

/-- C10, at a concrete input: the 21-byte first member of `badSecondArchive` at offset 8 is
followed by one pad byte, and the next header is read at offset 90. -/
theorem member_stepping_witness :
    (from_chars (RemoveSpaces (headerSize badSecondArchive 8)) = some 21
      ∧ memberStep badSecondArchive 8 ≠ MemberStep.outOfBounds)
      ∧ (memberStep badSecondArchive 8 = MemberStep.skip (8 + 60 + 21 + 21 % 2)
          ∨ memberStep badSecondArchive 8
              = MemberStep.submit (8 + 60) (8 + 60 + 21 + 21 % 2))
      ∧ 8 + 60 + 21 + 21 % 2 = 90 :=
  ⟨⟨by rfl, by decide⟩,
    (member_stepping badSecondArchive 8 21 (by rfl) (by decide)).1, by decide⟩

/-! ## The per-object task: sizes -/

theorem readByte_lt (mem : List Nat) (k : Nat) : readByte mem k < 256 :=
  Nat.mod_lt _ (by norm_num)

theorem readU32_lt (mem : List Nat) (k : Nat) : readU32 mem k < 4294967296 := by
  have h0 := readByte_lt mem k
  have h1 := readByte_lt mem (k + 1)
  have h2 := readByte_lt mem (k + 2)
  have h3 := readByte_lt mem (k + 3)
  unfold readU32
  omega

theorem symbolValue_lt (buffer : List Nat) (p : Nat) : symbolValue buffer p < 4294967296 :=
  readU32_lt _ _

theorem sectionSizeOfRawData_lt (buffer : List Nat) (p : Nat) :
    sectionSizeOfRawData buffer p < 4294967296 :=
  readU32_lt _ _

theorem sorted_getD_le (key : Nat → Nat) (l : List Nat)
    (hs : l.Pairwise fun a b => key a ≤ key b) (i j : Nat) (hij : i < j) (hj : j < l.length) :
    key (l.getD i 0) ≤ key (l.getD j 0) := by
  have hi : i < l.length := by omega
  rw [List.pairwise_iff_getElem] at hs
  have := hs i j hi hj hij
  simpa [List.getD_eq_getElem?_getD, hi, hj] using this

theorem funcSizeAt_inner (buffer : List Nat) (pSection : Nat) (funcSymbols : List Nat)
    (hs : funcSymbols.Pairwise fun a b => symbolValue buffer a ≤ symbolValue buffer b)
    (k : Nat) (hk : k + 1 < funcSymbols.length) :
    funcSizeAt buffer pSection funcSymbols k
      = symbolValue buffer (funcSymbols.getD (k + 1) 0)
        - symbolValue buffer (funcSymbols.getD k 0) := by
  have hle := sorted_getD_le (symbolValue buffer) funcSymbols hs k (k + 1) (by omega) hk
  have h1 := symbolValue_lt buffer (funcSymbols.getD (k + 1) 0)
  have hc : k < funcSymbols.length - 1 := by omega
  unfold funcSizeAt
  simp only [hc, if_true]
  omega

theorem funcSizeAt_last (buffer : List Nat) (pSection : Nat) (funcSymbols : List Nat)
    (k : Nat) (hk : k + 1 = funcSymbols.length)
    (hv : symbolValue buffer (funcSymbols.getD k 0) ≤ sectionSizeOfRawData buffer pSection) :
    funcSizeAt buffer pSection funcSymbols k
      = sectionSizeOfRawData buffer pSection - symbolValue buffer (funcSymbols.getD k 0) := by
  have h1 := sectionSizeOfRawData_lt buffer pSection
  have hc : ¬ k < funcSymbols.length - 1 := by omega
  unfold funcSizeAt
  simp only [hc, if_false]
  omega

theorem symbolStep_eq (decode : DecodeFn) (buffer beyond : List Nat)
    (pMemberData pStringTable pSection : Nat) (funcSymbols : List Nat)
    (localJson : JsonObject) (i : Nat) :
    symbolStep decode buffer beyond pMemberData pStringTable pSection funcSymbols localJson i
      = if recordsFunction buffer beyond pMemberData pStringTable pSection funcSymbols i then
          (GetSignature decode
            (buffer.drop (funcCodeAt buffer pMemberData pSection (funcSymbols.getD i 0)))
            (funcSizeAt buffer pSection funcSymbols i)
            (fileHeaderMachine buffer pMemberData == IMAGE_FILE_MACHINE_AMD64)).map
            (jsonAssign localJson (symbolNameAt buffer beyond pStringTable (funcSymbols.getD i 0)))
        else some localJson := by
  unfold symbolStep recordsFunction
  generalize symbolNameAt buffer beyond pStringTable (funcSymbols.getD i 0) = name
  generalize funcCodeAt buffer pMemberData pSection (funcSymbols.getD i 0) = code
  generalize funcSizeAt buffer pSection funcSymbols i = size
  by_cases h1 : name = []
  · simp [h1]
  · by_cases h2 : code + size ≤ buffer.length
    · cases GetSignature decode (buffer.drop code) size
        (fileHeaderMachine buffer pMemberData == IMAGE_FILE_MACHINE_AMD64) <;> simp [h1, h2]
    · simp [h1, h2]

theorem insertByKey_perm (key : Nat → Nat) (a : Nat) (l : List Nat) :
    (insertByKey key a l).Perm (a :: l) := by
  induction l with
  | nil => simp [insertByKey]
  | cons b bs ih =>
    unfold insertByKey
    by_cases h : key a ≤ key b
    · simp [h]
    · simp only [h, if_false]
      exact (List.Perm.cons b ih).trans (List.Perm.swap a b bs)

theorem insertByKey_sorted (key : Nat → Nat) (a : Nat) (l : List Nat)
    (hs : l.Pairwise fun x y => key x ≤ key y) :
    (insertByKey key a l).Pairwise fun x y => key x ≤ key y := by
  induction l with
  | nil => simp [insertByKey]
  | cons b bs ih =>
    have hb : ∀ x ∈ bs, key b ≤ key x := fun x hx => List.rel_of_pairwise_cons hs hx
    have hbs := List.Pairwise.of_cons hs
    unfold insertByKey
    by_cases h : key a ≤ key b
    · simp only [h, if_true]
      refine List.Pairwise.cons ?_ hs
      intro x hx
      rcases List.mem_cons.1 hx with rfl | hx
      · exact h
      · exact le_trans h (hb x hx)
    · simp only [h, if_false]
      refine List.Pairwise.cons ?_ (ih hbs)
      intro x hx
      have hx2 := (insertByKey_perm key a bs).subset hx
      rcases List.mem_cons.1 hx2 with rfl | hx2
      · omega
      · exact hb x hx2

theorem sampleSort_ok : SortOk sampleSort := by
  intro key l
  induction l with
  | nil => simp [sampleSort]
  | cons a rest ih =>
    unfold sampleSort
    exact ⟨(insertByKey_perm key a _).trans (List.Perm.cons a ih.1),
      insertByKey_sorted key a _ ih.2⟩

theorem funcSizeAt_cons (buffer : List Nat) (pSection : Nat) (a b : Nat) (rest : List Nat)
    (i : Nat) :
    funcSizeAt buffer pSection (a :: b :: rest) (i + 1)
      = funcSizeAt buffer pSection (b :: rest) i := by
  unfold funcSizeAt
  simp

theorem sizes_sum (buffer : List Nat) (pSection : Nat) :
    ∀ funcSymbols : List Nat,
      (funcSymbols.Pairwise fun a b => symbolValue buffer a ≤ symbolValue buffer b) →
      (∀ p ∈ funcSymbols, symbolValue buffer p ≤ sectionSizeOfRawData buffer pSection) →
      ((List.range funcSymbols.length).map (funcSizeAt buffer pSection funcSymbols)).sum
        ≤ sectionSizeOfRawData buffer pSection
      ∧ (∀ a rest, funcSymbols = a :: rest →
          ((List.range funcSymbols.length).map (funcSizeAt buffer pSection funcSymbols)).sum
            + symbolValue buffer a = sectionSizeOfRawData buffer pSection) := by
  intro funcSymbols
  induction funcSymbols with
  | nil => intro _ _; simp
  | cons a rest ih =>
    intro hs hle
    have hsum : ((List.range (a :: rest).length).map
          (funcSizeAt buffer pSection (a :: rest))).sum
        + symbolValue buffer a = sectionSizeOfRawData buffer pSection := by
      cases rest with
      | nil =>
        have h := funcSizeAt_last buffer pSection [a] 0 (by simp) (by simpa using hle)
        have hle2 : symbolValue buffer a ≤ sectionSizeOfRawData buffer pSection := by
          simpa using hle
        have hr : List.range [a].length = [0] := rfl
        rw [hr]
        simp only [List.map_cons, List.map_nil, List.sum_cons, List.sum_nil, h]
        have hg : [a].getD 0 0 = a := rfl
        rw [hg]
        omega
      | cons b rest2 =>
        have hrec := (ih (List.Pairwise.of_cons hs)
          (fun p hp => hle p (List.mem_cons_of_mem _ hp))).2 b rest2 rfl
        have h0 := funcSizeAt_inner buffer pSection (a :: b :: rest2) hs 0 (by simp)
        have hab : symbolValue buffer a ≤ symbolValue buffer b :=
          List.rel_of_pairwise_cons hs (by simp)
        rw [List.length_cons, List.range_succ_eq_map, List.map_cons, List.map_map, List.sum_cons]
        have hfun : (funcSizeAt buffer pSection (a :: b :: rest2)) ∘ Nat.succ
            = funcSizeAt buffer pSection (b :: rest2) := by
          funext i
          exact funcSizeAt_cons buffer pSection a b rest2 i
        rw [hfun, h0]
        have hg0 : (a :: b :: rest2).getD 0 0 = a := rfl
        have hg1 : (a :: b :: rest2).getD (0 + 1) 0 = b := rfl
        rw [hg0, hg1]
        omega
    refine ⟨by omega, ?_⟩
    intro a2 rest2 h
    cases h
    exact hsum

/-! ## Claims about the per-object task -/

/-- C11 (function length). For the vector `funcSymbols` of a code section after the sort,
which is in ascending order of value, and every position `k` in it: when the position
yields a function record, the length passed to `GetSignature` is `funcSizeAt`; it is the
value of the next symbol minus the value of this one when a next symbol exists, and
`SizeOfRawData` minus the value for the last symbol when the value is at most
`SizeOfRawData`; a symbol that shares its value with its successor gets the length 0. -/
theorem function_length (T : Toolchain) (hsort : SortOk T.sort) (buffer beyond : List Nat)
    (pMemberData pStringTable pSection : Nat) (bucket funcSymbols : List Nat)
    (hfs : funcSymbols = T.sort (symbolValue buffer) bucket)
    (localJson : JsonObject) (k : Nat) :
    (∀ i j, i < j → j < funcSymbols.length →
        symbolValue buffer (funcSymbols.getD i 0) ≤ symbolValue buffer (funcSymbols.getD j 0))
      ∧ (recordsFunction buffer beyond pMemberData pStringTable pSection funcSymbols k = true →
          symbolStep T.decode buffer beyond pMemberData pStringTable pSection funcSymbols localJson k
            = (GetSignature T.decode
                (buffer.drop (funcCodeAt buffer pMemberData pSection (funcSymbols.getD k 0)))
                (funcSizeAt buffer pSection funcSymbols k)
                (fileHeaderMachine buffer pMemberData == IMAGE_FILE_MACHINE_AMD64)).map
                (jsonAssign localJson
                  (symbolNameAt buffer beyond pStringTable (funcSymbols.getD k 0))))
      ∧ (k + 1 < funcSymbols.length →
          funcSizeAt buffer pSection funcSymbols k
            = symbolValue buffer (funcSymbols.getD (k + 1) 0)
              - symbolValue buffer (funcSymbols.getD k 0))
      ∧ (k + 1 = funcSymbols.length →
          symbolValue buffer (funcSymbols.getD k 0) ≤ sectionSizeOfRawData buffer pSection →
          funcSizeAt buffer pSection funcSymbols k
            = sectionSizeOfRawData buffer pSection
              - symbolValue buffer (funcSymbols.getD k 0))
      ∧ (k + 1 < funcSymbols.length →
          symbolValue buffer (funcSymbols.getD k 0)
            = symbolValue buffer (funcSymbols.getD (k + 1) 0) →
          funcSizeAt buffer pSection funcSymbols k = 0) := by
  have hs : funcSymbols.Pairwise fun a b => symbolValue buffer a ≤ symbolValue buffer b := by
    rw [hfs]
    exact (hsort (symbolValue buffer) bucket).2
  refine ⟨fun i j hij hj => sorted_getD_le (symbolValue buffer) funcSymbols hs i j hij hj,
    ?_, fun h => funcSizeAt_inner buffer pSection funcSymbols hs k h,
    fun h hv => funcSizeAt_last buffer pSection funcSymbols k h hv, ?_⟩
  · intro hr
    rw [symbolStep_eq, if_pos hr]
  · intro h heq
    rw [funcSizeAt_inner buffer pSection funcSymbols hs k h, heq]
    exact Nat.sub_self _

/-- C11, at a concrete input: in `sameNameArchive` the sorted vector starts with the
symbol of value 0, whose length is the value 1 of the next symbol minus 0. -/
theorem function_length_witness :
    (SortOk sampleToolchain.sort
      ∧ sampleSort (symbolValue sameNameArchive) [128, 146]
          = sampleToolchain.sort (symbolValue sameNameArchive) [128, 146]
      ∧ 0 + 1 < (sampleSort (symbolValue sameNameArchive) [128, 146]).length)
      ∧ funcSizeAt sameNameArchive 88 (sampleSort (symbolValue sameNameArchive) [128, 146]) 0
          = symbolValue sameNameArchive
              ((sampleSort (symbolValue sameNameArchive) [128, 146]).getD (0 + 1) 0)
            - symbolValue sameNameArchive
              ((sampleSort (symbolValue sameNameArchive) [128, 146]).getD 0 0)
      ∧ funcSizeAt sameNameArchive 88 (sampleSort (symbolValue sameNameArchive) [128, 146]) 0
          = 1 :=
  ⟨⟨sampleSort_ok, rfl, by decide⟩,
    (function_length sampleToolchain sampleSort_ok sameNameArchive [] 68 164 88 [128, 146]
      (sampleSort (symbolValue sameNameArchive) [128, 146]) rfl [] 0).2.2.1
      (by decide),
    by rfl⟩

/-- C12 (section length budget, as the code has it). For a code section whose function
symbols all have a value of at most `SizeOfRawData`, the lengths of the function records
produced for the section add up to at most `SizeOfRawData`. -/
theorem section_length_budget (T : Toolchain) (hsort : SortOk T.sort) (buffer beyond : List Nat)
    (pMemberData pStringTable pSection : Nat) (bucket funcSymbols : List Nat)
    (hfs : funcSymbols = T.sort (symbolValue buffer) bucket)
    (hval : ∀ p ∈ bucket, symbolValue buffer p ≤ sectionSizeOfRawData buffer pSection) :
    (sectionRecordLengths buffer beyond pMemberData pStringTable pSection funcSymbols).sum
      ≤ sectionSizeOfRawData buffer pSection := by
  have hs : funcSymbols.Pairwise fun a b => symbolValue buffer a ≤ symbolValue buffer b := by
    rw [hfs]
    exact (hsort (symbolValue buffer) bucket).2
  have hval2 : ∀ p ∈ funcSymbols,
      symbolValue buffer p ≤ sectionSizeOfRawData buffer pSection := by
    intro p hp
    rw [hfs] at hp
    exact hval p ((hsort (symbolValue buffer) bucket).1.subset hp)
  have hall := (sizes_sum buffer pSection funcSymbols hs hval2).1
  have hsub : (sectionRecordLengths buffer beyond pMemberData pStringTable pSection funcSymbols).Sublist
      ((List.range funcSymbols.length).map (funcSizeAt buffer pSection funcSymbols)) :=
    List.Sublist.map _ (List.filter_sublist _)
  exact le_trans (hsub.sum_le_sum (fun a _ => Nat.zero_le a)) hall

/-- C12, at a concrete input: the two symbols of `sameNameArchive` have the values 0 and 1
in a section of 6 bytes. -/
theorem section_length_budget_witness :
    (SortOk sampleToolchain.sort
      ∧ sampleSort (symbolValue sameNameArchive) [128, 146]
          = sampleToolchain.sort (symbolValue sameNameArchive) [128, 146]
      ∧ ∀ p ∈ [128, 146],
          symbolValue sameNameArchive p ≤ sectionSizeOfRawData sameNameArchive 88)
      ∧ (sectionRecordLengths sameNameArchive [] 68 164 88
            (sampleSort (symbolValue sameNameArchive) [128, 146])).sum
          ≤ sectionSizeOfRawData sameNameArchive 88 :=
  ⟨⟨sampleSort_ok, rfl, by decide⟩,
    section_length_budget sampleToolchain sampleSort_ok sameNameArchive [] 68 164 88 [128, 146]
      (sampleSort (symbolValue sameNameArchive) [128, 146]) rfl (by decide)⟩

/-- C12, the claim as stated fails: the code section of `wideArchive` declares 1 byte of
raw data, its two function symbols have the values 0 and 3, and the record produced for
the first has the length 3: its pattern has three tokens. -/
theorem section_length_budget_counterexample :
    functionsBySectionOf wideArchive 68 = some [(1, [128, 146])]
      ∧ sampleToolchain.sort (symbolValue wideArchive) [128, 146] = [128, 146]
      ∧ sectionSizeOfRawData wideArchive (sectionAt (sectionHeadersOf wideArchive 68) 1) = 1
      ∧ sectionRecordLengths wideArchive [] 68 (stringTableOf wideArchive 68)
          (sectionAt (sectionHeadersOf wideArchive 68) 1) [128, 146] = [3]
      ∧ analyzeObject sampleToolchain wideArchive [] 68
          = some [(charCodes "func_one", "90 90 90")] :=
  ⟨by rfl, by rfl, by rfl, by rfl, by rfl⟩

/-! ## The bytes `GetSignature` reads -/

theorem readByte_take (mem : List Nat) (n k : Nat) (h : k < n) :
    readByte (mem.take n) k = readByte mem k := by
  unfold readByte
  rw [List.getD_eq_getElem?_getD, List.getD_eq_getElem?_getD, List.getElem?_take_of_lt h]

theorem instrTokens_take (pCode : List Nat) (codeSize offset : Nat)
    (ins : ZydisDecodedInstruction) (h : offset + ins.length ≤ codeSize) :
    instrTokens (pCode.take codeSize) offset ins = instrTokens pCode offset ins := by
  unfold instrTokens
  apply List.map_congr_left
  intro i hi
  have hi2 : i < ins.length := List.mem_range.1 hi
  unfold byteToken
  rw [readByte_take pCode codeSize (offset + i) (by omega)]

theorem decode_slice_take (pCode : List Nat) (codeSize offset : Nat) :
    ((pCode.take codeSize).drop offset).take (codeSize - offset)
      = (pCode.drop offset).take (codeSize - offset) := by
  rw [List.drop_take, List.take_take, Nat.min_self]

theorem signatureLoop_take (decode : DecodeFn) (hok : DecoderLengthOk decode)
    (decoder : ZydisDecoder) (pCode : List Nat) (codeSize : Nat) :
    ∀ (fuel offset : Nat) (stream : String),
      signatureLoop decode decoder (pCode.take codeSize) codeSize fuel offset stream
        = signatureLoop decode decoder pCode codeSize fuel offset stream := by
  intro fuel
  induction fuel with
  | zero => intro offset stream; rfl
  | succ fuel ih =>
    intro offset stream
    unfold signatureLoop
    by_cases hlt : offset < codeSize
    · simp only [hlt, if_true, decode_slice_take]
      cases hd : decode decoder ((pCode.drop offset).take (codeSize - offset)) with
      | none => rfl
      | some ins =>
        have hlen := (hok _ _ _ hd).2
        simp only [List.length_take, List.length_drop] at hlen
        simp only [emitInstruction_eq]
        rw [instrTokens_take pCode codeSize offset ins (by omega), ih]
    · simp [hlt]

theorem GetSignature_take (decode : DecodeFn) (hok : DecoderLengthOk decode)
    (pCode : List Nat) (codeSize : Nat) (bIsX64 : Bool) :
    GetSignature decode (pCode.take codeSize) codeSize bIsX64
      = GetSignature decode pCode codeSize bIsX64 := by
  unfold GetSignature AnalyzeFuncGenerateSignature runSignatureLoop
  rw [signatureLoop_take decode hok]

theorem funcCodeAt_ge (buffer : List Nat) (pMemberData pSection pSymbol : Nat) :
    pMemberData ≤ funcCodeAt buffer pMemberData pSection pSymbol := by
  unfold funcCodeAt
  omega

theorem recordsFunction_iff (buffer beyond : List Nat) (pMemberData pStringTable pSection : Nat)
    (funcSymbols : List Nat) (i : Nat) :
    recordsFunction buffer beyond pMemberData pStringTable pSection funcSymbols i = true
      ↔ symbolNameAt buffer beyond pStringTable (funcSymbols.getD i 0) ≠ []
        ∧ funcCodeAt buffer pMemberData pSection (funcSymbols.getD i 0)
            + funcSizeAt buffer pSection funcSymbols i ≤ buffer.length := by
  unfold recordsFunction
  rw [Bool.and_eq_true, decide_eq_true_iff, decide_eq_true_iff]

/-- C13 (function range, as the code has it). A position of the sorted vector yields a
function record, that is a call of `GetSignature` and an entry of `localJson`, only if
its byte range `[pFuncCode, pFuncCode + funcSize)` starts at or after the start of the
object and ends at or before `memEnd`, the end of the whole archive buffer; a position
whose range runs past the end of the buffer, or whose name is empty, leaves `localJson`
as it is. -/
theorem function_range (decode : DecodeFn) (buffer beyond : List Nat)
    (pMemberData pStringTable pSection : Nat) (funcSymbols : List Nat)
    (localJson : JsonObject) (i : Nat) :
    (recordsFunction buffer beyond pMemberData pStringTable pSection funcSymbols i = true →
        pMemberData ≤ funcCodeAt buffer pMemberData pSection (funcSymbols.getD i 0)
          ∧ funcCodeAt buffer pMemberData pSection (funcSymbols.getD i 0)
              + funcSizeAt buffer pSection funcSymbols i ≤ buffer.length
          ∧ symbolStep decode buffer beyond pMemberData pStringTable pSection funcSymbols localJson i
              = (GetSignature decode
                  (buffer.drop (funcCodeAt buffer pMemberData pSection (funcSymbols.getD i 0)))
                  (funcSizeAt buffer pSection funcSymbols i)
                  (fileHeaderMachine buffer pMemberData == IMAGE_FILE_MACHINE_AMD64)).map
                  (jsonAssign localJson
                    (symbolNameAt buffer beyond pStringTable (funcSymbols.getD i 0))))
      ∧ (buffer.length < funcCodeAt buffer pMemberData pSection (funcSymbols.getD i 0)
            + funcSizeAt buffer pSection funcSymbols i →
          symbolStep decode buffer beyond pMemberData pStringTable pSection funcSymbols localJson i
            = some localJson)
      ∧ (recordsFunction buffer beyond pMemberData pStringTable pSection funcSymbols i = false →
          symbolStep decode buffer beyond pMemberData pStringTable pSection funcSymbols localJson i
            = some localJson) := by
  refine ⟨?_, ?_, ?_⟩
  · intro hr
    refine ⟨funcCodeAt_ge _ _ _ _, ((recordsFunction_iff _ _ _ _ _ _ _).1 hr).2, ?_⟩
    rw [symbolStep_eq, if_pos hr]
  · intro hlt
    have hr : ¬ recordsFunction buffer beyond pMemberData pStringTable pSection funcSymbols i = true := by
      intro hr
      have := ((recordsFunction_iff _ _ _ _ _ _ _).1 hr).2
      omega
    rw [symbolStep_eq, if_neg hr]
  · intro hr
    rw [symbolStep_eq, hr]
    rfl

/-- C13, at a concrete input: the only function of `abcArchive` has the range
`[150, 153)` in a buffer of 154 bytes. -/
theorem function_range_witness :
    recordsFunction abcArchive [] 68 146 88 [128] 0 = true
      ∧ 68 ≤ funcCodeAt abcArchive 68 88 ([128].getD 0 0)
      ∧ funcCodeAt abcArchive 68 88 ([128].getD 0 0) + funcSizeAt abcArchive 88 [128] 0
          ≤ abcArchive.length :=
  ⟨by rfl,
    ((function_range sampleDecode abcArchive [] 68 146 88 [128] [] 0).1 (by rfl)).1,
    ((function_range sampleDecode abcArchive [] 68 146 88 [128] [] 0).1 (by rfl)).2.1⟩

/-- C13, the claim as stated fails: in `overrunArchive` the object is the member
`[68, 151)`, its function has the range `[150, 152)`, which runs one byte past the end of
the member, and the function is passed to the generator and recorded all the same, with
the byte after the member in its pattern. -/
theorem function_range_counterexample :
    overrunArchive.length = 152
      ∧ memberStep overrunArchive 8 = MemberStep.submit 68 152
      ∧ from_chars (RemoveSpaces (headerSize overrunArchive 8)) = some 83
      ∧ functionsBySectionOf overrunArchive 68 = some [(1, [128])]
      ∧ funcCodeAt overrunArchive 68 (sectionAt (sectionHeadersOf overrunArchive 68) 1) 128
          = 150
      ∧ funcSizeAt overrunArchive (sectionAt (sectionHeadersOf overrunArchive 68) 1) [128] 0
          = 2
      ∧ ¬ (150 + 2 ≤ 68 + 83)
      ∧ analyzeObject sampleToolchain overrunArchive [] 68
          = some [(charCodes "function", "90 90")] :=
  ⟨by rfl, by rfl, by rfl, by rfl, by rfl, by rfl, by decide, by rfl⟩

/-- The reads that the task checks against `memEnd`. With a decoder whose instructions
have at least one byte and fit the buffer they were decoded from: for a position that
yields a function record, the code range `[pFuncCode, pFuncCode + funcSize)` starts at or after
the start of the object and ends at or before the end of the archive buffer, and the
pattern is computed from the `funcSize` bytes of that range alone; a long name whose
first byte is not below the end of the archive buffer is not read. -/
theorem checked_reads (decode : DecodeFn) (hok : DecoderLengthOk decode) (buffer beyond : List Nat)
    (pMemberData pStringTable pSection : Nat) (funcSymbols : List Nat) (i : Nat)
    (hr : recordsFunction buffer beyond pMemberData pStringTable pSection funcSymbols i = true) :
    pMemberData ≤ funcCodeAt buffer pMemberData pSection (funcSymbols.getD i 0)
      ∧ funcCodeAt buffer pMemberData pSection (funcSymbols.getD i 0)
          + funcSizeAt buffer pSection funcSymbols i ≤ buffer.length
      ∧ (∀ bIsX64,
          GetSignature decode
              (buffer.drop (funcCodeAt buffer pMemberData pSection (funcSymbols.getD i 0)))
              (funcSizeAt buffer pSection funcSymbols i) bIsX64
            = GetSignature decode
                ((buffer.drop
                    (funcCodeAt buffer pMemberData pSection (funcSymbols.getD i 0))).take
                  (funcSizeAt buffer pSection funcSymbols i))
                (funcSizeAt buffer pSection funcSymbols i) bIsX64)
      ∧ ((buffer.drop (funcCodeAt buffer pMemberData pSection (funcSymbols.getD i 0))).take
            (funcSizeAt buffer pSection funcSymbols i)).length
          = funcSizeAt buffer pSection funcSymbols i
      ∧ (∀ pSymbol, symbolShort buffer pSymbol = 0 →
          buffer.length ≤ pStringTable + symbolLong buffer pSymbol →
          symbolNameAt buffer beyond pStringTable pSymbol = charCodes "[ERROR]") := by
  have hle := ((recordsFunction_iff _ _ _ _ _ _ _).1 hr).2
  refine ⟨funcCodeAt_ge _ _ _ _, hle, ?_, ?_, ?_⟩
  · intro bIsX64
    exact (GetSignature_take decode hok _ _ bIsX64).symm
  · rw [List.length_take, List.length_drop]
    omega
  · intro pSymbol hs hge
    have : ¬ pStringTable + symbolLong buffer pSymbol < buffer.length := by omega
    simp [symbolNameAt, hs, this]

/-- C14 (pointer safety): the symbol records are read with no check. In
`oneObjectArchive` (88 bytes) the object is the member `[68, 88)`; its header puts the
symbol table at offset 60 of the object, with one symbol, and the first loop reads the
symbol record at address 128: 18 bytes that lie outside the object and past the end of
the buffer. In `openNameArchive` (152 bytes) the long name starts at address 151, below
`memEnd`, and has no NUL in the buffer: the string read there has two chars, the second
one from the byte after the buffer. -/
theorem symbol_read_unchecked :
    oneObjectArchive.length = 88
      ∧ memberStep oneObjectArchive 8 = MemberStep.submit 68 88
      ∧ from_chars (RemoveSpaces (headerSize oneObjectArchive 8)) = some 20
      ∧ symbolTableOf oneObjectArchive 68 = 128
      ∧ examinedSymbols oneObjectArchive 68 (symbolTableOf oneObjectArchive 68)
          (fileHeaderNumberOfSymbols oneObjectArchive 68 + 1) 0 = [0]
      ∧ symbolAt (symbolTableOf oneObjectArchive 68) 0 = 128
      ∧ ¬ (128 + SIZEOF_IMAGE_SYMBOL ≤ 68 + 20)
      ∧ ¬ (128 + SIZEOF_IMAGE_SYMBOL ≤ oneObjectArchive.length)
      ∧ openNameArchive.length = 152
      ∧ memberStep openNameArchive 8 = MemberStep.submit 68 152
      ∧ stringTableOf openNameArchive 68 + symbolLong openNameArchive 128 = 151
      ∧ symbolNameAt openNameArchive [0x31] (stringTableOf openNameArchive 68) 128
          = [0x90, 0x31]
      ∧ ¬ (151 + [0x90, 0x31].length ≤ openNameArchive.length) :=
  ⟨by rfl, by rfl, by rfl, by rfl, by rfl, by rfl, by decide, by decide, by rfl, by rfl,
    by rfl, by rfl, by decide⟩

/-! ## Names -/

theorem RemoveSpaces_getLast (s : List Nat) (c : Nat)
    (h : (RemoveSpaces s).getLast? = some c) : isspace c = false := by
  unfold RemoveSpaces at h
  rw [List.getLast?_reverse] at h
  have h2 := List.head?_dropWhile_not isspace s.reverse
  rw [h] at h2
  simpa using h2

theorem cString_ne_zero (buffer beyond : List Nat) (p c : Nat)
    (h : c ∈ cString buffer beyond p) : c ≠ 0 := by
  unfold cString at h
  have := List.mem_takeWhile_imp h
  simpa using this

theorem takeWhile_terminated (l : List Nat) :
    ∃ rest, l ++ [0] = l.takeWhile (fun c => c != 0) ++ 0 :: rest
      ∧ (l ++ [0]).takeWhile (fun c => c != 0) = l.takeWhile (fun c => c != 0) := by
  induction l with
  | nil => exact ⟨[], rfl, rfl⟩
  | cons a l ih =>
    obtain ⟨rest, h1, h2⟩ := ih
    by_cases ha : a = 0
    · subst ha
      exact ⟨l ++ [0], by simp, by simp⟩
    · have ha2 : (a != 0) = true := by simpa using ha
      refine ⟨rest, ?_, ?_⟩
      · simp only [List.takeWhile_cons, ha2, if_true, List.cons_append]
        rw [← h1]
      · simp only [List.cons_append, List.takeWhile_cons, ha2, if_true]
        rw [h2]

/-- The string read at `p` is followed in memory by a NUL. -/
theorem cString_terminated (buffer beyond : List Nat) (p : Nat) :
    ∃ rest, (buffer.drop p ++ beyond ++ [0]).map (fun c => c % 256)
      = cString buffer beyond p ++ 0 :: rest := by
  obtain ⟨rest, h1, h2⟩ := takeWhile_terminated ((buffer.drop p ++ beyond).map fun c => c % 256)
  refine ⟨rest, ?_⟩
  unfold cString
  rw [List.map_append, List.map_cons, List.map_nil, Nat.zero_mod, h2]
  exact h1

theorem takeWhile_append_of_mem (f : Nat → Bool) (l₁ l₂ : List Nat)
    (h : ∃ a ∈ l₁, f a = false) : (l₁ ++ l₂).takeWhile f = l₁.takeWhile f := by
  induction l₁ with
  | nil =>
    obtain ⟨a, ha, _⟩ := h
    exact absurd ha (List.not_mem_nil a)
  | cons b l ih =>
    by_cases hb : f b = true
    · simp only [List.cons_append, List.takeWhile_cons, hb, if_true]
      obtain ⟨a, ha, hfa⟩ := h
      rcases List.mem_cons.1 ha with h1 | h1
      · subst h1
        rw [hb] at hfa
        exact Bool.noConfusion hfa
      · rw [ih ⟨a, h1, hfa⟩]
    · simp only [List.cons_append, List.takeWhile_cons, hb]
      rfl

/-- A string with a NUL inside the buffer is read from the buffer alone. -/
theorem cString_inside (buffer beyond other : List Nat) (p q : Nat)
    (hpq : p ≤ q) (hq : q < buffer.length) (h0 : readByte buffer q = 0) :
    cString buffer beyond p = cString buffer other p := by
  have hmem : ∃ a ∈ (buffer.drop p).map (fun c => c % 256), (fun c => c != 0) a = false := by
    refine ⟨0, ?_, rfl⟩
    rw [List.mem_map]
    refine ⟨buffer.getD q 0, ?_, h0⟩
    rw [List.getD_eq_getElem _ _ hq]
    have hq2 : q - p < (buffer.drop p).length := by rw [List.length_drop]; omega
    have : (buffer.drop p)[q - p] = buffer[q] := by
      rw [List.getElem_drop]
      congr 1
      omega
    rw [← this]
    exact List.getElem_mem _
  unfold cString
  rw [List.append_assoc, List.map_append, takeWhile_append_of_mem _ _ _ hmem,
    List.append_assoc, List.map_append, takeWhile_append_of_mem _ _ _ hmem]

theorem symbolNameAt_short (buffer beyond : List Nat) (pStringTable pSymbol : Nat)
    (h : symbolShort buffer pSymbol ≠ 0) :
    symbolNameAt buffer beyond pStringTable pSymbol = RemoveSpaces (symbolShortName buffer pSymbol) := by
  simp [symbolNameAt, h]

theorem symbolNameAt_long (buffer beyond : List Nat) (pStringTable pSymbol : Nat)
    (h : symbolShort buffer pSymbol = 0) :
    symbolNameAt buffer beyond pStringTable pSymbol
      = if pStringTable + symbolLong buffer pSymbol < buffer.length then
          cString buffer beyond (pStringTable + symbolLong buffer pSymbol)
        else charCodes "[ERROR]" := by
  simp [symbolNameAt, h]

/-! ## The JSON object -/

theorem jsonLookup_assign (json : JsonObject) (key key2 : List Nat) (value : String) :
    jsonLookup (jsonAssign json key value) key2
      = if key = key2 then some value else jsonLookup json key2 := by
  induction json with
  | nil => simp [jsonAssign, jsonLookup]
  | cons e es ih =>
    unfold jsonAssign
    by_cases h : e.1 = key
    · by_cases h2 : key = key2
      · simp [h, h2, jsonLookup]
      · have h3 : ¬ e.1 = key2 := fun h4 => h2 (h ▸ h4)
        simp [h, h2, h3, jsonLookup]
    · by_cases h2 : key = key2
      · subst h2
        simp [h, jsonLookup, ih]
      · simp [h, jsonLookup, ih, h2]

theorem mem_jsonAssign (json : JsonObject) (key : List Nat) (value : String)
    (e : List Nat × String) (h : e ∈ jsonAssign json key value) :
    e = (key, value) ∨ e ∈ json := by
  induction json with
  | nil => simpa [jsonAssign] using h
  | cons e2 es ih =>
    unfold jsonAssign at h
    by_cases h2 : e2.1 = key
    · simp only [h2, if_true, List.mem_cons] at h
      rcases h with h | h
      · exact Or.inl h
      · exact Or.inr (List.mem_cons_of_mem _ h)
    · simp only [h2, if_false, List.mem_cons] at h
      rcases h with h | h
      · exact Or.inr (h ▸ List.mem_cons_self _ _)
      · rcases ih h with h3 | h3
        · exact Or.inl h3
        · exact Or.inr (List.mem_cons_of_mem _ h3)

/-! ## Invariants of the second phase -/

theorem symbolStep_inv (Q : JsonObject → Prop) (decode : DecodeFn) (buffer beyond : List Nat)
    (pMemberData pStringTable pSection : Nat) (funcSymbols : List Nat)
    (hQ : ∀ json p value, Q json → p ∈ funcSymbols → symbolNameAt buffer beyond pStringTable p ≠ [] →
      Q (jsonAssign json (symbolNameAt buffer beyond pStringTable p) value))
    (json json1 : JsonObject) (i : Nat) (hi : i < funcSymbols.length) (h0 : Q json)
    (h : symbolStep decode buffer beyond pMemberData pStringTable pSection funcSymbols json i
      = some json1) : Q json1 := by
  rw [symbolStep_eq] at h
  by_cases hr : recordsFunction buffer beyond pMemberData pStringTable pSection funcSymbols i = true
  · rw [if_pos hr] at h
    have hmem : funcSymbols.getD i 0 ∈ funcSymbols := by
      rw [List.getD_eq_getElem?_getD, List.getElem?_eq_getElem hi]
      exact List.getElem_mem hi
    cases hg : GetSignature decode
        (buffer.drop (funcCodeAt buffer pMemberData pSection (funcSymbols.getD i 0)))
        (funcSizeAt buffer pSection funcSymbols i)
        (fileHeaderMachine buffer pMemberData == IMAGE_FILE_MACHINE_AMD64) with
    | none => rw [hg] at h; exact Option.noConfusion h
    | some pattern =>
      rw [hg] at h
      have h2 : jsonAssign json (symbolNameAt buffer beyond pStringTable (funcSymbols.getD i 0)) pattern
          = json1 := Option.some.inj h
      rw [← h2]
      exact hQ json _ pattern h0 hmem ((recordsFunction_iff _ _ _ _ _ _ _).1 hr).1
  · rw [if_neg hr] at h
    exact (Option.some.inj h) ▸ h0

theorem sectionLoop_inv (Q : JsonObject → Prop) (decode : DecodeFn) (buffer beyond : List Nat)
    (pMemberData pStringTable pSection : Nat) (funcSymbols : List Nat)
    (hQ : ∀ json p value, Q json → p ∈ funcSymbols → symbolNameAt buffer beyond pStringTable p ≠ [] →
      Q (jsonAssign json (symbolNameAt buffer beyond pStringTable p) value)) :
    ∀ (positions : List Nat) (json json1 : JsonObject),
      (∀ i ∈ positions, i < funcSymbols.length) → Q json →
      sectionLoop decode buffer beyond pMemberData pStringTable pSection funcSymbols positions json
        = some json1 → Q json1 := by
  intro positions
  induction positions with
  | nil =>
    intro json json1 _ h0 h
    exact (Option.some.inj h) ▸ h0
  | cons i rest ih =>
    intro json json1 hpos h0 h
    unfold sectionLoop at h
    cases hs : symbolStep decode buffer beyond pMemberData pStringTable pSection funcSymbols json i with
    | none => rw [hs] at h; exact Option.noConfusion h
    | some json2 =>
      rw [hs] at h
      exact ih json2 json1 (fun k hk => hpos k (List.mem_cons_of_mem _ hk))
        (symbolStep_inv Q decode buffer beyond pMemberData pStringTable pSection funcSymbols hQ
          json json2 i (hpos i (List.mem_cons_self _ _)) h0 hs) h

theorem bucketsLoop_inv (Q : JsonObject → Prop) (T : Toolchain) (buffer beyond : List Nat)
    (pMemberData pStringTable pSectionHeaders : Nat) :
    ∀ (buckets : SectionMap) (json json1 : JsonObject),
      (∀ b ∈ buckets, ∀ json p value, Q json → p ∈ T.sort (symbolValue buffer) b.2 →
        symbolNameAt buffer beyond pStringTable p ≠ [] →
        Q (jsonAssign json (symbolNameAt buffer beyond pStringTable p) value)) →
      Q json →
      bucketsLoop T buffer beyond pMemberData pStringTable pSectionHeaders buckets json = some json1 →
      Q json1 := by
  intro buckets
  induction buckets with
  | nil =>
    intro json json1 _ h0 h
    exact (Option.some.inj h) ▸ h0
  | cons b rest ih =>
    intro json json1 hQ h0 h
    unfold bucketsLoop at h
    cases hs : sectionLoop T.decode buffer beyond pMemberData pStringTable
        (sectionAt pSectionHeaders b.1) (T.sort (symbolValue buffer) b.2)
        (List.range (T.sort (symbolValue buffer) b.2).length) json with
    | none => rw [hs] at h; exact Option.noConfusion h
    | some json2 =>
      rw [hs] at h
      exact ih json2 json1 (fun b2 hb2 => hQ b2 (List.mem_cons_of_mem _ hb2))
        (sectionLoop_inv Q T.decode buffer beyond pMemberData pStringTable _ _
          (hQ b (List.mem_cons_self _ _)) _ json json2
          (fun i hi => List.mem_range.1 hi) h0 hs) h

theorem analyzeObject_inv (Q : JsonObject → Prop) (T : Toolchain) (buffer beyond : List Nat)
    (pMemberData : Nat) (localJson : JsonObject)
    (hQ : ∀ json p value, Q json →
      (∃ m b, functionsBySectionOf buffer pMemberData = some m ∧ b ∈ T.iterate m
        ∧ p ∈ T.sort (symbolValue buffer) b.2) →
      symbolNameAt buffer beyond (stringTableOf buffer pMemberData) p ≠ [] →
      Q (jsonAssign json (symbolNameAt buffer beyond (stringTableOf buffer pMemberData) p) value))
    (h0 : Q [])
    (h : analyzeObject T buffer beyond pMemberData = some localJson) : Q localJson := by
  unfold analyzeObject at h
  cases hs : functionsBySectionOf buffer pMemberData with
  | none => rw [hs] at h; exact Option.noConfusion h
  | some m =>
    rw [hs] at h
    exact bucketsLoop_inv Q T buffer beyond pMemberData _ _ _ [] localJson
      (fun b hb json p value hj hp hn => hQ json p value hj ⟨m, b, hs, hb, hp⟩ hn) h0 h

/-- C15 (short-name resolution), at the failing input: the only function symbol of
`abcArchive` has the short name `abc`, stored NUL-padded in the 8-byte field, and the
code `90 90 90`. `RemoveSpaces` removes no NUL, so the key recorded for it is the whole
8-byte field, the three chars and five NUL bytes, and the map has no entry under
`abc`. -/
theorem short_name_key :
    walkArchive abcArchive = some [68]
      ∧ symbolShortName abcArchive 128 = charCodes "abc" ++ [0, 0, 0, 0, 0]
      ∧ symbolNameAt abcArchive [] (stringTableOf abcArchive 68) 128
          = charCodes "abc" ++ [0, 0, 0, 0, 0]
      ∧ signaturesJson sampleToolchain abcArchive []
          = some [(charCodes "abc" ++ [0, 0, 0, 0, 0], "90 90 90")]
      ∧ jsonLookup [(charCodes "abc" ++ [0, 0, 0, 0, 0], "90 90 90")] (charCodes "abc")
          = none :=
  ⟨by rfl, by rfl, by rfl, by rfl, by rfl⟩

/-- C17 (name out of range, as the code has it). For a symbol with a long-form name, when
the address of the name, `pStringTable + N.Name.Long`, is not below `memEnd`, the end of
the whole archive buffer, the name is the literal `[ERROR]`. Otherwise it is the
zero-terminated string at that address: the memory from that address on, which is the
buffer and the bytes after it, reads the chars of the name, none of them NUL, and then a
NUL; when a NUL lies in the buffer at or after that address, the name does not depend on
the bytes after the buffer. -/
theorem long_name_rule (buffer beyond : List Nat) (pStringTable pSymbol : Nat)
    (hlong : symbolShort buffer pSymbol = 0) :
    (buffer.length ≤ pStringTable + symbolLong buffer pSymbol →
        symbolNameAt buffer beyond pStringTable pSymbol = charCodes "[ERROR]")
      ∧ (pStringTable + symbolLong buffer pSymbol < buffer.length →
          (∀ c ∈ symbolNameAt buffer beyond pStringTable pSymbol, c ≠ 0)
            ∧ (∃ rest,
                ((buffer ++ beyond ++ [0]).drop (pStringTable + symbolLong buffer pSymbol)).map
                    (fun c => c % 256)
                  = symbolNameAt buffer beyond pStringTable pSymbol ++ 0 :: rest)
            ∧ ∀ q, pStringTable + symbolLong buffer pSymbol ≤ q → q < buffer.length →
                readByte buffer q = 0 →
                ∀ other, symbolNameAt buffer other pStringTable pSymbol
                  = symbolNameAt buffer beyond pStringTable pSymbol) := by
  have hn := symbolNameAt_long buffer beyond pStringTable pSymbol hlong
  constructor
  · intro hge
    have : ¬ pStringTable + symbolLong buffer pSymbol < buffer.length := by omega
    simp only [hn, this, if_false]
  · intro hlt
    have hn2 : symbolNameAt buffer beyond pStringTable pSymbol
        = cString buffer beyond (pStringTable + symbolLong buffer pSymbol) := by
      simp only [hn, hlt, if_true]
    refine ⟨?_, ?_, ?_⟩
    · intro c hc
      rw [hn2] at hc
      exact cString_ne_zero _ _ _ c hc
    · rw [hn2]
      have hd : (buffer ++ beyond ++ [0]).drop (pStringTable + symbolLong buffer pSymbol)
          = buffer.drop (pStringTable + symbolLong buffer pSymbol) ++ beyond ++ [0] := by
        rw [List.append_assoc, List.drop_append_of_le_length (by omega), List.append_assoc]
      rw [hd]
      exact cString_terminated _ _ _
    · intro q hpq hq h0 other
      have ho := symbolNameAt_long buffer other pStringTable pSymbol hlong
      simp only [hlt, if_true] at ho
      rw [ho, hn2]
      exact cString_inside buffer other beyond _ q hpq hq h0

/-- C17, at a concrete input: the long name `dup` of the first object of `dupArchive`,
which ends inside the buffer, and the long name of `openNameArchive`, which starts at the
last byte of the buffer, `90`, and runs on into the byte `31` after the buffer. -/
theorem long_name_rule_witness :
    (symbolShort openNameArchive 128 = 0
      ∧ stringTableOf openNameArchive 68 + symbolLong openNameArchive 128 = 151
      ∧ 151 < openNameArchive.length)
      ∧ symbolNameAt openNameArchive [0x31] (stringTableOf openNameArchive 68) 128
          = [0x90, 0x31]
      ∧ (∃ rest,
          ((openNameArchive ++ [0x31] ++ [0]).drop
              (stringTableOf openNameArchive 68 + symbolLong openNameArchive 128)).map
              (fun c => c % 256)
            = symbolNameAt openNameArchive [0x31] (stringTableOf openNameArchive 68) 128
              ++ 0 :: rest)
      ∧ analyzeObject sampleToolchain openNameArchive [0x31] 68
          = some [([0x90, 0x31], "90 90")]
      ∧ symbolNameAt dupArchive [0x31] (stringTableOf dupArchive 68) 128 = charCodes "dup" :=
  ⟨⟨by rfl, by rfl, by decide⟩, by rfl,
    ((long_name_rule openNameArchive [0x31] (stringTableOf openNameArchive 68) 128
      (by rfl)).2 (by decide)).2.1,
    by rfl, by rfl⟩

/-- C17, the claim as stated fails: in `farNameArchive` the object is the member
`[68, 152)` and the long name of its function symbol lies at address 212, past the end of
the object but inside the buffer of 216 bytes; the name recorded is not `[ERROR]` but the
string `xyz` read from the next member. -/
theorem long_name_rule_counterexample :
    farNameArchive.length = 216
      ∧ memberStep farNameArchive 8 = MemberStep.submit 68 152
      ∧ from_chars (RemoveSpaces (headerSize farNameArchive 8)) = some 84
      ∧ symbolShort farNameArchive 128 = 0
      ∧ stringTableOf farNameArchive 68 + symbolLong farNameArchive 128 = 212
      ∧ ¬ (212 < 68 + 84)
      ∧ symbolNameAt farNameArchive [] (stringTableOf farNameArchive 68) 128 = charCodes "xyz"
      ∧ analyzeObject sampleToolchain farNameArchive [] 68 = some [(charCodes "xyz", "90 90")] :=
  ⟨by rfl, by rfl, by rfl, by rfl, by rfl, by decide, by rfl, by rfl⟩

/-! ## The merge -/

theorem jsonAssign_keys (json : JsonObject) (key : List Nat) (value : String) :
    (jsonAssign json key value).map Prod.fst
      = if key ∈ json.map Prod.fst then json.map Prod.fst else json.map Prod.fst ++ [key] := by
  induction json with
  | nil => simp [jsonAssign]
  | cons e es ih =>
    unfold jsonAssign
    by_cases h : e.1 = key
    · simp [h]
    · have h2 : ¬ key = e.1 := fun h3 => h h3.symm
      by_cases h3 : key ∈ es.map Prod.fst
      · simp only [h, if_false, List.map_cons, ih, h3, if_true, List.mem_cons, h2, false_or]
      · simp only [h, if_false, List.map_cons, ih, h3, List.mem_cons, h2, false_or,
          List.cons_append]

theorem jsonAssign_nodup (json : JsonObject) (key : List Nat) (value : String)
    (h : (json.map Prod.fst).Nodup) : ((jsonAssign json key value).map Prod.fst).Nodup := by
  rw [jsonAssign_keys]
  by_cases h2 : key ∈ json.map Prod.fst
  · simpa [h2] using h
  · simp only [h2, if_false]
    exact List.Nodup.append h (List.nodup_singleton key)
      (by
        intro a ha hb
        rw [List.mem_singleton] at hb
        exact h2 (hb ▸ ha))

theorem analyzeObject_nodup (T : Toolchain) (buffer beyond : List Nat) (pMemberData : Nat)
    (localJson : JsonObject) (h : analyzeObject T buffer beyond pMemberData = some localJson) :
    (localJson.map Prod.fst).Nodup :=
  analyzeObject_inv (fun json => (json.map Prod.fst).Nodup) T buffer beyond pMemberData localJson
    (fun json _ value hj _ _ => jsonAssign_nodup json _ value hj) List.nodup_nil h

theorem jsonLookup_none (json : JsonObject) (key : List Nat)
    (h : key ∉ json.map Prod.fst) : jsonLookup json key = none := by
  induction json with
  | nil => rfl
  | cons e es ih =>
    have h1 : ¬ e.1 = key := fun h2 => h (by simp [h2])
    have h3 : key ∉ es.map Prod.fst := fun h2 => h (by simp [List.mem_map] at h2 ⊢; exact Or.inr h2)
    simp [jsonLookup, h1, ih h3]

theorem jsonLookup_update (other : JsonObject) (hnd : (other.map Prod.fst).Nodup) :
    ∀ (json : JsonObject) (key : List Nat),
      jsonLookup (jsonUpdate json other) key
        = (jsonLookup other key).or (jsonLookup json key) := by
  induction other with
  | nil => intro json key; simp [jsonUpdate, jsonLookup]
  | cons e es ih =>
    intro json key
    have hnd2 : (es.map Prod.fst).Nodup := (List.nodup_cons.1 hnd).2
    have hnot : e.1 ∉ es.map Prod.fst := (List.nodup_cons.1 hnd).1
    have hstep : jsonUpdate json (e :: es) = jsonUpdate (jsonAssign json e.1 e.2) es := rfl
    rw [hstep, ih hnd2, jsonLookup_assign]
    by_cases h : e.1 = key
    · subst h
      simp [jsonLookup, jsonLookup_none es e.1 hnot]
    · simp [jsonLookup, h]

theorem jsonLookup_merge :
    ∀ (jsons : List JsonObject) (json : JsonObject) (key : List Nat),
      (∀ m ∈ jsons, (m.map Prod.fst).Nodup) →
      jsonLookup (jsons.foldl jsonUpdate json) key
        = (jsons.reverse.findSome? fun m => jsonLookup m key).or (jsonLookup json key) := by
  intro jsons
  induction jsons with
  | nil => intro json key _; simp
  | cons m ms ih =>
    intro json key hnd
    rw [List.foldl_cons, ih _ key (fun m2 h2 => hnd m2 (List.mem_cons_of_mem _ h2)),
      jsonLookup_update m (hnd m (List.mem_cons_self _ _)), List.reverse_cons,
      List.findSome?_append]
    cases h1 : List.findSome? (fun m => jsonLookup m key) ms.reverse <;>
      cases h2 : jsonLookup m key <;> simp [List.findSome?, h2]

theorem collectResults_forall (T : Toolchain) (buffer beyond : List Nat) :
    ∀ (results : List Nat) (jsons : List JsonObject),
      collectResults T buffer beyond results = some jsons →
      List.Forall₂ (fun pMemberData localJson =>
        analyzeObject T buffer beyond pMemberData = some localJson) results jsons := by
  intro results
  induction results with
  | nil =>
    intro jsons h
    have : jsons = [] := (Option.some.inj h).symm
    subst this
    exact List.Forall₂.nil
  | cons p rest ih =>
    intro jsons h
    unfold collectResults at h
    cases h1 : analyzeObject T buffer beyond p with
    | none => rw [h1] at h; exact Option.noConfusion h
    | some localJson =>
      rw [h1] at h
      cases h2 : collectResults T buffer beyond rest with
      | none => rw [h2] at h; exact Option.noConfusion h
      | some js =>
        rw [h2] at h
        have : jsons = localJson :: js := (Option.some.inj h).symm
        subst this
        exact List.Forall₂.cons h1 (ih js h2)

theorem collectResults_mem (T : Toolchain) (buffer beyond : List Nat) (results : List Nat)
    (jsons : List JsonObject)
    (h : List.Forall₂ (fun pMemberData localJson =>
      analyzeObject T buffer beyond pMemberData = some localJson) results jsons) :
    ∀ m ∈ jsons, ∃ p, p ∈ results ∧ analyzeObject T buffer beyond p = some m := by
  induction h with
  | nil => intro m hm; exact absurd hm (List.not_mem_nil m)
  | cons hab _ ih =>
    intro m hm
    rcases List.mem_cons.1 hm with rfl | hm
    · exact ⟨_, List.mem_cons_self _ _, hab⟩
    · obtain ⟨p, hp, hp2⟩ := ih m hm
      exact ⟨p, List.mem_cons_of_mem _ hp, hp2⟩

/-! ## The last writer of a name -/

theorem sectionLoop_cons (decode : DecodeFn) (buffer beyond : List Nat)
    (pMemberData pStringTable pSection : Nat) (funcSymbols : List Nat)
    (i : Nat) (rest : List Nat) (json : JsonObject) :
    sectionLoop decode buffer beyond pMemberData pStringTable pSection funcSymbols (i :: rest) json
      = (symbolStep decode buffer beyond pMemberData pStringTable pSection funcSymbols json i).bind
          (sectionLoop decode buffer beyond pMemberData pStringTable pSection funcSymbols rest) := by
  cases h : symbolStep decode buffer beyond pMemberData pStringTable pSection funcSymbols json i <;>
    simp [sectionLoop, h]

theorem sectionLoop_append (decode : DecodeFn) (buffer beyond : List Nat)
    (pMemberData pStringTable pSection : Nat) (funcSymbols : List Nat) :
    ∀ (l₁ l₂ : List Nat) (json : JsonObject),
      sectionLoop decode buffer beyond pMemberData pStringTable pSection funcSymbols (l₁ ++ l₂) json
        = (sectionLoop decode buffer beyond pMemberData pStringTable pSection funcSymbols l₁ json).bind
            (sectionLoop decode buffer beyond pMemberData pStringTable pSection funcSymbols l₂) := by
  intro l₁
  induction l₁ with
  | nil => intro l₂ json; rfl
  | cons i rest ih =>
    intro l₂ json
    rw [List.cons_append, sectionLoop_cons, sectionLoop_cons]
    cases symbolStep decode buffer beyond pMemberData pStringTable pSection funcSymbols json i with
    | none => rfl
    | some json1 => exact ih l₂ json1

theorem symbolStep_lookup (decode : DecodeFn) (buffer beyond : List Nat)
    (pMemberData pStringTable pSection : Nat) (funcSymbols : List Nat)
    (json json1 : JsonObject) (i : Nat) (name : List Nat)
    (hne : recordsFunction buffer beyond pMemberData pStringTable pSection funcSymbols i = true →
      recordName buffer beyond pStringTable funcSymbols i ≠ name)
    (h : symbolStep decode buffer beyond pMemberData pStringTable pSection funcSymbols json i
      = some json1) :
    jsonLookup json1 name = jsonLookup json name := by
  rw [symbolStep_eq] at h
  by_cases hr : recordsFunction buffer beyond pMemberData pStringTable pSection funcSymbols i = true
  · rw [if_pos hr] at h
    cases hg : GetSignature decode
        (buffer.drop (funcCodeAt buffer pMemberData pSection (funcSymbols.getD i 0)))
        (funcSizeAt buffer pSection funcSymbols i)
        (fileHeaderMachine buffer pMemberData == IMAGE_FILE_MACHINE_AMD64) with
    | none => rw [hg] at h; exact Option.noConfusion h
    | some pattern =>
      rw [hg] at h
      rw [← Option.some.inj h, jsonLookup_assign]
      have := hne hr
      unfold recordName at this
      rw [if_neg this]
  · rw [if_neg hr] at h
    rw [← Option.some.inj h]

theorem sectionLoop_lookup (decode : DecodeFn) (buffer beyond : List Nat)
    (pMemberData pStringTable pSection : Nat) (funcSymbols : List Nat) (name : List Nat) :
    ∀ (positions : List Nat) (json json1 : JsonObject),
      (∀ i ∈ positions,
        recordsFunction buffer beyond pMemberData pStringTable pSection funcSymbols i = true →
        recordName buffer beyond pStringTable funcSymbols i ≠ name) →
      sectionLoop decode buffer beyond pMemberData pStringTable pSection funcSymbols positions json
        = some json1 →
      jsonLookup json1 name = jsonLookup json name := by
  intro positions
  induction positions with
  | nil =>
    intro json json1 _ h
    rw [← Option.some.inj h]
  | cons i rest ih =>
    intro json json1 hne h
    unfold sectionLoop at h
    cases hs : symbolStep decode buffer beyond pMemberData pStringTable pSection funcSymbols json i with
    | none => rw [hs] at h; exact Option.noConfusion h
    | some json2 =>
      rw [hs] at h
      rw [ih json2 json1 (fun k hk => hne k (List.mem_cons_of_mem _ hk)) h]
      exact symbolStep_lookup decode buffer beyond pMemberData pStringTable pSection funcSymbols
        json json2 i name (hne i (List.mem_cons_self _ _)) hs

theorem range_split (n i : Nat) (hi : i < n) :
    List.range n = List.range i ++ i :: List.range' (i + 1) (n - i - 1) := by
  have h1 : n = (n - i - 1 + 1) + i := by omega
  have h2 : List.range' 0 n = List.range' 0 ((n - i - 1 + 1) + i) := by rw [← h1]
  rw [List.range_eq_range', h2, ← List.range'_append_1, Nat.zero_add, List.range'_succ,
    ← List.range_eq_range']

theorem sectionLoop_last_writer (decode : DecodeFn) (buffer beyond : List Nat)
    (pMemberData pStringTable pSection : Nat) (funcSymbols : List Nat)
    (json json1 : JsonObject) (i : Nat) (hi : i < funcSymbols.length)
    (hrec : recordsFunction buffer beyond pMemberData pStringTable pSection funcSymbols i = true)
    (hlast : ∀ k, i < k → k < funcSymbols.length →
      recordsFunction buffer beyond pMemberData pStringTable pSection funcSymbols k = true →
      recordName buffer beyond pStringTable funcSymbols k ≠ recordName buffer beyond pStringTable funcSymbols i)
    (hrun : sectionLoop decode buffer beyond pMemberData pStringTable pSection funcSymbols
      (List.range funcSymbols.length) json = some json1) :
    jsonLookup json1 (recordName buffer beyond pStringTable funcSymbols i)
      = recordPattern decode buffer pMemberData pSection funcSymbols i
    ∧ ∃ pattern, recordPattern decode buffer pMemberData pSection funcSymbols i
        = some pattern := by
  rw [range_split funcSymbols.length i hi, sectionLoop_append] at hrun
  cases ha : sectionLoop decode buffer beyond pMemberData pStringTable pSection funcSymbols
      (List.range i) json with
  | none => rw [ha] at hrun; exact Option.noConfusion hrun
  | some ja =>
    rw [ha] at hrun
    simp only [Option.some_bind] at hrun
    rw [sectionLoop_cons] at hrun
    cases hb : symbolStep decode buffer beyond pMemberData pStringTable pSection funcSymbols ja i with
    | none => rw [hb] at hrun; exact Option.noConfusion hrun
    | some jb =>
      rw [hb] at hrun
      simp only [Option.some_bind] at hrun
      have hkeep := sectionLoop_lookup decode buffer beyond pMemberData pStringTable pSection
        funcSymbols (recordName buffer beyond pStringTable funcSymbols i) _ jb json1
        (fun k hk hr => by
          have := List.mem_range'_1.1 hk
          exact hlast k (by omega) (by omega) hr) hrun
      rw [symbolStep_eq, if_pos hrec] at hb
      unfold recordPattern
      cases hg : GetSignature decode
          (buffer.drop (funcCodeAt buffer pMemberData pSection (funcSymbols.getD i 0)))
          (funcSizeAt buffer pSection funcSymbols i)
          (fileHeaderMachine buffer pMemberData == IMAGE_FILE_MACHINE_AMD64) with
      | none => rw [hg] at hb; exact Option.noConfusion hb
      | some pattern =>
        rw [hg] at hb
        refine ⟨?_, pattern, rfl⟩
        rw [hkeep, ← Option.some.inj hb]
        unfold recordName
        rw [jsonLookup_assign, if_pos rfl]

theorem bucketsLoop_cons (T : Toolchain) (buffer beyond : List Nat)
    (pMemberData pStringTable pSectionHeaders : Nat) (b : Nat × List Nat) (rest : SectionMap)
    (json : JsonObject) :
    bucketsLoop T buffer beyond pMemberData pStringTable pSectionHeaders (b :: rest) json
      = (sectionLoop T.decode buffer beyond pMemberData pStringTable
          (sectionAt pSectionHeaders b.1) (T.sort (symbolValue buffer) b.2)
          (List.range (T.sort (symbolValue buffer) b.2).length) json).bind
          (bucketsLoop T buffer beyond pMemberData pStringTable pSectionHeaders rest) := by
  cases h : sectionLoop T.decode buffer beyond pMemberData pStringTable
      (sectionAt pSectionHeaders b.1) (T.sort (symbolValue buffer) b.2)
      (List.range (T.sort (symbolValue buffer) b.2).length) json <;>
    simp [bucketsLoop, h]

theorem bucketsLoop_append (T : Toolchain) (buffer beyond : List Nat)
    (pMemberData pStringTable pSectionHeaders : Nat) :
    ∀ (l₁ l₂ : SectionMap) (json : JsonObject),
      bucketsLoop T buffer beyond pMemberData pStringTable pSectionHeaders (l₁ ++ l₂) json
        = (bucketsLoop T buffer beyond pMemberData pStringTable pSectionHeaders l₁ json).bind
            (bucketsLoop T buffer beyond pMemberData pStringTable pSectionHeaders l₂) := by
  intro l₁
  induction l₁ with
  | nil => intro l₂ json; rfl
  | cons b rest ih =>
    intro l₂ json
    rw [List.cons_append, bucketsLoop_cons, bucketsLoop_cons]
    cases sectionLoop T.decode buffer beyond pMemberData pStringTable
        (sectionAt pSectionHeaders b.1) (T.sort (symbolValue buffer) b.2)
        (List.range (T.sort (symbolValue buffer) b.2).length) json with
    | none => rfl
    | some json1 => exact ih l₂ json1

theorem bucketsLoop_lookup (T : Toolchain) (buffer beyond : List Nat)
    (pMemberData pStringTable pSectionHeaders : Nat) (name : List Nat) :
    ∀ (buckets : SectionMap) (json json1 : JsonObject),
      (∀ b ∈ buckets, ∀ k, k < (T.sort (symbolValue buffer) b.2).length →
        recordsFunction buffer beyond pMemberData pStringTable (sectionAt pSectionHeaders b.1)
          (T.sort (symbolValue buffer) b.2) k = true →
        recordName buffer beyond pStringTable (T.sort (symbolValue buffer) b.2) k ≠ name) →
      bucketsLoop T buffer beyond pMemberData pStringTable pSectionHeaders buckets json = some json1 →
      jsonLookup json1 name = jsonLookup json name := by
  intro buckets
  induction buckets with
  | nil =>
    intro json json1 _ h
    rw [← Option.some.inj h]
  | cons b rest ih =>
    intro json json1 hne h
    rw [bucketsLoop_cons] at h
    cases hs : sectionLoop T.decode buffer beyond pMemberData pStringTable
        (sectionAt pSectionHeaders b.1) (T.sort (symbolValue buffer) b.2)
        (List.range (T.sort (symbolValue buffer) b.2).length) json with
    | none => rw [hs] at h; exact Option.noConfusion h
    | some json2 =>
      rw [hs] at h
      simp only [Option.some_bind] at h
      rw [ih json2 json1 (fun b2 hb2 => hne b2 (List.mem_cons_of_mem _ hb2)) h]
      exact sectionLoop_lookup T.decode buffer beyond pMemberData pStringTable _ _ name _ json json2
        (fun k hk hr => hne b (List.mem_cons_self _ _) k (List.mem_range.1 hk) hr) hs

/-! ## The first loop: primary slots -/

theorem nextSymbolIndex_eq (buffer : List Nat) (pFileHeader pSymbolTable i : Nat)
    (hn : fileHeaderNumberOfSymbols buffer pFileHeader + 256 ≤ 4294967296)
    (hi : i < fileHeaderNumberOfSymbols buffer pFileHeader) :
    nextSymbolIndex buffer pSymbolTable i
      = i + symbolNumberOfAuxSymbols buffer (symbolAt pSymbolTable i) + 1 := by
  have h1 : symbolNumberOfAuxSymbols buffer (symbolAt pSymbolTable i) < 256 :=
    readByte_lt _ _
  unfold nextSymbolIndex
  exact Nat.mod_eq_of_lt (by omega)

theorem examined_primary (buffer : List Nat) (pFileHeader pSymbolTable : Nat)
    (hn : fileHeaderNumberOfSymbols buffer pFileHeader + 256 ≤ 4294967296) :
    ∀ (fuel i : Nat),
      (i < fileHeaderNumberOfSymbols buffer pFileHeader →
        IsPrimarySlot buffer pFileHeader pSymbolTable i) →
      ∀ j ∈ examinedSymbols buffer pFileHeader pSymbolTable fuel i,
        IsPrimarySlot buffer pFileHeader pSymbolTable j := by
  intro fuel
  induction fuel with
  | zero => intro i _ j hj; simp [examinedSymbols] at hj
  | succ fuel ih =>
    intro i hp j hj
    unfold examinedSymbols at hj
    by_cases hi : i < fileHeaderNumberOfSymbols buffer pFileHeader
    · simp only [hi, if_true, List.mem_cons] at hj
      rcases hj with rfl | hj
      · exact hp hi
      · refine ih _ ?_ j hj
        intro hlt
        rw [nextSymbolIndex_eq buffer pFileHeader pSymbolTable i hn hi] at hlt ⊢
        exact IsPrimarySlot.next i (hp hi) hlt
    · simp [hi] at hj

theorem examined_next (buffer : List Nat) (pFileHeader pSymbolTable : Nat)
    (hn : fileHeaderNumberOfSymbols buffer pFileHeader + 256 ≤ 4294967296) (j : Nat)
    (hnext : j + symbolNumberOfAuxSymbols buffer (symbolAt pSymbolTable j) + 1
      < fileHeaderNumberOfSymbols buffer pFileHeader) :
    ∀ (fuel i : Nat), fileHeaderNumberOfSymbols buffer pFileHeader - i < fuel →
      j ∈ examinedSymbols buffer pFileHeader pSymbolTable fuel i →
      j + symbolNumberOfAuxSymbols buffer (symbolAt pSymbolTable j) + 1
        ∈ examinedSymbols buffer pFileHeader pSymbolTable fuel i := by
  intro fuel
  induction fuel with
  | zero => intro i h; omega
  | succ fuel ih =>
    intro i hf hj
    unfold examinedSymbols at hj ⊢
    by_cases hi : i < fileHeaderNumberOfSymbols buffer pFileHeader
    · simp only [hi, if_true, List.mem_cons] at hj ⊢
      have hnx := nextSymbolIndex_eq buffer pFileHeader pSymbolTable i hn hi
      rcases hj with rfl | hj
      · right
        rw [hnx]
        cases fuel with
        | zero => omega
        | succ fuel2 =>
          unfold examinedSymbols
          simp [hnext]
      · right
        exact ih _ (by rw [hnx]; omega) hj
    · simp [hi] at hj

theorem primary_examined (buffer : List Nat) (pFileHeader pSymbolTable : Nat)
    (hn : fileHeaderNumberOfSymbols buffer pFileHeader + 256 ≤ 4294967296) (j : Nat)
    (h : IsPrimarySlot buffer pFileHeader pSymbolTable j) :
    j ∈ examinedSymbols buffer pFileHeader pSymbolTable
      (fileHeaderNumberOfSymbols buffer pFileHeader + 1) 0 := by
  induction h with
  | first h0 =>
    unfold examinedSymbols
    simp [h0]
  | next i _ hlt ih =>
    exact examined_next buffer pFileHeader pSymbolTable hn i hlt _ 0 (by omega) ih

theorem primary_lt (buffer : List Nat) (pFileHeader pSymbolTable j : Nat)
    (h : IsPrimarySlot buffer pFileHeader pSymbolTable j) :
    j < fileHeaderNumberOfSymbols buffer pFileHeader := by
  cases h with
  | first h0 => exact h0
  | next i _ hlt => exact hlt

theorem primary_gap (buffer : List Nat) (pFileHeader pSymbolTable : Nat) :
    ∀ (b a : Nat), IsPrimarySlot buffer pFileHeader pSymbolTable a →
      IsPrimarySlot buffer pFileHeader pSymbolTable b → a < b →
      a + symbolNumberOfAuxSymbols buffer (symbolAt pSymbolTable a) + 1 ≤ b := by
  intro b
  induction b using Nat.strong_induction_on with
  | _ b ih =>
    intro a ha hb hab
    cases hb with
    | first _ => omega
    | next k hk hlt =>
      rcases Nat.lt_trichotomy a k with h | h | h
      · have := ih k (by omega) a ha hk h
        omega
      · subst h
        exact le_refl _
      · have := ih a hab k hk ha h
        omega

theorem mem_pushFunction (m : SectionMap) (key p : Nat) (b : Nat × List Nat)
    (hb : b ∈ pushFunction m key p) (q : Nat) (hq : q ∈ b.2) :
    q = p ∨ ∃ b2 ∈ m, q ∈ b2.2 := by
  induction m with
  | nil =>
    simp only [pushFunction, List.mem_singleton] at hb
    subst hb
    simp only [List.mem_singleton] at hq
    exact Or.inl hq
  | cons c cs ih =>
    unfold pushFunction at hb
    by_cases hc : c.1 = key
    · simp only [hc, if_true, List.mem_cons] at hb
      rcases hb with rfl | hb
      · simp only [List.mem_append, List.mem_singleton] at hq
        rcases hq with hq | hq
        · exact Or.inr ⟨c, List.mem_cons_self _ _, hq⟩
        · exact Or.inl hq
      · exact Or.inr ⟨b, List.mem_cons_of_mem _ hb, hq⟩
    · simp only [hc, if_false, List.mem_cons] at hb
      rcases hb with rfl | hb
      · exact Or.inr ⟨b, List.mem_cons_self _ _, hq⟩
      · rcases ih hb with h | ⟨b2, hb2, hq2⟩
        · exact Or.inl h
        · exact Or.inr ⟨b2, List.mem_cons_of_mem _ hb2, hq2⟩

theorem scanSymbols_inv (R : Nat → Prop) (buffer : List Nat)
    (pFileHeader pSymbolTable pSectionHeaders : Nat)
    (hn : fileHeaderNumberOfSymbols buffer pFileHeader + 256 ≤ 4294967296)
    (hR : ∀ i, IsPrimarySlot buffer pFileHeader pSymbolTable i →
      isFunctionSymbol buffer pFileHeader pSectionHeaders (symbolAt pSymbolTable i) = true →
      R (symbolAt pSymbolTable i)) :
    ∀ (fuel i : Nat) (m m1 : SectionMap),
      (i < fileHeaderNumberOfSymbols buffer pFileHeader →
        IsPrimarySlot buffer pFileHeader pSymbolTable i) →
      (∀ b ∈ m, ∀ p ∈ b.2, R p) →
      scanSymbols buffer pFileHeader pSymbolTable pSectionHeaders fuel i m = some m1 →
      ∀ b ∈ m1, ∀ p ∈ b.2, R p := by
  intro fuel
  induction fuel with
  | zero => intro i m m1 _ _ h; exact Option.noConfusion h
  | succ fuel ih =>
    intro i m m1 hp hm h
    unfold scanSymbols at h
    by_cases hi : i < fileHeaderNumberOfSymbols buffer pFileHeader
    · simp only [hi, if_true] at h
      refine ih _ _ m1 ?_ ?_ h
      · intro hlt
        rw [nextSymbolIndex_eq buffer pFileHeader pSymbolTable i hn hi] at hlt ⊢
        exact IsPrimarySlot.next i (hp hi) hlt
      · by_cases hf : isFunctionSymbol buffer pFileHeader pSectionHeaders
            (symbolAt pSymbolTable i) = true
        · simp only [hf, if_true]
          intro b hb q hq
          rcases mem_pushFunction m _ _ b hb q hq with rfl | ⟨b2, hb2, hq2⟩
          · exact hR i (hp hi) hf
          · exact hm b2 hb2 q hq2
        · simp only [hf]
          exact hm
    · simp only [hi, if_false] at h
      rw [← Option.some.inj h]
      exact hm

theorem scanSymbols_total (buffer : List Nat)
    (pFileHeader pSymbolTable pSectionHeaders : Nat)
    (hn : fileHeaderNumberOfSymbols buffer pFileHeader + 256 ≤ 4294967296) :
    ∀ (fuel i : Nat) (m : SectionMap),
      fileHeaderNumberOfSymbols buffer pFileHeader - i < fuel →
      ∃ m1, scanSymbols buffer pFileHeader pSymbolTable pSectionHeaders fuel i m = some m1 := by
  intro fuel
  induction fuel with
  | zero => intro i m h; omega
  | succ fuel ih =>
    intro i m hf
    unfold scanSymbols
    by_cases hi : i < fileHeaderNumberOfSymbols buffer pFileHeader
    · simp only [hi, if_true]
      exact ih _ _ (by rw [nextSymbolIndex_eq buffer pFileHeader pSymbolTable i hn hi]; omega)
    · exact ⟨m, by simp [hi]⟩

/-! ## Termination -/

theorem symbolStep_total (decode : DecodeFn) (hok : DecoderLengthOk decode)
    (buffer beyond : List Nat) (pMemberData pStringTable pSection : Nat) (funcSymbols : List Nat)
    (json : JsonObject) (i : Nat) :
    ∃ json1, symbolStep decode buffer beyond pMemberData pStringTable pSection funcSymbols json i
      = some json1 := by
  rw [symbolStep_eq]
  by_cases hr : recordsFunction buffer beyond pMemberData pStringTable pSection funcSymbols i = true
  · rw [if_pos hr, GetSignature_eq decode hok]
    exact ⟨_, rfl⟩
  · rw [if_neg hr]
    exact ⟨_, rfl⟩

theorem sectionLoop_total (decode : DecodeFn) (hok : DecoderLengthOk decode)
    (buffer beyond : List Nat) (pMemberData pStringTable pSection : Nat) (funcSymbols : List Nat) :
    ∀ (positions : List Nat) (json : JsonObject),
      ∃ json1, sectionLoop decode buffer beyond pMemberData pStringTable pSection funcSymbols
        positions json = some json1 := by
  intro positions
  induction positions with
  | nil => intro json; exact ⟨json, rfl⟩
  | cons i rest ih =>
    intro json
    obtain ⟨json2, h2⟩ := symbolStep_total decode hok buffer beyond pMemberData pStringTable pSection
      funcSymbols json i
    obtain ⟨json1, h1⟩ := ih json2
    exact ⟨json1, by rw [sectionLoop_cons, h2]; exact h1⟩

theorem bucketsLoop_total (T : Toolchain) (hok : DecoderLengthOk T.decode)
    (buffer beyond : List Nat) (pMemberData pStringTable pSectionHeaders : Nat) :
    ∀ (buckets : SectionMap) (json : JsonObject),
      ∃ json1, bucketsLoop T buffer beyond pMemberData pStringTable pSectionHeaders buckets json
        = some json1 := by
  intro buckets
  induction buckets with
  | nil => intro json; exact ⟨json, rfl⟩
  | cons b rest ih =>
    intro json
    obtain ⟨json2, h2⟩ := sectionLoop_total T.decode hok buffer beyond pMemberData pStringTable
      (sectionAt pSectionHeaders b.1) (T.sort (symbolValue buffer) b.2)
      (List.range (T.sort (symbolValue buffer) b.2).length) json
    obtain ⟨json1, h1⟩ := ih json2
    exact ⟨json1, by rw [bucketsLoop_cons, h2]; exact h1⟩

theorem functionsBySectionOf_total (buffer : List Nat) (pMemberData : Nat)
    (hn : fileHeaderNumberOfSymbols buffer pMemberData + 256 ≤ 4294967296) :
    ∃ m, functionsBySectionOf buffer pMemberData = some m :=
  scanSymbols_total buffer pMemberData (symbolTableOf buffer pMemberData)
    (sectionHeadersOf buffer pMemberData) hn
    (fileHeaderNumberOfSymbols buffer pMemberData + 1) 0 [] (by omega)

theorem analyzeObject_of_scan (T : Toolchain) (hok : DecoderLengthOk T.decode)
    (buffer beyond : List Nat) (pMemberData : Nat) (m : SectionMap)
    (hm : functionsBySectionOf buffer pMemberData = some m) :
    ∃ localJson, analyzeObject T buffer beyond pMemberData = some localJson := by
  obtain ⟨json, hj⟩ := bucketsLoop_total T hok buffer beyond pMemberData
    (stringTableOf buffer pMemberData) (sectionHeadersOf buffer pMemberData) (T.iterate m) []
  exact ⟨json, by unfold analyzeObject; simp only [hm]; exact hj⟩

theorem analyzeObject_total (T : Toolchain) (hok : DecoderLengthOk T.decode)
    (buffer beyond : List Nat) (pMemberData : Nat)
    (hn : fileHeaderNumberOfSymbols buffer pMemberData + 256 ≤ 4294967296) :
    ∃ localJson, analyzeObject T buffer beyond pMemberData = some localJson := by
  obtain ⟨m, hm⟩ := functionsBySectionOf_total buffer pMemberData hn
  exact analyzeObject_of_scan T hok buffer beyond pMemberData m hm

theorem collectResults_total (T : Toolchain) (hok : DecoderLengthOk T.decode)
    (buffer beyond : List Nat) :
    ∀ results : List Nat,
      (∀ p ∈ results, fileHeaderNumberOfSymbols buffer p + 256 ≤ 4294967296) →
      ∃ jsons, collectResults T buffer beyond results = some jsons := by
  intro results
  induction results with
  | nil => intro _; exact ⟨[], rfl⟩
  | cons p rest ih =>
    intro hn
    obtain ⟨localJson, h1⟩ := analyzeObject_total T hok buffer beyond p (hn p (List.mem_cons_self _ _))
    obtain ⟨jsons, h2⟩ := ih (fun q hq => hn q (List.mem_cons_of_mem _ hq))
    exact ⟨localJson :: jsons, by unfold collectResults; simp only [h1, h2]⟩

theorem memberStep_next_le (buffer : List Nat) (cur : Nat) :
    (∀ next, memberStep buffer cur = MemberStep.skip next →
        cur + 60 ≤ next ∧ next ≤ buffer.length)
      ∧ (∀ p next, memberStep buffer cur = MemberStep.submit p next →
        cur + 60 ≤ next ∧ next ≤ buffer.length) := by
  cases hp : from_chars (RemoveSpaces (headerSize buffer cur)) with
  | none =>
    have := (memberStep_invalid_iff buffer cur).2 hp
    constructor
    · intro next h; rw [this] at h; exact MemberStep.noConfusion h
    · intro p next h; rw [this] at h; exact MemberStep.noConfusion h
  | some size =>
    have hs := memberStep_of_parse buffer cur size hp
    by_cases h1 : cur + 60 + size + size % 2 > buffer.length
    · simp only [h1, if_true] at hs
      constructor
      · intro next h; rw [hs] at h; exact MemberStep.noConfusion h
      · intro p next h; rw [hs] at h; exact MemberStep.noConfusion h
    · simp only [h1, if_false] at hs
      by_cases hq : memberQualifies buffer cur size
      · simp only [hq, if_true] at hs
        constructor
        · intro next h; rw [hs] at h; exact MemberStep.noConfusion h
        · intro p next h
          rw [hs] at h
          injection h with _ h2
          omega
      · simp only [hq, if_false] at hs
        constructor
        · intro next h
          rw [hs] at h
          injection h with h2
          omega
        · intro p next h; rw [hs] at h; exact MemberStep.noConfusion h

theorem memberLoop_total (buffer : List Nat) :
    ∀ (fuel cur : Nat) (results : List Nat), buffer.length - cur < fuel →
      ∃ out, memberLoop buffer fuel cur results = some out := by
  intro fuel
  induction fuel with
  | zero => intro cur results h; omega
  | succ fuel ih =>
    intro cur results hf
    unfold memberLoop
    by_cases hc : cur + ARCHIVE_MEMBER_HEADER_SIZE ≤ buffer.length
    · have hc2 : cur + 60 ≤ buffer.length := hc
      simp only [hc, if_true]
      cases hs : memberStep buffer cur with
      | invalidSize => exact ⟨results, rfl⟩
      | outOfBounds => exact ⟨results, rfl⟩
      | skip next =>
        have := (memberStep_next_le buffer cur).1 next hs
        exact ih next results (by omega)
      | submit p next =>
        have := (memberStep_next_le buffer cur).2 p next hs
        exact ih next _ (by omega)
    · exact ⟨results, by simp [hc]⟩

theorem walkArchive_total (buffer : List Nat) :
    ∃ results, walkArchive buffer = some results :=
  memberLoop_total buffer (buffer.length + 1) IMAGE_ARCHIVE_START_SIZE [] (by omega)

/-- C16 (name invariant, as the code has it). With a decoder whose instructions have at
least one byte and fit the buffer they were decoded from, and a symbol count below
`2 ^ 32 - 256`, the task returns a map, and every key of it is non-empty and is the name
resolved for some symbol; a key that comes from a short-form name has no trailing ASCII
whitespace, and a key that comes from a long-form name is the zero-terminated string read
at its address in the string table, untrimmed, or the literal `[ERROR]`. -/
theorem name_invariant (T : Toolchain) (hok : DecoderLengthOk T.decode)
    (buffer beyond : List Nat) (pMemberData : Nat)
    (hn : fileHeaderNumberOfSymbols buffer pMemberData + 256 ≤ 4294967296) :
    ∃ localJson, analyzeObject T buffer beyond pMemberData = some localJson ∧ ∀ e ∈ localJson,
      e.1 ≠ []
        ∧ ∃ pSymbol, e.1 = symbolNameAt buffer beyond (stringTableOf buffer pMemberData) pSymbol
          ∧ (symbolShort buffer pSymbol ≠ 0 →
              e.1 = RemoveSpaces (symbolShortName buffer pSymbol)
                ∧ ∀ c, e.1.getLast? = some c → isspace c = false)
          ∧ (symbolShort buffer pSymbol = 0 →
              e.1 = cString buffer beyond
                    (stringTableOf buffer pMemberData + symbolLong buffer pSymbol)
                ∨ e.1 = charCodes "[ERROR]") := by
  obtain ⟨localJson, h⟩ := analyzeObject_total T hok buffer beyond pMemberData hn
  refine ⟨localJson, h, ?_⟩
  refine analyzeObject_inv
    (fun json => ∀ e ∈ json,
      e.1 ≠ []
        ∧ ∃ pSymbol, e.1 = symbolNameAt buffer beyond (stringTableOf buffer pMemberData) pSymbol
          ∧ (symbolShort buffer pSymbol ≠ 0 →
              e.1 = RemoveSpaces (symbolShortName buffer pSymbol)
                ∧ ∀ c, e.1.getLast? = some c → isspace c = false)
          ∧ (symbolShort buffer pSymbol = 0 →
              e.1 = cString buffer beyond
                    (stringTableOf buffer pMemberData + symbolLong buffer pSymbol)
                ∨ e.1 = charCodes "[ERROR]"))
    T buffer beyond pMemberData localJson ?_ (fun e he => absurd he (List.not_mem_nil e)) h
  intro json p value hj _ hne e he
  rcases mem_jsonAssign json _ value e he with h1 | h1
  · subst h1
    refine ⟨hne, p, rfl, ?_, ?_⟩
    · intro hs
      have hn := symbolNameAt_short buffer beyond (stringTableOf buffer pMemberData) p hs
      refine ⟨hn, fun c hc => ?_⟩
      simp only [hn] at hc
      exact RemoveSpaces_getLast _ c hc
    · intro hs
      have hn := symbolNameAt_long buffer beyond (stringTableOf buffer pMemberData) p hs
      by_cases hlt : stringTableOf buffer pMemberData + symbolLong buffer p < buffer.length
      · exact Or.inl (by simp only [hn, hlt, if_true])
      · exact Or.inr (by simp only [hn, hlt, if_false])
  · exact hj e h1

/-- C16, at a concrete input: the map of the object of `abcArchive`. -/
theorem name_invariant_witness :
    (DecoderLengthOk sampleToolchain.decode
      ∧ fileHeaderNumberOfSymbols abcArchive 68 + 256 ≤ 4294967296)
      ∧ analyzeObject sampleToolchain abcArchive [] 68
          = some [(charCodes "abc" ++ [0, 0, 0, 0, 0], "90 90 90")]
      ∧ ∃ localJson, analyzeObject sampleToolchain abcArchive [] 68 = some localJson
          ∧ ∀ e ∈ localJson, e.1 ≠ [] :=
  ⟨⟨sampleDecode_ok, by decide⟩, by rfl,
    (name_invariant sampleToolchain sampleDecode_ok abcArchive [] 68 (by decide)).imp
      fun _ h => ⟨h.1, fun e he => (h.2 e he).1⟩⟩

/-- C16, the claim as stated fails: the function symbol of `spaceNameArchive` has a
long-form name that reads `f` and a space in the string table, and the key recorded for
it ends with the space. -/
theorem name_invariant_counterexample :
    walkArchive spaceNameArchive = some [68]
      ∧ symbolShort spaceNameArchive 128 = 0
      ∧ analyzeObject sampleToolchain spaceNameArchive [] 68 = some [(charCodes "f ", "90")]
      ∧ (charCodes "f ").getLast? = some 32
      ∧ isspace 32 = true :=
  ⟨by rfl, by rfl, by rfl, by rfl, by rfl⟩


/-- C18 (cross-object merge). With a decoder whose instructions have at least one byte
and fit the buffer they were decoded from, and symbol counts below `2 ^ 32 - 256` in the
submitted objects, `ParseFile` produces a map, and the map is the left-to-right
fold of the maps returned by the tasks, in submission order, which is the order of the
members in the archive, under the update that lets later entries overwrite earlier ones:
for every key, the final value is the value in the last of these maps that has the key,
and there is none when no map has it. In `dupArchive`, where two objects define `dup`,
the pattern of the second object is the final one. -/
theorem cross_object_merge (T : Toolchain) (hok : DecoderLengthOk T.decode)
    (buffer beyond : List Nat)
    (hn : ∀ results, walkArchive buffer = some results →
      ∀ p ∈ results, fileHeaderNumberOfSymbols buffer p + 256 ≤ 4294967296) :
    (∃ results jsons final,
        walkArchive buffer = some results
          ∧ List.Forall₂ (fun pMemberData localJson =>
              analyzeObject T buffer beyond pMemberData = some localJson) results jsons
          ∧ signaturesJson T buffer beyond = some final
          ∧ final = jsons.foldl jsonUpdate []
          ∧ ∀ key, jsonLookup final key
              = jsons.reverse.findSome? fun localJson => jsonLookup localJson key)
      ∧ collectResults sampleToolchain dupArchive [] [68, 216]
          = some [[(charCodes "dup", "90")], [(charCodes "dup", "90 90")]]
      ∧ signaturesJson sampleToolchain dupArchive [] = some [(charCodes "dup", "90 90")] := by
  refine ⟨?_, by rfl, by rfl⟩
  obtain ⟨results, h1⟩ := walkArchive_total buffer
  obtain ⟨jsons, h2⟩ := collectResults_total T hok buffer beyond results (hn results h1)
  have hall := collectResults_forall T buffer beyond results jsons h2
  have hnd : ∀ m ∈ jsons, (m.map Prod.fst).Nodup := by
    intro m hm
    obtain ⟨p, _, hp⟩ := collectResults_mem T buffer beyond results jsons hall m hm
    exact analyzeObject_nodup T buffer beyond p m hp
  refine ⟨results, jsons, jsons.foldl jsonUpdate [], h1, hall, ?_, rfl, ?_⟩
  · unfold signaturesJson
    simp only [h1, h2]
    rfl
  · intro key
    rw [jsonLookup_merge jsons [] key hnd]
    simp [jsonLookup]

/-- C18, at a concrete input: `dupArchive`, whose two objects are submitted at 68 and
216. -/
theorem cross_object_merge_witness :
    (DecoderLengthOk sampleToolchain.decode
      ∧ walkArchive dupArchive = some [68, 216]
      ∧ ∀ p ∈ [68, 216], fileHeaderNumberOfSymbols dupArchive p + 256 ≤ 4294967296)
      ∧ signaturesJson sampleToolchain dupArchive [] = some [(charCodes "dup", "90 90")]
      ∧ ∃ results jsons final,
        walkArchive dupArchive = some results
          ∧ List.Forall₂ (fun pMemberData localJson =>
              analyzeObject sampleToolchain dupArchive [] pMemberData = some localJson)
              results jsons
          ∧ signaturesJson sampleToolchain dupArchive [] = some final
          ∧ final = jsons.foldl jsonUpdate []
          ∧ ∀ key, jsonLookup final key
              = jsons.reverse.findSome? fun localJson => jsonLookup localJson key :=
  ⟨⟨sampleDecode_ok, by rfl, by decide⟩, by rfl,
    (cross_object_merge sampleToolchain sampleDecode_ok dupArchive []
      (fun results h => by
        have h2 : walkArchive dupArchive = some [68, 216] := by rfl
        rw [h2] at h
        rw [← Option.some.inj h]
        decide)).1⟩

/-- C19 (duplicate names within one object, as the code has it). With a decoder whose
instructions have at least one byte and fit the buffer they were decoded from, the task
returns a map once its first loop has ended, and the pattern stored under a name is the one generated for the symbol that is processed last among those recorded
under the name: the buckets of `functionsBySection` are processed in the iteration order
of the map, and the symbols of one bucket in ascending order of value. So when position
`i` of the sorted vector of a bucket yields a record, no later position of that bucket and
no position of a later bucket yields a record of the same name, the map returned by the
task holds the pattern of position `i` under that name; the positions before `i` hold
the symbols of smaller or equal value. -/
theorem duplicate_names (T : Toolchain) (hsort : SortOk T.sort)
    (hok : DecoderLengthOk T.decode) (buffer beyond : List Nat)
    (pMemberData : Nat) (m before after : SectionMap)
    (b : Nat × List Nat)
    (hscan : functionsBySectionOf buffer pMemberData = some m)
    (hiter : T.iterate m = before ++ b :: after)
    (i : Nat) (hi : i < (T.sort (symbolValue buffer) b.2).length)
    (hrec : recordsFunction buffer beyond pMemberData (stringTableOf buffer pMemberData)
      (sectionAt (sectionHeadersOf buffer pMemberData) b.1)
      (T.sort (symbolValue buffer) b.2) i = true)
    (hlast : ∀ k, i < k → k < (T.sort (symbolValue buffer) b.2).length →
      recordsFunction buffer beyond pMemberData (stringTableOf buffer pMemberData)
        (sectionAt (sectionHeadersOf buffer pMemberData) b.1)
        (T.sort (symbolValue buffer) b.2) k = true →
      recordName buffer beyond (stringTableOf buffer pMemberData) (T.sort (symbolValue buffer) b.2) k
        ≠ recordName buffer beyond (stringTableOf buffer pMemberData)
            (T.sort (symbolValue buffer) b.2) i)
    (hafter : ∀ b2 ∈ after, ∀ k, k < (T.sort (symbolValue buffer) b2.2).length →
      recordsFunction buffer beyond pMemberData (stringTableOf buffer pMemberData)
        (sectionAt (sectionHeadersOf buffer pMemberData) b2.1)
        (T.sort (symbolValue buffer) b2.2) k = true →
      recordName buffer beyond (stringTableOf buffer pMemberData) (T.sort (symbolValue buffer) b2.2) k
        ≠ recordName buffer beyond (stringTableOf buffer pMemberData)
            (T.sort (symbolValue buffer) b.2) i) :
    (∃ localJson, analyzeObject T buffer beyond pMemberData = some localJson
      ∧ jsonLookup localJson
          (recordName buffer beyond (stringTableOf buffer pMemberData)
            (T.sort (symbolValue buffer) b.2) i)
        = recordPattern T.decode buffer pMemberData
            (sectionAt (sectionHeadersOf buffer pMemberData) b.1)
            (T.sort (symbolValue buffer) b.2) i)
    ∧ (∃ pattern, recordPattern T.decode buffer pMemberData
          (sectionAt (sectionHeadersOf buffer pMemberData) b.1)
          (T.sort (symbolValue buffer) b.2) i = some pattern)
    ∧ ∀ k, k < i →
        symbolValue buffer ((T.sort (symbolValue buffer) b.2).getD k 0)
          ≤ symbolValue buffer ((T.sort (symbolValue buffer) b.2).getD i 0) := by
  obtain ⟨localJson, hrun0⟩ := analyzeObject_of_scan T hok buffer beyond pMemberData m hscan
  have hrun := hrun0
  unfold analyzeObject at hrun
  simp only [hscan, hiter] at hrun
  rw [bucketsLoop_append] at hrun
  cases ha : bucketsLoop T buffer beyond pMemberData (stringTableOf buffer pMemberData)
      (sectionHeadersOf buffer pMemberData) before [] with
  | none => rw [ha] at hrun; exact Option.noConfusion hrun
  | some ja =>
    rw [ha] at hrun
    simp only [Option.some_bind] at hrun
    rw [bucketsLoop_cons] at hrun
    cases hb : sectionLoop T.decode buffer beyond pMemberData (stringTableOf buffer pMemberData)
        (sectionAt (sectionHeadersOf buffer pMemberData) b.1)
        (T.sort (symbolValue buffer) b.2)
        (List.range (T.sort (symbolValue buffer) b.2).length) ja with
    | none => rw [hb] at hrun; exact Option.noConfusion hrun
    | some jb =>
      rw [hb] at hrun
      simp only [Option.some_bind] at hrun
      have hsec := sectionLoop_last_writer T.decode buffer beyond pMemberData
        (stringTableOf buffer pMemberData)
        (sectionAt (sectionHeadersOf buffer pMemberData) b.1)
        (T.sort (symbolValue buffer) b.2) ja jb i hi hrec hlast hb
      have hkeep := bucketsLoop_lookup T buffer beyond pMemberData
        (stringTableOf buffer pMemberData) (sectionHeadersOf buffer pMemberData)
        (recordName buffer beyond (stringTableOf buffer pMemberData)
          (T.sort (symbolValue buffer) b.2) i) after jb localJson hafter hrun
      exact ⟨⟨localJson, hrun0, hkeep.trans hsec.1⟩, hsec.2, fun k hk =>
        sorted_getD_le (symbolValue buffer) _ (hsort (symbolValue buffer) b.2).2 k i hk hi⟩

/-- C19, at a concrete input: in `sameNameArchive` the two symbols of the name `samename`
are sorted into the order (slot 1, slot 0), and the pattern of position 1, the `E8` call
of slot 0, is the one stored. -/
theorem duplicate_names_witness :
    (SortOk sampleToolchain.sort
      ∧ DecoderLengthOk sampleToolchain.decode
      ∧ functionsBySectionOf sameNameArchive 68 = some [(1, [128, 146])]
      ∧ sampleToolchain.iterate [(1, [128, 146])] = [] ++ (1, [128, 146]) :: []
      ∧ sampleToolchain.sort (symbolValue sameNameArchive) [128, 146] = [146, 128]
      ∧ recordsFunction sameNameArchive [] 68 (stringTableOf sameNameArchive 68)
          (sectionAt (sectionHeadersOf sameNameArchive 68) 1) [146, 128] 1 = true)
      ∧ analyzeObject sampleToolchain sameNameArchive [] 68
          = some [(charCodes "samename", "E8 ?? ?? ?? ??")]
      ∧ ∃ localJson, analyzeObject sampleToolchain sameNameArchive [] 68 = some localJson
          ∧ jsonLookup localJson
              (recordName sameNameArchive [] (stringTableOf sameNameArchive 68)
                (sampleToolchain.sort (symbolValue sameNameArchive) (1, [128, 146]).2) 1)
            = recordPattern sampleToolchain.decode sameNameArchive 68
                (sectionAt (sectionHeadersOf sameNameArchive 68) (1, [128, 146]).1)
                (sampleToolchain.sort (symbolValue sameNameArchive) (1, [128, 146]).2) 1 :=
  ⟨⟨sampleSort_ok, sampleDecode_ok, by rfl, by rfl, by rfl, by rfl⟩, by rfl,
    (duplicate_names sampleToolchain sampleSort_ok sampleDecode_ok sameNameArchive [] 68
      [(1, [128, 146])] [] [] (1, [128, 146])
      (by rfl) (by rfl) 1 (by decide) (by rfl)
      (fun k h1 h2 => by
        have h3 : (sampleToolchain.sort (symbolValue sameNameArchive)
            (1, [128, 146]).2).length = 2 := by rfl
        omega)
      (fun b2 hb2 => absurd hb2 (List.not_mem_nil b2))).1⟩

/-- C19, the claim as stated fails: the two function symbols of `sameNameArchive` share
the name `samename` and both pass the range check; slot 1, the last in symbol-table scan
order, has the value 0 and the pattern `90`, slot 0 has the value 1 and the pattern
`E8 ?? ?? ?? ??`; the sort puts slot 0 last, and the pattern stored is the one of
slot 0. -/
theorem duplicate_names_counterexample :
    examinedSymbols sameNameArchive 68 (symbolTableOf sameNameArchive 68)
        (fileHeaderNumberOfSymbols sameNameArchive 68 + 1) 0 = [0, 1]
      ∧ functionsBySectionOf sameNameArchive 68
          = some [(1, [symbolAt (symbolTableOf sameNameArchive 68) 0,
              symbolAt (symbolTableOf sameNameArchive 68) 1])]
      ∧ symbolNameAt sameNameArchive [] (stringTableOf sameNameArchive 68)
          (symbolAt (symbolTableOf sameNameArchive 68) 0) = charCodes "samename"
      ∧ symbolNameAt sameNameArchive [] (stringTableOf sameNameArchive 68)
          (symbolAt (symbolTableOf sameNameArchive 68) 1) = charCodes "samename"
      ∧ sampleToolchain.sort (symbolValue sameNameArchive) [128, 146] = [146, 128]
      ∧ recordsFunction sameNameArchive [] 68 (stringTableOf sameNameArchive 68)
          (sectionAt (sectionHeadersOf sameNameArchive 68) 1) [146, 128] 0 = true
      ∧ recordsFunction sameNameArchive [] 68 (stringTableOf sameNameArchive 68)
          (sectionAt (sectionHeadersOf sameNameArchive 68) 1) [146, 128] 1 = true
      ∧ recordPattern sampleDecode sameNameArchive 68
          (sectionAt (sectionHeadersOf sameNameArchive 68) 1) [146, 128] 0 = some "90"
      ∧ recordPattern sampleDecode sameNameArchive 68
          (sectionAt (sectionHeadersOf sameNameArchive 68) 1) [146, 128] 1
          = some "E8 ?? ?? ?? ??"
      ∧ analyzeObject sampleToolchain sameNameArchive [] 68
          = some [(charCodes "samename", "E8 ?? ?? ?? ??")] :=
  ⟨by rfl, by rfl, by rfl, by rfl, by rfl, by rfl, by rfl, by rfl, by rfl, by rfl⟩


theorem sampleIterate_ok : IterateOk sampleToolchain.iterate :=
  fun m => List.Perm.refl m

/-- C20 (auxiliary records are skipped). For an object whose symbol count is below
`2 ^ 32 - 256`, so that the 32-bit index of the first loop cannot wrap, and a decoder
whose instructions have at least one byte and fit their buffer: a symbol-table
slot is examined by the loop if and only if it is a primary slot, that is index 0 or the
slot right after the auxiliary slots of the previous primary slot; no slot inside the
auxiliary range of a primary slot is a primary slot; the loop ends, and every symbol it
puts into `functionsBySection`, hence every name in the map the task returns, comes from
a primary slot that passes the checks, whatever the bytes of the auxiliary slots are. -/
theorem aux_records_skipped (T : Toolchain) (hsort : SortOk T.sort)
    (hiter : IterateOk T.iterate) (hok : DecoderLengthOk T.decode)
    (buffer beyond : List Nat) (pMemberData : Nat)
    (hn : fileHeaderNumberOfSymbols buffer pMemberData + 256 ≤ 4294967296) :
    (∀ i, i ∈ examinedSymbols buffer pMemberData (symbolTableOf buffer pMemberData)
          (fileHeaderNumberOfSymbols buffer pMemberData + 1) 0
        ↔ IsPrimarySlot buffer pMemberData (symbolTableOf buffer pMemberData) i)
      ∧ (∀ i j, IsPrimarySlot buffer pMemberData (symbolTableOf buffer pMemberData) i →
          i < j →
          j ≤ i + symbolNumberOfAuxSymbols buffer
            (symbolAt (symbolTableOf buffer pMemberData) i) →
          ¬ IsPrimarySlot buffer pMemberData (symbolTableOf buffer pMemberData) j)
      ∧ (∃ m, functionsBySectionOf buffer pMemberData = some m
          ∧ ∀ b ∈ m, ∀ p ∈ b.2, ∃ i,
              IsPrimarySlot buffer pMemberData (symbolTableOf buffer pMemberData) i
                ∧ isFunctionSymbol buffer pMemberData (sectionHeadersOf buffer pMemberData)
                    (symbolAt (symbolTableOf buffer pMemberData) i) = true
                ∧ p = symbolAt (symbolTableOf buffer pMemberData) i)
      ∧ (∃ localJson, analyzeObject T buffer beyond pMemberData = some localJson
          ∧ ∀ e ∈ localJson, ∃ i,
            IsPrimarySlot buffer pMemberData (symbolTableOf buffer pMemberData) i
              ∧ isFunctionSymbol buffer pMemberData (sectionHeadersOf buffer pMemberData)
                  (symbolAt (symbolTableOf buffer pMemberData) i) = true
              ∧ e.1 = symbolNameAt buffer beyond (stringTableOf buffer pMemberData)
                  (symbolAt (symbolTableOf buffer pMemberData) i)) := by
  have hscan : ∀ m, functionsBySectionOf buffer pMemberData = some m →
      ∀ b ∈ m, ∀ p ∈ b.2, ∃ i,
        IsPrimarySlot buffer pMemberData (symbolTableOf buffer pMemberData) i
          ∧ isFunctionSymbol buffer pMemberData (sectionHeadersOf buffer pMemberData)
              (symbolAt (symbolTableOf buffer pMemberData) i) = true
          ∧ p = symbolAt (symbolTableOf buffer pMemberData) i := by
    intro m hm
    exact scanSymbols_inv
      (fun p => ∃ i, IsPrimarySlot buffer pMemberData (symbolTableOf buffer pMemberData) i
        ∧ isFunctionSymbol buffer pMemberData (sectionHeadersOf buffer pMemberData)
            (symbolAt (symbolTableOf buffer pMemberData) i) = true
        ∧ p = symbolAt (symbolTableOf buffer pMemberData) i)
      buffer pMemberData _ _ hn (fun i hi hf => ⟨i, hi, hf, rfl⟩) _ 0 [] m
      (fun h0 => IsPrimarySlot.first h0)
      (fun b hb => absurd hb (List.not_mem_nil b)) hm
  refine ⟨?_, ?_, ?_, ?_⟩
  · intro i
    constructor
    · intro hi
      exact examined_primary buffer pMemberData _ hn _ 0
        (fun h0 => IsPrimarySlot.first h0) i hi
    · intro hi
      exact primary_examined buffer pMemberData _ hn i hi
  · intro i j hi hij hj hpj
    have := primary_gap buffer pMemberData _ j i hi hpj hij
    omega
  · obtain ⟨m, hm⟩ := scanSymbols_total buffer pMemberData
      (symbolTableOf buffer pMemberData) (sectionHeadersOf buffer pMemberData) hn
      (fileHeaderNumberOfSymbols buffer pMemberData + 1) 0 [] (by omega)
    exact ⟨m, hm, hscan m hm⟩
  · obtain ⟨localJson, hrun⟩ := analyzeObject_total T hok buffer beyond pMemberData hn
    refine ⟨localJson, hrun, ?_⟩
    refine analyzeObject_inv
      (fun json => ∀ e ∈ json, ∃ i,
        IsPrimarySlot buffer pMemberData (symbolTableOf buffer pMemberData) i
          ∧ isFunctionSymbol buffer pMemberData (sectionHeadersOf buffer pMemberData)
              (symbolAt (symbolTableOf buffer pMemberData) i) = true
          ∧ e.1 = symbolNameAt buffer beyond (stringTableOf buffer pMemberData)
              (symbolAt (symbolTableOf buffer pMemberData) i))
      T buffer beyond pMemberData localJson ?_ (fun e he => absurd he (List.not_mem_nil e)) hrun
    intro json p value hj hp _ e he
    rcases mem_jsonAssign json _ value e he with h1 | h1
    · obtain ⟨m, b, hm, hb, hpb⟩ := hp
      have hb2 : b ∈ m := (hiter m).subset hb
      have hp2 : p ∈ b.2 := (hsort (symbolValue buffer) b.2).1.subset hpb
      obtain ⟨i, hi, hf, rfl⟩ := hscan m hm b hb2 p hp2
      exact ⟨i, hi, hf, by rw [h1]⟩
    · exact hj e h1

/-- C20, at a concrete input: in `auxArchive` slot 0 has one auxiliary record; slot 1, that
record, holds the bytes of a function symbol that would pass the checks, and is neither
examined nor recorded. -/
theorem aux_records_skipped_witness :
    (SortOk sampleToolchain.sort ∧ IterateOk sampleToolchain.iterate
      ∧ DecoderLengthOk sampleToolchain.decode
      ∧ fileHeaderNumberOfSymbols auxArchive 68 + 256 ≤ 4294967296)
      ∧ (∀ i, i ∈ examinedSymbols auxArchive 68 (symbolTableOf auxArchive 68)
            (fileHeaderNumberOfSymbols auxArchive 68 + 1) 0
          ↔ IsPrimarySlot auxArchive 68 (symbolTableOf auxArchive 68) i)
      ∧ examinedSymbols auxArchive 68 (symbolTableOf auxArchive 68)
          (fileHeaderNumberOfSymbols auxArchive 68 + 1) 0 = [0, 2]
      ∧ symbolNumberOfAuxSymbols auxArchive (symbolAt (symbolTableOf auxArchive 68) 0) = 1
      ∧ isFunctionSymbol auxArchive 68 (sectionHeadersOf auxArchive 68)
          (symbolAt (symbolTableOf auxArchive 68) 1) = true
      ∧ symbolNameAt auxArchive [] (stringTableOf auxArchive 68)
          (symbolAt (symbolTableOf auxArchive 68) 1) = charCodes "aux_slot"
      ∧ analyzeObject sampleToolchain auxArchive [] 68
          = some [(charCodes "primary0", "90"), (charCodes "primary2", "90")] :=
  ⟨⟨sampleSort_ok, sampleIterate_ok, sampleDecode_ok, by decide⟩,
    (aux_records_skipped sampleToolchain sampleSort_ok sampleIterate_ok sampleDecode_ok
      auxArchive [] 68 (by decide)).1,
    by rfl, by rfl, by rfl, by rfl, by rfl⟩


/-! ## Claims about sizes and termination -/

/-- C21 (value past section end). In an archive buffer shorter than `2 ^ 32` bytes, for
the last position of the sorted vector of a section whose symbol has a value above
`SizeOfRawData`: the length is `(SizeOfRawData - Value) mod 2 ^ 32`, that is
`SizeOfRawData + 2 ^ 32 - Value`; `pFuncCode + funcSize` is then above the end of the
buffer, the check `pFuncCode + funcSize <= memEnd` fails, and the iteration leaves
`localJson` as it is without a call of `GetSignature`, whatever the decoder. -/
theorem value_past_section_end (decode : DecodeFn) (buffer beyond : List Nat)
    (pMemberData pStringTable pSection : Nat) (funcSymbols : List Nat)
    (localJson : JsonObject) (k : Nat)
    (hN : buffer.length < 4294967296)
    (hlast : k + 1 = funcSymbols.length)
    (hv : sectionSizeOfRawData buffer pSection < symbolValue buffer (funcSymbols.getD k 0)) :
    ((funcSizeAt buffer pSection funcSymbols k : Nat) : Int)
        = ((sectionSizeOfRawData buffer pSection : Int)
            - (symbolValue buffer (funcSymbols.getD k 0) : Int)) % 4294967296
      ∧ funcSizeAt buffer pSection funcSymbols k
          = sectionSizeOfRawData buffer pSection + 4294967296
            - symbolValue buffer (funcSymbols.getD k 0)
      ∧ buffer.length < funcCodeAt buffer pMemberData pSection (funcSymbols.getD k 0)
          + funcSizeAt buffer pSection funcSymbols k
      ∧ recordsFunction buffer beyond pMemberData pStringTable pSection funcSymbols k = false
      ∧ symbolStep decode buffer beyond pMemberData pStringTable pSection funcSymbols localJson k
          = some localJson := by
  have h1 := symbolValue_lt buffer (funcSymbols.getD k 0)
  have h2 := sectionSizeOfRawData_lt buffer pSection
  have hc : ¬ k < funcSymbols.length - 1 := by omega
  have hsize : funcSizeAt buffer pSection funcSymbols k
      = sectionSizeOfRawData buffer pSection + 4294967296
        - symbolValue buffer (funcSymbols.getD k 0) := by
    unfold funcSizeAt
    simp only [hc, if_false]
    omega
  have hover : buffer.length < funcCodeAt buffer pMemberData pSection (funcSymbols.getD k 0)
      + funcSizeAt buffer pSection funcSymbols k := by
    rw [hsize]
    unfold funcCodeAt
    omega
  have hrec : recordsFunction buffer beyond pMemberData pStringTable pSection funcSymbols k
      = false := by
    cases hr : recordsFunction buffer beyond pMemberData pStringTable pSection funcSymbols k with
    | false => rfl
    | true =>
      have := ((recordsFunction_iff _ _ _ _ _ _ _).1 hr).2
      omega
  refine ⟨?_, hsize, hover, hrec, ?_⟩
  · rw [hsize]
    omega
  · rw [symbolStep_eq, hrec]
    rfl

/-- C21, at a concrete input: the second symbol of `wideArchive` has the value 3 in a
section of 1 byte; it is the last of the sorted vector, its length is `2 ^ 32 - 2`, and
the object yields the record of the first symbol alone. -/
theorem value_past_section_end_witness :
    (wideArchive.length < 4294967296
      ∧ 1 + 1 = [128, 146].length
      ∧ sectionSizeOfRawData wideArchive (sectionAt (sectionHeadersOf wideArchive 68) 1)
          < symbolValue wideArchive ([128, 146].getD 1 0))
      ∧ funcSizeAt wideArchive (sectionAt (sectionHeadersOf wideArchive 68) 1) [128, 146] 1
          = 4294967294
      ∧ recordsFunction wideArchive [] 68 (stringTableOf wideArchive 68)
          (sectionAt (sectionHeadersOf wideArchive 68) 1) [128, 146] 1 = false
      ∧ symbolStep sampleDecode wideArchive [] 68 (stringTableOf wideArchive 68)
          (sectionAt (sectionHeadersOf wideArchive 68) 1) [128, 146]
          [(charCodes "func_one", "90 90 90")] 1
          = some [(charCodes "func_one", "90 90 90")]
      ∧ analyzeObject sampleToolchain wideArchive [] 68
          = some [(charCodes "func_one", "90 90 90")] :=
  ⟨⟨by decide, by decide, by decide⟩,
    by rfl,
    (value_past_section_end sampleDecode wideArchive [] 68 (stringTableOf wideArchive 68)
      (sectionAt (sectionHeadersOf wideArchive 68) 1) [128, 146]
      [(charCodes "func_one", "90 90 90")] 1 (by decide) (by decide) (by decide)).2.2.2.1,
    (value_past_section_end sampleDecode wideArchive [] 68 (stringTableOf wideArchive 68)
      (sectionAt (sectionHeadersOf wideArchive 68) 1) [128, 146]
      [(charCodes "func_one", "90 90 90")] 1 (by decide) (by decide) (by decide)).2.2.2.2,
    by rfl⟩

/-! ## The trace of the member loop -/

theorem examinedHeaders_bound (buffer : List Nat) :
    ∀ (fuel cur : Nat),
      60 * (examinedHeaders buffer fuel cur).length ≤ buffer.length - cur := by
  intro fuel
  induction fuel with
  | zero => intro cur; simp [examinedHeaders]
  | succ fuel ih =>
    intro cur
    unfold examinedHeaders
    by_cases hc : cur + ARCHIVE_MEMBER_HEADER_SIZE ≤ buffer.length
    · have hc2 : cur + 60 ≤ buffer.length := hc
      simp only [hc, if_true]
      cases hs : memberStep buffer cur with
      | invalidSize => simp only [List.length_singleton]; omega
      | outOfBounds => simp only [List.length_singleton]; omega
      | skip next =>
        have := (memberStep_next_le buffer cur).1 next hs
        have := ih next
        simp only [List.length_cons]
        omega
      | submit p next =>
        have := (memberStep_next_le buffer cur).2 p next hs
        have := ih next
        simp only [List.length_cons]
        omega
    · simp [hc]

theorem examinedHeaders_mem (buffer : List Nat) :
    ∀ (fuel cur c : Nat), c ∈ examinedHeaders buffer fuel cur →
      cur ≤ c ∧ c + 60 ≤ buffer.length := by
  intro fuel
  induction fuel with
  | zero => intro cur c h; simp [examinedHeaders] at h
  | succ fuel ih =>
    intro cur c h
    unfold examinedHeaders at h
    by_cases hc : cur + ARCHIVE_MEMBER_HEADER_SIZE ≤ buffer.length
    · have hc2 : cur + 60 ≤ buffer.length := hc
      simp only [hc, if_true] at h
      cases hs : memberStep buffer cur with
      | invalidSize =>
        simp only [hs, List.mem_singleton] at h
        omega
      | outOfBounds =>
        simp only [hs, List.mem_singleton] at h
        omega
      | skip next =>
        have := (memberStep_next_le buffer cur).1 next hs
        simp only [hs, List.mem_cons] at h
        rcases h with h | h
        · omega
        · have := ih next c h
          omega
      | submit p next =>
        have := (memberStep_next_le buffer cur).2 p next hs
        simp only [hs, List.mem_cons] at h
        rcases h with h | h
        · omega
        · have := ih next c h
          omega
    · simp [hc] at h

/-- With enough fuel the trace does not depend on the fuel: it is the whole run. -/
theorem examinedHeaders_stable (buffer : List Nat) :
    ∀ (fuel fuel2 cur : Nat), buffer.length - cur < fuel → buffer.length - cur < fuel2 →
      examinedHeaders buffer fuel cur = examinedHeaders buffer fuel2 cur := by
  intro fuel
  induction fuel with
  | zero => intro fuel2 cur h; omega
  | succ fuel ih =>
    intro fuel2 cur h1 h2
    cases fuel2 with
    | zero => omega
    | succ fuel2 =>
      unfold examinedHeaders
      by_cases hc : cur + ARCHIVE_MEMBER_HEADER_SIZE ≤ buffer.length
      · have hc2 : cur + 60 ≤ buffer.length := hc
        simp only [hc, if_true]
        cases hs : memberStep buffer cur with
        | invalidSize => rfl
        | outOfBounds => rfl
        | skip next =>
          have := (memberStep_next_le buffer cur).1 next hs
          simp only
          rw [ih fuel2 next (by omega) (by omega)]
        | submit p next =>
          have := (memberStep_next_le buffer cur).2 p next hs
          simp only
          rw [ih fuel2 next (by omega) (by omega)]
      · simp [hc]

/-- A submitted member: its data start 60 bytes after its header, its Size field parses,
and its payload ends at or before the next header, inside the buffer. -/
theorem memberStep_submit (buffer : List Nat) (cur p next : Nat)
    (h : memberStep buffer cur = MemberStep.submit p next) :
    ∃ size, from_chars (RemoveSpaces (headerSize buffer cur)) = some size
      ∧ p = cur + 60 ∧ next = cur + 60 + size + size % 2 ∧ next ≤ buffer.length := by
  cases hp : from_chars (RemoveSpaces (headerSize buffer cur)) with
  | none =>
    have := (memberStep_invalid_iff buffer cur).2 hp
    rw [this] at h
    exact MemberStep.noConfusion h
  | some size =>
    have hs := memberStep_of_parse buffer cur size hp
    by_cases h1 : cur + 60 + size + size % 2 > buffer.length
    · simp only [h1, if_true] at hs
      rw [hs] at h
      exact MemberStep.noConfusion h
    · simp only [h1, if_false] at hs
      by_cases hq : memberQualifies buffer cur size
      · simp only [hq, if_true] at hs
        rw [hs] at h
        injection h with h2 h3
        exact ⟨size, rfl, by omega, by omega, by omega⟩
      · simp only [hq, if_false] at hs
        rw [hs] at h
        exact MemberStep.noConfusion h

/-- Every entry of the result of the member loop was there at the start or is the data
pointer of a header of the trace, whose payload lies inside the buffer. -/
theorem memberLoop_submitted (buffer : List Nat) :
    ∀ (fuel cur : Nat) (results out : List Nat),
      memberLoop buffer fuel cur results = some out →
      ∀ p ∈ out, p ∈ results ∨ ∃ c size, c ∈ examinedHeaders buffer fuel cur
        ∧ from_chars (RemoveSpaces (headerSize buffer c)) = some size
        ∧ p = c + 60 ∧ p + size ≤ buffer.length := by
  intro fuel
  induction fuel with
  | zero => intro cur results out h; simp [memberLoop] at h
  | succ fuel ih =>
    intro cur results out h p hp
    unfold memberLoop at h
    unfold examinedHeaders
    by_cases hc : cur + ARCHIVE_MEMBER_HEADER_SIZE ≤ buffer.length
    · simp only [hc, if_true] at h ⊢
      cases hs : memberStep buffer cur with
      | invalidSize =>
        simp only [hs, Option.some.injEq] at h
        subst h
        exact Or.inl hp
      | outOfBounds =>
        simp only [hs, Option.some.injEq] at h
        subst h
        exact Or.inl hp
      | skip next =>
        simp only [hs] at h
        rcases ih next results out h p hp with h1 | ⟨c, size, h1, h2⟩
        · exact Or.inl h1
        · exact Or.inr ⟨c, size, List.mem_cons_of_mem _ h1, h2⟩
      | submit q next =>
        simp only [hs] at h
        rcases ih next _ out h p hp with h1 | ⟨c, size, h1, h2⟩
        · rcases List.mem_append.1 h1 with h1 | h1
          · exact Or.inl h1
          · obtain ⟨size, h3, h4, h5, h6⟩ := memberStep_submit buffer cur q next hs
            have hpq : p = q := by simpa using h1
            refine Or.inr ⟨cur, size, List.mem_cons_self _ _, h3, ?_, ?_⟩
            · omega
            · omega
        · exact Or.inr ⟨c, size, List.mem_cons_of_mem _ h1, h2⟩
    · simp only [hc, if_false, Option.some.injEq] at h
      subst h
      exact Or.inl hp

theorem examinedHeaders_pairwise (buffer : List Nat) :
    ∀ (fuel cur : Nat),
      (examinedHeaders buffer fuel cur).Pairwise (fun a b => a + 60 ≤ b) := by
  intro fuel
  induction fuel with
  | zero => intro cur; simp [examinedHeaders]
  | succ fuel ih =>
    intro cur
    unfold examinedHeaders
    by_cases hc : cur + ARCHIVE_MEMBER_HEADER_SIZE ≤ buffer.length
    · simp only [hc, if_true]
      cases hs : memberStep buffer cur with
      | invalidSize => simp
      | outOfBounds => simp
      | skip next =>
        have := (memberStep_next_le buffer cur).1 next hs
        simp only [List.pairwise_cons]
        refine ⟨fun c hm => ?_, ih next⟩
        have := examinedHeaders_mem buffer fuel next c hm
        omega
      | submit p next =>
        have := (memberStep_next_le buffer cur).2 p next hs
        simp only [List.pairwise_cons]
        refine ⟨fun c hm => ?_, ih next⟩
        have := examinedHeaders_mem buffer fuel next c hm
        omega
    · simp [hc]

/-- One iteration of the member loop at a cursor whose header fits: the loop stops with
the results it has, or goes on from a cursor at least 60 bytes further and at most at the
end of the buffer, with the same results or with `pMemberData` appended. -/
theorem memberLoop_progress (buffer : List Nat) (fuel cur : Nat) (results : List Nat)
    (hc : cur + 60 ≤ buffer.length) :
    memberLoop buffer (fuel + 1) cur results = some results
      ∨ ∃ next, cur + 60 ≤ next ∧ next ≤ buffer.length
          ∧ (memberLoop buffer (fuel + 1) cur results = memberLoop buffer fuel next results
            ∨ memberLoop buffer (fuel + 1) cur results
                = memberLoop buffer fuel next (results ++ [cur + 60])) := by
  have hc2 : cur + ARCHIVE_MEMBER_HEADER_SIZE ≤ buffer.length := hc
  rw [memberLoop]
  simp only [hc2, if_true]
  cases hs : memberStep buffer cur with
  | invalidSize => exact Or.inl rfl
  | outOfBounds => exact Or.inl rfl
  | skip next =>
    have := (memberStep_next_le buffer cur).1 next hs
    exact Or.inr ⟨next, this.1, this.2, Or.inl rfl⟩
  | submit p next =>
    have := (memberStep_next_le buffer cur).2 p next hs
    obtain ⟨size, _, h4, _, _⟩ := memberStep_submit buffer cur p next hs
    subst h4
    exact Or.inr ⟨next, this.1, this.2, Or.inr rfl⟩

/-- C22 (walker termination and progress). For every buffer of `N` bytes the member loop
of `ParseFile` returns; any fuel above `N` gives the same trace of examined headers; one
iteration at a header that fits stops the loop or moves the cursor at least 60 bytes
further, to an offset at most `N`; the examined headers are at most `(N - 8) / 60`, lie
at least 60 bytes apart, and each lies inside the buffer from offset 8 on; every submitted
`pMemberData` is `c + 60` for an examined header `c` whose Size field parses to `size`
with `c + 60 + size <= N`. -/
theorem walker_progress (buffer : List Nat) :
    (∃ results, walkArchive buffer = some results
        ∧ ∀ p ∈ results, ∃ c size, c ∈ walkedHeaders buffer
            ∧ from_chars (RemoveSpaces (headerSize buffer c)) = some size
            ∧ p = c + 60 ∧ c + 60 + size ≤ buffer.length)
      ∧ (∀ fuel, buffer.length < fuel →
          examinedHeaders buffer fuel IMAGE_ARCHIVE_START_SIZE = walkedHeaders buffer)
      ∧ (∀ fuel cur results, cur + 60 ≤ buffer.length →
          memberLoop buffer (fuel + 1) cur results = some results
            ∨ ∃ next, cur + 60 ≤ next ∧ next ≤ buffer.length
                ∧ (memberLoop buffer (fuel + 1) cur results
                    = memberLoop buffer fuel next results
                  ∨ memberLoop buffer (fuel + 1) cur results
                    = memberLoop buffer fuel next (results ++ [cur + 60])))
      ∧ (walkedHeaders buffer).length ≤ (buffer.length - 8) / 60
      ∧ (walkedHeaders buffer).Pairwise (fun a b => a + 60 ≤ b)
      ∧ ∀ c ∈ walkedHeaders buffer, 8 ≤ c ∧ c + 60 ≤ buffer.length := by
  refine ⟨?_, ?_, ?_, ?_, ?_, ?_⟩
  · obtain ⟨results, hr⟩ := walkArchive_total buffer
    refine ⟨results, hr, fun p hp => ?_⟩
    rcases memberLoop_submitted buffer _ _ _ _ hr p hp with h | ⟨c, size, h1, h2, h3, h4⟩
    · simp at h
    · exact ⟨c, size, h1, h2, h3, by omega⟩
  · intro fuel hf
    exact examinedHeaders_stable buffer _ _ _
      (by unfold IMAGE_ARCHIVE_START_SIZE; omega) (by unfold IMAGE_ARCHIVE_START_SIZE; omega)
  · intro fuel cur results hc
    exact memberLoop_progress buffer fuel cur results hc
  · have := examinedHeaders_bound buffer (buffer.length + 1) IMAGE_ARCHIVE_START_SIZE
    have h8 : IMAGE_ARCHIVE_START_SIZE = 8 := rfl
    rw [h8] at this
    rw [Nat.le_div_iff_mul_le (by decide)]
    unfold walkedHeaders
    rw [h8]
    omega
  · exact examinedHeaders_pairwise buffer _ _
  · intro c hm
    have := examinedHeaders_mem buffer _ _ c hm
    have h8 : IMAGE_ARCHIVE_START_SIZE = 8 := rfl
    omega

/-- C22, at a concrete input: `badSecondArchive` has 170 bytes; the loop examines the
headers at 8 and 90, two of the at most `(170 - 8) / 60 = 2`, submits the member at 68,
whose 21 bytes end at 89, and stops at the second header. -/
theorem walker_progress_witness :
    badSecondArchive.length = 170
      ∧ walkArchive badSecondArchive = some [68]
      ∧ walkedHeaders badSecondArchive = [8, 90]
      ∧ from_chars (RemoveSpaces (headerSize badSecondArchive 8)) = some 21
      ∧ memberStep badSecondArchive 90 = MemberStep.invalidSize
      ∧ (walkedHeaders badSecondArchive).length ≤ (badSecondArchive.length - 8) / 60
      ∧ (∀ c ∈ walkedHeaders badSecondArchive, 8 ≤ c ∧ c + 60 ≤ badSecondArchive.length)
      ∧ ∃ results, walkArchive badSecondArchive = some results
          ∧ ∀ p ∈ results, ∃ c size, c ∈ walkedHeaders badSecondArchive
              ∧ from_chars (RemoveSpaces (headerSize badSecondArchive c)) = some size
              ∧ p = c + 60 ∧ c + 60 + size ≤ badSecondArchive.length :=
  ⟨by rfl, by rfl, by rfl, by rfl, by rfl,
    (walker_progress badSecondArchive).2.2.2.1,
    (walker_progress badSecondArchive).2.2.2.2.2,
    (walker_progress badSecondArchive).1⟩

end LibTrace
